import Mathlib

/-!
# pstree.c : a shallow embedding

The program reads the process table under /proc and prints it as a tree on
stderr.  The embedding keeps the structure of `src/pstree.c`:

* the two globals (`last_child[MAX_TREE_DEPTH]` and the `static int tabs` of
  `do_pstree_impl`) and the stderr stream form the state `St`, passed explicitly;
* the files under /proc are the record `Procfs`;
* `exit(EXIT_FAILURE)`, a failed `assert` and an array access outside its bounds
  end a run with `Res.abort`; the recursion of `do_pstree_impl` is bounded by a
  fuel argument, and `Res.timeout` is the answer when the fuel is used up;
* the streams the program holds open are counted in `FdSt`, and the definitions
  `Fd.*` are the program under a limit on open streams: `get_children` never
  closes the stream it opens, so a run uses up one stream per children file read.
-/

namespace Pstree

/-! ## Constants and flag macros (pstree.c 48-60) -/

def MAX_NAME_LEN : Nat := 256
def MAX_TREE_DEPTH : Nat := 256
def MAX_TASKS : Nat := 1024

def SHOW_PID : Nat := 1 <<< 0
def NUMERIC_SORT : Nat := 1 <<< 1
def FORKED_TASK : Nat := 1 <<< 2

def IS_SHOW_PID (flag : Nat) : Bool := (flag &&& SHOW_PID) == SHOW_PID
def IS_NUMERIC_SORT (flag : Nat) : Bool := (flag &&& NUMERIC_SORT) == NUMERIC_SORT
def IS_FORKED_TASK (flag : Nat) : Bool := (flag &&& FORKED_TASK) == FORKED_TASK

def START_PID : Int := 1

def EXIT_SUCCESS : Int := 0
def EXIT_FAILURE : Int := 1

/-! ## Results of a run -/

/-- The three ways a run ends before `main` returns: `exit(EXIT_FAILURE)` after a failed
`fopen`/`opendir`, a failed `assert`, and an array access outside the array (undefined
behaviour in C, made an explicit end here). -/
inductive Fault where
  | exit_failure
  | assert_fail
  | out_of_bounds
  deriving DecidableEq, Repr

/-- Result of running a piece of the program: it returns a value, the process ends with
a fault, or the recursion budget of the model is used up. -/
inductive Res (α : Type) where
  | done (a : α)
  | abort (f : Fault)
  | timeout

/-- Sequencing: the continuation runs only after a normal return. -/
def Res.bind {α β : Type} (r : Res α) (k : α → Res β) : Res β :=
  match r with
  | .done a => k a
  | .abort f => .abort f
  | .timeout => .timeout

/-! ## The environment: /proc -/

/-- What the program reads.  A file is its sequence of bytes, one `Char` each.
* `comm pid`: content of `/proc/pid/comm`, `none` when `fopen` fails;
* `task pid`: the values `atoi(ent->d_name)` of the entries of `/proc/pid/task` whose name
  does not start with a dot, in `readdir` order, `none` when `opendir` fails;
* `children pid tid`: the integers `fscanf` reads from `/proc/pid/task/tid/children`
  before `EOF`, `none` when `fopen` fails. -/
structure Procfs where
  comm : Int → Option String
  task : Int → Option (List Int)
  children : Int → Int → Option (List Int)

/-! ## The globals -/

/-- Global state: the `static int tabs` of `do_pstree_impl`, the array `last_child`, and
the lines written to stderr so far (each entry is one line, its final newline left out). -/
structure St where
  tabs : Nat
  last_child : Nat → Nat
  out : List String

/-- State at program start: zero-initialised globals, nothing printed. -/
def St.init : St := { tabs := 0, last_child := fun _ => 0, out := [] }

/-- Array store `a[i] = v`. -/
def write (a : Nat → Nat) (i v : Nat) : Nat → Nat := fun k => if k = i then v else a k

/-- One call of `PRINT(...)` that ends a line: the line is added to stderr. -/
def St.emit (s : St) (line : String) : St :=
  { tabs := s.tabs, last_child := s.last_child, out := s.out ++ [line] }

/-- Line 197: `last_child[tabs] |= is_last_child;`. -/
def St.mark (s : St) (is_last_child : Nat) : St :=
  { tabs := s.tabs,
    last_child := write s.last_child s.tabs (s.last_child s.tabs ||| is_last_child),
    out := s.out }

/-- The macro `INCR_INDENT(tabs)`. -/
def INCR_INDENT (s : St) : St :=
  { tabs := s.tabs + 1, last_child := s.last_child, out := s.out }

/-- Lines 224-225 on the state: `DECR_INDENT(tabs); last_child[tabs] = 0;`. -/
def St.unmark (s : St) : St :=
  { tabs := s.tabs - 1, last_child := write s.last_child (s.tabs - 1) 0, out := s.out }

/-! ## GET_PROC_NAME (pstree.c 74-83) -/

/-- Characters `fgets` stores for a buffer with room for `n` more characters: it stops
after a newline or at end of file. -/
def fgets_aux : Nat → List Char → List Char
  | 0, _ => []
  | _, [] => []
  | n + 1, c :: cs => if c = Char.ofNat 10 then [c] else c :: fgets_aux n cs

/-- The call `fgets(name, size, fp)` on a fresh stream: at most `size - 1` characters. -/
def fgets (size : Nat) (file : List Char) : List Char := fgets_aux (size - 1) file

/-- The function `strlen` on a zero-initialised buffer holding `buf`. -/
def strlen (buf : List Char) : Nat := (buf.takeWhile (fun c => c != Char.ofNat 0)).length

/-- The macro `GET_PROC_NAME(pid)`: open `/proc/pid/comm`, read one line with `fgets`, and
overwrite the character at `strlen(name) - 1` with NUL.  With nothing read the store goes
to `name[-1]`. -/
def GET_PROC_NAME (E : Procfs) (pid : Int) : Res String :=
  match E.comm pid with
  | none => .abort .exit_failure
  | some file =>
    let name := fgets MAX_NAME_LEN file.data
    if strlen name = 0 then .abort .out_of_bounds
    else .done (String.mk (name.take (strlen name - 1)))

/-! ## PRINT_INDENT (pstree.c 85-99) -/

/-- The macro `PRINT_INDENT(level)`, the pieces it prints for `i = 0 .. level - 1`. -/
def indent_pieces (last_child : Nat → Nat) (level : Nat) : List String :=
  (List.range level).map fun i =>
    if i = level - 1 then
      (if last_child level ≠ 0 then "└──" else "├──")
    else
      (if last_child (i + 1) ≠ 0 then "   " else "│  ")

/-- Text printed by `PRINT_INDENT(level)`. -/
def PRINT_INDENT (last_child : Nat → Nat) (level : Nat) : String :=
  String.join (indent_pieces last_child level)

/-- The format "%d" for a C int. -/
def fmt_d (n : Int) : String := toString n

/-! ## compare_pid, qsort -/

/-- The comparator of pstree.c 103-105: the value of `a >= b`. -/
def compare_pid (a b : Int) : Int := if a ≥ b then 1 else 0

/-- Merge loop of the C library's `qsort` (glibc `msort_with_tmp`), `while (n1 > 0 && n2 > 0)`:
the left element is taken when `cmp(b1, b2) <= 0`, the right one otherwise; what is left of
one run when the other is used up follows.  The first argument bounds the number of rounds. -/
def msort_merge_loop (cmp : Int → Int → Int) : Nat → List Int → List Int → List Int
  | 0, l, r => l ++ r
  | _ + 1, [], r => r
  | _ + 1, a :: l, [] => a :: l
  | k + 1, a :: l, b :: r =>
    if cmp a b ≤ 0 then a :: msort_merge_loop cmp k l (b :: r)
    else b :: msort_merge_loop cmp k (a :: l) r

/-- Merge of two runs of `n1` and `n2` elements: at most `n1 + n2` rounds of the loop. -/
def msort_merge (cmp : Int → Int → Int) (l r : List Int) : List Int :=
  msort_merge_loop cmp (l.length + r.length) l r

/-- Recursion of glibc `msort_with_tmp` on `n` elements: halves of `n / 2` and `n - n / 2`
elements are sorted and merged.  The first argument bounds the recursion depth. -/
def msort_with_tmp (cmp : Int → Int → Int) : Nat → List Int → List Int
  | 0, b => b
  | d + 1, b =>
    if b.length ≤ 1 then b
    else
      msort_merge cmp (msort_with_tmp cmp d (b.take (b.length / 2)))
        (msort_with_tmp cmp d (b.drop (b.length / 2)))

/-- The library call `qsort(base, n, sizeof(int), compar)` on the `n` elements `base`.
`qsort` is the C library's, not this repository's; the model is the merge sort that glibc
runs (the libc of the Linux systems whose /proc the program reads). -/
def qsort (base : List Int) (compar : Int → Int → Int) : List Int :=
  msort_with_tmp compar base.length base

/-! ## print_proc_name, print_forked_proc (pstree.c 111-153) -/

/-- Text that `print_proc_name` prints after the indentation, by the four cases of its
switch on `IS_FORKED_TASK(flag) << 1 | IS_SHOW_PID(flag)`. -/
def proc_text (flag : Nat) (name : String) (pid : Int) : String :=
  match IS_FORKED_TASK flag, IS_SHOW_PID flag with
  | false, false => name
  | false, true => name ++ "(" ++ fmt_d pid ++ ")"
  | true, false => "\x7b" ++ name ++ "\x7d"
  | true, true => "\x7b" ++ name ++ "\x7d(" ++ fmt_d pid ++ ")"

/-- The function `print_proc_name(pid, tabs, flag)`.  `PRINT_INDENT(tabs)` reads
`last_child[1 .. tabs]`. -/
def print_proc_name (E : Procfs) (pid : Int) (tabs : Nat) (flag : Nat) (s : St) : Res St :=
  (GET_PROC_NAME E pid).bind fun name =>
    if MAX_TREE_DEPTH ≤ tabs then .abort .out_of_bounds
    else .done (s.emit (PRINT_INDENT s.last_child tabs ++ proc_text flag name pid))

/-- Text that `print_forked_proc` prints after the indentation, by the cases of its switch
on `(show_pid & 0x1) << 1 | (num_tasks > 1)`. -/
def forked_text (name : String) (pid : Int) (num_tasks : Nat) (show_pid : Nat) : String :=
  match show_pid % 2, decide (1 < num_tasks) with
  | 0, false => "\x7b" ++ name ++ "\x7d"
  | 0, true => toString num_tasks ++ "*[\x7b" ++ name ++ "\x7d]"
  | _, _ => "\x7b" ++ name ++ "\x7d(" ++ fmt_d pid ++ ")"

/-- The function `print_forked_proc(pid, tabs, num_tasks, show_pid)`. -/
def print_forked_proc (E : Procfs) (pid : Int) (tabs : Nat) (num_tasks : Nat) (show_pid : Nat)
    (s : St) : Res St :=
  (GET_PROC_NAME E pid).bind fun name =>
    if MAX_TREE_DEPTH ≤ tabs then .abort .out_of_bounds
    else .done (s.emit (PRINT_INDENT s.last_child tabs ++ forked_text name pid num_tasks show_pid))

/-! ## get_proc_tasks, get_children, get_arr_len (pstree.c 155-193)

A local array `int a[MAX_TASKS] = { 0 }` is the list of its leading entries; the entries
after the list are zero. -/

/-- The function `get_proc_tasks(pid, tasks)` on a zeroed array: one store per entry. -/
def get_proc_tasks (E : Procfs) (pid : Int) : Res (List Int) :=
  match E.task pid with
  | none => .abort .exit_failure
  | some ts => if MAX_TASKS < ts.length then .abort .out_of_bounds else .done ts

/-- The function `get_children(pid, tid, children)`: the numbers read are stored from index 0 on;
the entries after them keep their value.  The stream is left open (there is no `fclose`);
`Fd.get_children` is this function with the open streams counted. -/
def get_children (E : Procfs) (pid tid : Int) (children : List Int) : Res (List Int) :=
  match E.children pid tid with
  | none => .abort .exit_failure
  | some cs =>
    if MAX_TASKS < cs.length then .abort .out_of_bounds
    else .done (cs ++ children.drop cs.length)

/-- The function `get_arr_len(a)`: index of the first zero entry.  With no zero among the
`MAX_TASKS` entries the scan leaves the array. -/
def get_arr_len (a : List Int) : Res Nat :=
  let cnt := (a.takeWhile (fun x => x != 0)).length
  if MAX_TASKS ≤ cnt then .abort .out_of_bounds else .done cnt

/-! ## do_pstree_impl (pstree.c 195-226) -/

/-- First loop of `do_pstree_impl` (lines 204-206): `get_children` for each task in turn, all
into the same array. -/
def collect_children (E : Procfs) (pid : Int) : List Int → List Int → Res (List Int)
  | [], children => .done children
  | tid :: rest, children =>
    (get_children E pid tid children).bind fun children1 => collect_children E pid rest children1

/-- Second task loop (lines 215-220), over `tasks[1 .. tasks_len - 1]`. -/
def forked_loop (E : Procfs) (flag : Nat) (tasks_len : Nat) : List Int → St → Res St
  | [], s => .done s
  | t :: rest, s =>
    (if 1 < tasks_len ∧ IS_SHOW_PID flag = true then print_forked_proc E t s.tabs 1 1 s
      else .done s).bind fun s1 => forked_loop E flag tasks_len rest s1

/-- The merged thread line of lines 211-214. -/
def merged_step (E : Procfs) (flag : Nat) (tasks : List Int) (tasks_len : Nat) (s : St) : Res St :=
  if 1 < tasks_len ∧ IS_SHOW_PID flag = false then
    print_forked_proc E (tasks.getD 1 0) s.tabs (tasks_len - 1) 0 s
  else .done s

/-- The child list after the optional sort of lines 208-210. -/
def sort_step (flag : Nat) (children : List Int) : List Int :=
  if IS_NUMERIC_SORT flag = true then qsort children compare_pid else children

/-- Lines 196-220 of `do_pstree_impl`: everything before the loop over the children.  The
result is `children[0 .. children_len - 1]` and the state. -/
def visit_head (E : Procfs) (flag : Nat) (pid : Int) (is_last_child : Nat) (s : St) :
    Res (List Int × St) :=
  if MAX_TREE_DEPTH ≤ s.tabs then .abort .out_of_bounds
  else
    let s0 : St := s.mark is_last_child
    (print_proc_name E pid s0.tabs flag s0).bind fun s1 =>
    let s2 : St := INCR_INDENT s1
    (get_proc_tasks E pid).bind fun tasks =>
    (get_arr_len tasks).bind fun tasks_len =>
    if tasks_len = 0 then .abort .assert_fail
    else
      (collect_children E pid (tasks.take tasks_len) []).bind fun children =>
      (get_arr_len children).bind fun children_len =>
      let sorted : List Int := sort_step flag (children.take children_len)
      (merged_step E flag tasks tasks_len s2).bind fun s3 =>
      (forked_loop E flag tasks_len ((tasks.take tasks_len).drop 1) s3).bind fun s4 =>
      .done (sorted, s4)

/-- Loop over the children (lines 221-223), from index `j` on: `call` is the recursive call
`do_pstree_impl(flag, children[j], j == children_len - 1)`. -/
def for_children (call : Int → Nat → St → Res St) (children_len : Nat) :
    List Int → Nat → St → Res St
  | [], _, s => .done s
  | c :: rest, j, s =>
    (call c (if j = children_len - 1 then 1 else 0) s).bind fun s1 =>
      for_children call children_len rest (j + 1) s1

/-- Lines 224-225: `DECR_INDENT(tabs); last_child[tabs] = 0;`. -/
def visit_end (s : St) : Res St :=
  if MAX_TREE_DEPTH ≤ s.tabs - 1 then .abort .out_of_bounds
  else .done s.unmark

/-- The function `do_pstree_impl(flag, pid, is_last_child)`; the first argument bounds the depth
of the recursion. -/
def do_pstree_impl : Nat → Procfs → Nat → Int → Nat → St → Res St
  | 0, _, _, _, _, _ => .timeout
  | fuel + 1, E, flag, pid, is_last_child, s =>
    (visit_head E flag pid is_last_child s).bind fun hs =>
    (for_children (do_pstree_impl fuel E flag) hs.1.length hs.1 0 hs.2).bind fun s5 =>
    visit_end s5

/-- The function `do_pstree(flag, pid)`. -/
def do_pstree (fuel : Nat) (E : Procfs) (flag : Nat) (pid : Int) (s : St) : Res St :=
  do_pstree_impl fuel E flag pid 0 s

/-- Lines printed by a run, when it returns. -/
def Res.lines : Res St → Option (List String)
  | .done s => some s.out
  | _ => none

/-! ## Views of states and results used in the statements -/

/-- State with the lines `o` put before its output. -/
def St.pre (o : List String) (s : St) : St := { s with out := o ++ s.out }

/-- Result with the lines `o` put before the output of the final state. -/
def Res.pre (o : List String) : Res St → Res St
  | .done s => .done (s.pre o)
  | .abort f => .abort f
  | .timeout => .timeout

/-- Result of `visit_head` with the lines `o` put before the output of its state. -/
def Res.pre2 (o : List String) : Res (List Int × St) → Res (List Int × St)
  | .done hs => .done (hs.1, hs.2.pre o)
  | .abort f => .abort f
  | .timeout => .timeout

/-- A step that only prints: `tabs` and `last_child` are as before and the old output is kept in
front. -/
def Printed (s s1 : St) : Prop :=
  s1.tabs = s.tabs ∧ s1.last_child = s.last_child ∧ ∃ lines, s1.out = s.out ++ lines

/-- Relation between the state at a call of `do_pstree_impl` and at its return: `tabs` is
restored, an entry of `last_child` is as before or was reset to 0 (only from index `tabs` on),
and output was only added. -/
def Frame (s s1 : St) : Prop :=
  s1.tabs = s.tabs ∧
  (∀ k, s1.last_child k = s.last_child k ∨ (s.tabs ≤ k ∧ s1.last_child k = 0)) ∧
  ∃ lines, s1.out = s.out ++ lines

/-- State after printing the lines `ls`. -/
def St.emits (s : St) (ls : List String) : St :=
  { tabs := s.tabs, last_child := s.last_child, out := s.out ++ ls }

/-- The entries of a local array up to its first zero: what `get_arr_len` counts. -/
def upto_zero (a : List Int) : List Int := a.takeWhile (fun x => x != 0)

/-- The calls made during the run `do_pstree_impl fuel0 E flag root 0 s0`.
`Visit E flag fuel0 root s0 flags fuel pid il s` says: the call
`do_pstree_impl(flag, pid, il)` is made in state `s` with `fuel` levels of recursion left, and
`flags` are the `is_last_child` arguments of the calls that are open at that moment, the one of
the root first and the one of the parent last.  A child call is made by an open call whose head
has completed, after the calls for the children before it have returned. -/
inductive Visit (E : Procfs) (flag : Nat) (fuel0 : Nat) (root : Int) (s0 : St) :
    List Nat → Nat → Int → Nat → St → Prop where
  | root : Visit E flag fuel0 root s0 [] fuel0 root 0 s0
  | child {flags : List Nat} {fuel : Nat} {pid : Int} {il : Nat} {s : St}
      {cs : List Int} {s4 : St} {j : Nat} {sj : St} :
      Visit E flag fuel0 root s0 flags (fuel + 1) pid il s →
      visit_head E flag pid il s = .done (cs, s4) →
      j < cs.length →
      for_children (do_pstree_impl fuel E flag) cs.length (cs.take j) 0 s4 = .done sj →
      Visit E flag fuel0 root s0 (flags ++ [il]) fuel (cs.getD j 0)
        (if j = cs.length - 1 then 1 else 0) sj

/-- Column drawn for an ancestor: blank when the ancestor was a last child. -/
def column (is_last : Nat) : String := if is_last ≠ 0 then "   " else "│  "

/-- Branch glyph of a line: the corner for a last child, the tee otherwise. -/
def glyph (is_last : Nat) : String := if is_last ≠ 0 then "└──" else "├──"

/-- Connector of the main line of a process, from the `is_last_child` values `flags` of the
root and of its proper ancestors below the root (top-down) and its own value `il`: nothing for
the root; otherwise one column per ancestor below the root, then the glyph. -/
def connector : List Nat → Nat → String
  | [], _ => ""
  | _ :: anc, il => String.join (anc.map column ++ [glyph il])

/-- The globals on the path described by `flags`: `tabs` is the depth, `last_child` holds the
flags of the open calls and zero from the depth on. -/
def OnPath (flags : List Nat) (s : St) : Prop :=
  s.tabs = flags.length ∧ (∀ i, i < flags.length → s.last_child i = flags.getD i 0) ∧
    ∀ k, flags.length ≤ k → s.last_child k = 0

/-- A process table that the program can walk from the processes in `live`: for a live process
the name file, the task directory and the children file of every thread are readable, the
thread ids are non-zero and have readable name files, the task and child lists have fewer than
`MAX_TASKS` entries, and every child is live and of smaller height `h` (so the tree below a
process of height `n` has at most `n` further levels). -/
def Walkable (E : Procfs) (live : Int → Prop) (h : Int → Nat) : Prop :=
  ∀ pid, live pid →
    (∃ name, GET_PROC_NAME E pid = .done name) ∧
    ∃ ts, E.task pid = some ts ∧ ts.length < MAX_TASKS ∧ (∀ t ∈ ts, t ≠ 0) ∧
      (∀ t ∈ ts, ∃ name, GET_PROC_NAME E t = .done name) ∧
      ∀ t ∈ ts, ∃ cs, E.children pid t = some cs ∧ cs.length < MAX_TASKS ∧
        ∀ c ∈ cs, live c ∧ h c < h pid

/-- The text of the macro `USAGE`. -/
def USAGE : String :=
  "Usage: pstree [OPTION]\n" ++
  "Print a tree of the specified process and its descendants.\n" ++
  "\n" ++
  "  -n, --numeric-sort\n" ++
  "      Sort by PID instead of name.\n" ++
  "  -p, --show-pids\n" ++
  "      Show PIDs in addition to names.\n" ++
  "  -V, --version\n" ++
  "      Print version information and exit.\n" ++
  "  -h, --help\n" ++
  "      Print this help message and exit.\n"

/-- The text of the macro `VERSION`. -/
def VERSION : String :=
  "pstree (psutils) " ++ "1.0.0" ++ "\n" ++ "Copyright (C) 2022 Zhiyuan Pan\n"

/-- The int value of a character constant. -/
def code (c : Char) : Int := c.toNat

/-- How `main` ends: it returns from inside the switch with a status after printing a text to
stderr, or it leaves the loop and makes the call `do_pstree(flag, pid)`, whose result is `r`
(after which it returns `EXIT_SUCCESS`). -/
inductive MainEnd where
  | returned (status : Int) (printed : String)
  | rendered (flag : Nat) (pid : Int) (r : Res St)

/-- The while loop of `main` on the successive values of `parse_args` (after the listed ones
`parse_args` gives -1): the early return of the switch, or the flag with which the loop is left. -/
def main_loop : List Int → Nat → Sum (Int × String) Nat
  | [], flag => .inr flag
  | opt :: rest, flag =>
    if opt = -1 then .inr flag
    else if opt = code 'h' then .inl (EXIT_SUCCESS, USAGE)
    else if opt = code 'V' then .inl (EXIT_SUCCESS, VERSION)
    else if opt = code 'n' then main_loop rest (flag ||| NUMERIC_SORT)
    else if opt = code 'p' then main_loop rest (flag ||| SHOW_PID)
    else .inl (EXIT_FAILURE, USAGE)

/-- The function `main`, on the values `opts` that `parse_args` gives. -/
def main (fuel : Nat) (E : Procfs) (opts : List Int) : MainEnd :=
  match main_loop opts 0 with
  | .inl (status, printed) => .returned status printed
  | .inr flag => .rendered flag START_PID (do_pstree fuel E flag START_PID St.init)

/-! ## The example of the specification -/

/-- The process table of the end-to-end example: pid 1 "systemd", threads [1], children [2,3];
pid 2 "init-helper", threads [2]; pid 3 "worker", threads [3,30]; thread 30 named "worker". -/
def exampleFs : Procfs where
  comm := fun pid =>
    if pid = 1 then some "systemd\n"
    else if pid = 2 then some "init-helper\n"
    else if pid = 3 then some "worker\n"
    else if pid = 30 then some "worker\n"
    else none
  task := fun pid =>
    if pid = 1 then some [1]
    else if pid = 2 then some [2]
    else if pid = 3 then some [3, 30]
    else none
  children := fun pid tid =>
    if pid = 1 ∧ tid = 1 then some [2, 3]
    else if pid = 2 ∧ tid = 2 then some []
    else if pid = 3 ∧ (tid = 3 ∨ tid = 30) then some []
    else none

/-- State of the run `do_pstree 3 exampleFs 0 1 St.init` at the moment the call for pid 3 is
made: "systemd" and the line of pid 2 are printed, `tabs` is 1. -/
def exampleAt3 : St :=
  (INCR_INDENT (((INCR_INDENT ((St.init.mark 0).emit "systemd")).mark 0).emit "├──init-helper")).unmark

/-- Liveness and height for `exampleFs`: pids 1, 2, 3 are live, pid 1 has height 1. -/
def exampleLive (pid : Int) : Prop := pid = 1 ∨ pid = 2 ∨ pid = 3

/-- Height of the processes of `exampleFs`. -/
def exampleHeight (pid : Int) : Nat := if pid = 1 then 1 else 0

/-- A process 10 "srv" with two threads 10 and 11, each of which forked one child: thread 10
the process 20 "a", thread 11 the process 21 "b". -/
def twoForkersFs : Procfs where
  comm := fun pid =>
    if pid = 10 ∨ pid = 11 then some "srv\n"
    else if pid = 20 then some "a\n"
    else if pid = 21 then some "b\n"
    else none
  task := fun pid =>
    if pid = 10 then some [10, 11]
    else if pid = 20 then some [20]
    else if pid = 21 then some [21]
    else none
  children := fun pid tid =>
    if pid = 10 ∧ tid = 10 then some [20]
    else if pid = 10 ∧ tid = 11 then some [21]
    else if pid = tid ∧ (pid = 20 ∨ pid = 21) then some []
    else none

/-- A process table on which no task directory can be opened, while every name file reads
"init" and every children file is readable and empty. -/
def noTaskDirFs : Procfs where
  comm := fun _ => some "init\n"
  task := fun _ => none
  children := fun _ _ => some []

/-- A process 1 "init" with one thread whose children file lists 5, 3, 4, each a process "w"
with one thread and no children. -/
def unsortedFs : Procfs where
  comm := fun pid => if pid = 1 then some "init\n" else some "w\n"
  task := fun pid => some [pid]
  children := fun pid _ => if pid = 1 then some [5, 3, 4] else some []

/-- A process 1 whose name file holds "abc" with no newline after it. -/
def noNewlineFs : Procfs where
  comm := fun _ => some "abc"
  task := fun pid => some [pid]
  children := fun _ _ => some []

/-- The calls made within the call `do_pstree_impl fuel0 E flag pid0 il0` entered in state `s0`:
that call itself, and every call made by such a call after its head has completed and the
calls for the children before it have returned.  `Inside ... fuel pid il s` gives the fuel, the
arguments and the state at the entry of the inner call. -/
inductive Inside (E : Procfs) (flag : Nat) (fuel0 : Nat) (pid0 : Int) (il0 : Nat) (s0 : St) :
    Nat → Int → Nat → St → Prop where
  | top : Inside E flag fuel0 pid0 il0 s0 fuel0 pid0 il0 s0
  | child {fuel : Nat} {pid : Int} {il : Nat} {s : St}
      {cs : List Int} {s4 : St} {j : Nat} {sj : St} :
      Inside E flag fuel0 pid0 il0 s0 (fuel + 1) pid il s →
      visit_head E flag pid il s = .done (cs, s4) →
      j < cs.length →
      for_children (do_pstree_impl fuel E flag) cs.length (cs.take j) 0 s4 = .done sj →
      Inside E flag fuel0 pid0 il0 s0 fuel (cs.getD j 0)
        (if j = cs.length - 1 then 1 else 0) sj

/-- Length of the overlay of the child lists `Ls`: the largest of their lengths. -/
def overlay_len (Ls : List (List Int)) : Nat := (Ls.map List.length).foldr max 0

/-- Entry `j` of the overlay of the child lists `Ls` (in thread order): entry `j` of the last list
that is longer than `j`. -/
def overlay_entry (Ls : List (List Int)) (j : Nat) : Int :=
  match Ls.reverse.find? (fun L => decide (j < L.length)) with
  | some L => L.getD j 0
  | none => 0

/-- Overlay of the child lists `Ls`, as the claim words it: as long as the longest list, each
entry taken from the last list that has it. -/
def overlay (Ls : List (List Int)) : List Int :=
  (List.range (overlay_len Ls)).map (overlay_entry Ls)

/-- A process 10 with three threads whose children files hold [20, 21, 22], [23] and
[24, 25]. -/
def threeListsFs : Procfs where
  comm := fun _ => some "p\n"
  task := fun pid => if pid = 10 then some [10, 11, 12] else some [pid]
  children := fun pid tid =>
    if pid = 10 ∧ tid = 10 then some [20, 21, 22]
    else if pid = 10 ∧ tid = 11 then some [23]
    else if pid = 10 ∧ tid = 12 then some [24, 25]
    else some []

/-- Connector of the thread lines of a process, from the `is_last_child` values `flags` of the
root and of its proper ancestors below the root and its own value `il`: one column for each
ancestor below the root and, unless the process is the root, one for the process itself, then
the tee. -/
def thread_connector : List Nat → Nat → String
  | [], _ => String.join [glyph 0]
  | _ :: anc, il => String.join ((anc ++ [il]).map column ++ [glyph 0])

/-- A root process 1 "init" with the two threads 1 and 9 and no children. -/
def rootThreadsFs : Procfs where
  comm := fun _ => some "init\n"
  task := fun pid => if pid = 1 then some [1, 9] else some [pid]
  children := fun _ _ => some []

/-- Indices of `last_child` that `PRINT_INDENT(level)` reads, for `i = 0 .. level - 1`:
`level` in the last round, `i + 1` in the others. -/
def PRINT_INDENT_reads (level : Nat) : List Nat :=
  (List.range level).map fun i => if i = level - 1 then level else i + 1

/-- Indices of `last_child` that one call of `do_pstree_impl` entered with `tabs` uses itself:
the store of line 197, the reads of the main line, the reads of the thread lines (printed
after `INCR_INDENT`), and the store of line 225 (after `DECR_INDENT`). -/
def call_accesses (tabs : Nat) : List Nat :=
  tabs :: (PRINT_INDENT_reads tabs ++ PRINT_INDENT_reads (tabs + 1) ++ [tabs + 1 - 1])

/-! ## A reference renderer without globals

The reference renderer reads /proc with the same functions as the program, and is given the
`is_last_child` values of the open calls as an argument instead of keeping them in `last_child`;
it returns the lines instead of printing them. -/

/-- Reference: one thread line, the connector `pre` followed by the text of
`print_forked_proc`. -/
def ref_forked (E : Procfs) (t : Int) (pre : String) (num_tasks show_pid : Nat) : Res (List String) :=
  (GET_PROC_NAME E t).bind fun name => .done [pre ++ forked_text name t num_tasks show_pid]

/-- Reference: the merged thread line, printed when there are several tasks and pids are
hidden. -/
def ref_merged (E : Procfs) (flag : Nat) (tasks : List Int) (tasks_len : Nat) (pre : String) :
    Res (List String) :=
  if 1 < tasks_len ∧ IS_SHOW_PID flag = false then
    ref_forked E (tasks.getD 1 0) pre (tasks_len - 1) 0
  else .done []

/-- Reference: the individual thread lines, one per task after the first when pids are shown. -/
def ref_forked_lines (E : Procfs) (flag : Nat) (tasks_len : Nat) (pre : String) :
    List Int → Res (List String)
  | [] => .done []
  | t :: rest =>
    (if 1 < tasks_len ∧ IS_SHOW_PID flag = true then ref_forked E t pre 1 1 else .done []).bind
      fun l1 => (ref_forked_lines E flag tasks_len pre rest).bind fun l2 => .done (l1 ++ l2)

/-- Reference: the main line and the thread lines of a process, and its child list.  `flags`
are the `is_last_child` values of the root and the proper ancestors, `il` the one of the process. -/
def ref_head (E : Procfs) (flag : Nat) (pid : Int) (flags : List Nat) (il : Nat) :
    Res (List Int × List String) :=
  (GET_PROC_NAME E pid).bind fun name =>
  (get_proc_tasks E pid).bind fun tasks =>
  (get_arr_len tasks).bind fun tasks_len =>
  if tasks_len = 0 then .abort .assert_fail
  else
    (collect_children E pid (tasks.take tasks_len) []).bind fun children =>
    (get_arr_len children).bind fun children_len =>
    (ref_merged E flag tasks tasks_len (thread_connector flags il)).bind fun l1 =>
    (ref_forked_lines E flag tasks_len (thread_connector flags il)
      ((tasks.take tasks_len).drop 1)).bind fun l2 =>
    .done (sort_step flag (children.take children_len),
      (connector flags il ++ proc_text flag name pid) :: (l1 ++ l2))

/-- Reference: the subtrees of the children from index `j` on, in child-list order; the last
index is the last sibling. -/
def ref_children (call : Int → Nat → Res (List String)) (children_len : Nat) :
    List Int → Nat → Res (List String)
  | [], _ => .done []
  | c :: rest, j =>
    (call c (if j = children_len - 1 then 1 else 0)).bind fun l1 =>
      (ref_children call children_len rest (j + 1)).bind fun l2 => .done (l1 ++ l2)

/-- Reference renderer: the lines of the subtree of `pid` in depth-first pre-order (main line,
thread lines, then the subtree of each child), with the flags of the open calls passed down.
The first argument bounds the depth of the recursion. -/
def ref_render : Nat → Procfs → Nat → Int → List Nat → Nat → Res (List String)
  | 0, _, _, _, _, _ => .timeout
  | fuel + 1, E, flag, pid, flags, il =>
    (ref_head E flag pid flags il).bind fun hs =>
    (ref_children (fun c i => ref_render fuel E flag c (flags ++ [il]) i) hs.1.length hs.1 0).bind
      fun ls => .done (hs.2 ++ ls)

/-! ## Open streams

`get_children` opens the children file with `fopen` and returns without an `fclose`
(pstree.c 175-185); the name file is closed at lines 130 and 152 and the task directory at
line 172.  The definitions of this section are the program with the number of streams it holds
open made explicit.  `nofile` is the number of streams the process can hold open at a time; an
`fopen` or `opendir` made when that many are open fails, and the program then calls
`exit(EXIT_FAILURE)`.  The definitions of the sections above are the same program with nothing
said about that limit: there an open fails only when `Procfs` says so. -/

/-- Globals together with the number of streams the program holds open. -/
structure FdSt where
  st : St
  fds : Nat

/-- The function `print_proc_name` with the limit on open streams: the `fopen` of
`GET_PROC_NAME` needs a free stream, the `fclose` of line 130 gives it back. -/
def Fd.print_proc_name (nofile : Nat) (E : Procfs) (pid : Int) (tabs : Nat) (flag : Nat)
    (s : FdSt) : Res FdSt :=
  if nofile ≤ s.fds then .abort .exit_failure
  else (Pstree.print_proc_name E pid tabs flag s.st).bind fun st1 => .done ⟨st1, s.fds⟩

/-- The function `print_forked_proc` with the limit on open streams: `fopen` in
`GET_PROC_NAME`, `fclose` at line 152. -/
def Fd.print_forked_proc (nofile : Nat) (E : Procfs) (pid : Int) (tabs : Nat) (num_tasks : Nat)
    (show_pid : Nat) (s : FdSt) : Res FdSt :=
  if nofile ≤ s.fds then .abort .exit_failure
  else (Pstree.print_forked_proc E pid tabs num_tasks show_pid s.st).bind
    fun st1 => .done ⟨st1, s.fds⟩

/-- The function `get_proc_tasks` with the limit on open streams: `opendir`, and `closedir` at
line 172. -/
def Fd.get_proc_tasks (nofile : Nat) (E : Procfs) (pid : Int) (fds : Nat) : Res (List Int) :=
  if nofile ≤ fds then .abort .exit_failure else Pstree.get_proc_tasks E pid

/-- The function `get_children` with the limit on open streams: `fopen`, and no `fclose`, so
one more stream is open after the call. -/
def Fd.get_children (nofile : Nat) (E : Procfs) (pid tid : Int) (children : List Int)
    (fds : Nat) : Res (List Int × Nat) :=
  if nofile ≤ fds then .abort .exit_failure
  else (Pstree.get_children E pid tid children).bind fun children1 => .done (children1, fds + 1)

/-- First loop of `do_pstree_impl` (lines 204-206) with the count of open streams. -/
def Fd.collect_children (nofile : Nat) (E : Procfs) (pid : Int) :
    List Int → List Int → Nat → Res (List Int × Nat)
  | [], children, fds => .done (children, fds)
  | tid :: rest, children, fds =>
    (Fd.get_children nofile E pid tid children fds).bind
      fun r => Fd.collect_children nofile E pid rest r.1 r.2

/-- The merged thread line of lines 211-214 with the limit on open streams. -/
def Fd.merged_step (nofile : Nat) (E : Procfs) (flag : Nat) (tasks : List Int) (tasks_len : Nat)
    (s : FdSt) : Res FdSt :=
  if 1 < tasks_len ∧ IS_SHOW_PID flag = false then
    Fd.print_forked_proc nofile E (tasks.getD 1 0) s.st.tabs (tasks_len - 1) 0 s
  else .done s

/-- Second task loop (lines 215-220) with the limit on open streams. -/
def Fd.forked_loop (nofile : Nat) (E : Procfs) (flag : Nat) (tasks_len : Nat) :
    List Int → FdSt → Res FdSt
  | [], s => .done s
  | t :: rest, s =>
    (if 1 < tasks_len ∧ IS_SHOW_PID flag = true then
        Fd.print_forked_proc nofile E t s.st.tabs 1 1 s
      else .done s).bind fun s1 => Fd.forked_loop nofile E flag tasks_len rest s1

/-- Lines 196-220 of `do_pstree_impl` with the count of open streams. -/
def Fd.visit_head (nofile : Nat) (E : Procfs) (flag : Nat) (pid : Int) (is_last_child : Nat)
    (s : FdSt) : Res (List Int × FdSt) :=
  if MAX_TREE_DEPTH ≤ s.st.tabs then .abort .out_of_bounds
  else
    (Fd.print_proc_name nofile E pid s.st.tabs flag ⟨s.st.mark is_last_child, s.fds⟩).bind fun s1 =>
    (Fd.get_proc_tasks nofile E pid s1.fds).bind fun tasks =>
    (get_arr_len tasks).bind fun tasks_len =>
    if tasks_len = 0 then .abort .assert_fail
    else
      (Fd.collect_children nofile E pid (tasks.take tasks_len) [] s1.fds).bind fun cr =>
      (get_arr_len cr.1).bind fun children_len =>
      (Fd.merged_step nofile E flag tasks tasks_len ⟨INCR_INDENT s1.st, cr.2⟩).bind fun s3 =>
      (Fd.forked_loop nofile E flag tasks_len ((tasks.take tasks_len).drop 1) s3).bind fun s4 =>
      .done (sort_step flag (cr.1.take children_len), s4)

/-- Loop over the children (lines 221-223) on states with the count of open streams. -/
def Fd.for_children (call : Int → Nat → FdSt → Res FdSt) (children_len : Nat) :
    List Int → Nat → FdSt → Res FdSt
  | [], _, s => .done s
  | c :: rest, j, s =>
    (call c (if j = children_len - 1 then 1 else 0) s).bind fun s1 =>
      Fd.for_children call children_len rest (j + 1) s1

/-- Lines 224-225; no stream is opened or closed. -/
def Fd.visit_end (s : FdSt) : Res FdSt :=
  (Pstree.visit_end s.st).bind fun st1 => .done ⟨st1, s.fds⟩

/-- The function `do_pstree_impl` with the count of open streams; the second argument bounds
the depth of the recursion. -/
def Fd.do_pstree_impl (nofile : Nat) : Nat → Procfs → Nat → Int → Nat → FdSt → Res FdSt
  | 0, _, _, _, _, _ => .timeout
  | fuel + 1, E, flag, pid, is_last_child, s =>
    (Fd.visit_head nofile E flag pid is_last_child s).bind fun hs =>
    (Fd.for_children (Fd.do_pstree_impl nofile fuel E flag) hs.1.length hs.1 0 hs.2).bind
      fun s5 => Fd.visit_end s5

/-- The function `do_pstree` with the count of open streams. -/
def Fd.do_pstree (nofile : Nat) (fuel : Nat) (E : Procfs) (flag : Nat) (pid : Int) (s : FdSt) :
    Res FdSt :=
  Fd.do_pstree_impl nofile fuel E flag pid 0 s

/-- State at program start: zeroed globals, no stream opened by the program. -/
def FdSt.init : FdSt := ⟨St.init, 0⟩

/-- Number of children files that the head of a call for `pid` opens: one per task. -/
def opened_by (E : Procfs) (pid : Int) : Nat :=
  match Pstree.get_proc_tasks E pid with
  | .done tasks => (upto_zero tasks).length
  | _ => 0

/-- The calls made within the call `Fd.do_pstree_impl nofile fuel0 E flag pid0 il0` entered in
state `s0`: that call itself, and every call made by such a call after its head has completed
and the calls for the children before it have returned. -/
inductive FdVisit (nofile : Nat) (E : Procfs) (flag : Nat) (fuel0 : Nat) (pid0 : Int) (il0 : Nat)
    (s0 : FdSt) : Nat → Int → Nat → FdSt → Prop where
  | top : FdVisit nofile E flag fuel0 pid0 il0 s0 fuel0 pid0 il0 s0
  | child {fuel : Nat} {pid : Int} {il : Nat} {s : FdSt}
      {cs : List Int} {s4 : FdSt} {j : Nat} {sj : FdSt} :
      FdVisit nofile E flag fuel0 pid0 il0 s0 (fuel + 1) pid il s →
      Fd.visit_head nofile E flag pid il s = .done (cs, s4) →
      j < cs.length →
      Fd.for_children (Fd.do_pstree_impl nofile fuel E flag) cs.length (cs.take j) 0 s4
        = .done sj →
      FdVisit nofile E flag fuel0 pid0 il0 s0 fuel (cs.getD j 0)
        (if j = cs.length - 1 then 1 else 0) sj

/-! ## Basic facts about sequencing -/

@[simp] theorem bind_done {α β : Type} (a : α) (k : α → Res β) : (Res.done a).bind k = k a := rfl
@[simp] theorem bind_abort {α β : Type} (f : Fault) (k : α → Res β) :
    (Res.abort f : Res α).bind k = .abort f := rfl
@[simp] theorem bind_timeout {α β : Type} (k : α → Res β) :
    (Res.timeout : Res α).bind k = .timeout := rfl

theorem bind_eq_done {α β : Type} {r : Res α} {k : α → Res β} {b : β}
    (h : r.bind k = .done b) : ∃ a, r = .done a ∧ k a = .done b := by
  cases r with
  | done a => exact ⟨a, rfl, h⟩
  | abort f => simp at h
  | timeout => simp at h

/-! ## Output already printed does not influence a run -/

@[simp] theorem pre_tabs (o : List String) (s : St) : (s.pre o).tabs = s.tabs := rfl
@[simp] theorem pre_last_child (o : List String) (s : St) : (s.pre o).last_child = s.last_child := rfl
@[simp] theorem pre_out (o : List String) (s : St) : (s.pre o).out = o ++ s.out := rfl

theorem print_proc_name_pre (E : Procfs) (pid : Int) (tabs flag : Nat) (o : List String) (s : St) :
    print_proc_name E pid tabs flag (s.pre o) = (print_proc_name E pid tabs flag s).pre o := by
  unfold print_proc_name
  cases GET_PROC_NAME E pid with
  | done name =>
    simp only [bind_done]
    split
    · rfl
    · simp [Res.pre, St.pre, St.emit, List.append_assoc]
  | abort f => rfl
  | timeout => rfl

theorem print_forked_proc_pre (E : Procfs) (pid : Int) (tabs n sp : Nat) (o : List String) (s : St) :
    print_forked_proc E pid tabs n sp (s.pre o) = (print_forked_proc E pid tabs n sp s).pre o := by
  unfold print_forked_proc
  cases GET_PROC_NAME E pid with
  | done name =>
    simp only [bind_done]
    split
    · rfl
    · simp [Res.pre, St.pre, St.emit, List.append_assoc]
  | abort f => rfl
  | timeout => rfl

theorem bind_pre {r : Res St} {k k2 : St → Res St} (o : List String)
    (h : ∀ s, k2 (s.pre o) = (k s).pre o) : (r.pre o).bind k2 = (r.bind k).pre o := by
  cases r with
  | done a => simpa [Res.pre] using h a
  | abort f => rfl
  | timeout => rfl

theorem forked_loop_pre (E : Procfs) (flag len : Nat) (o : List String) (ts : List Int) (s : St) :
    forked_loop E flag len ts (s.pre o) = (forked_loop E flag len ts s).pre o := by
  induction ts generalizing s with
  | nil => rfl
  | cons t rest ih =>
    unfold forked_loop
    split
    · rw [pre_tabs, print_forked_proc_pre]
      exact bind_pre o ih
    · exact ih s

theorem merged_step_pre (E : Procfs) (flag : Nat) (tasks : List Int) (len : Nat) (o : List String)
    (s : St) : merged_step E flag tasks len (s.pre o) = (merged_step E flag tasks len s).pre o := by
  unfold merged_step
  split
  · exact print_forked_proc_pre _ _ _ _ _ _ _
  · rfl

theorem visit_head_pre (E : Procfs) (flag : Nat) (pid : Int) (il : Nat) (o : List String) (s : St) :
    visit_head E flag pid il (s.pre o) = (visit_head E flag pid il s).pre2 o := by
  unfold visit_head
  simp only [pre_tabs]
  split
  · rfl
  · have h0 : (s.pre o).mark il = (s.mark il).pre o := rfl
    rw [h0, pre_tabs, print_proc_name_pre]
    cases print_proc_name E pid (s.mark il).tabs flag (s.mark il) with
    | abort f => rfl
    | timeout => rfl
    | done s1 =>
      simp only [Res.pre, bind_done]
      cases get_proc_tasks E pid with
      | abort f => rfl
      | timeout => rfl
      | done tasks =>
        simp only [bind_done]
        cases get_arr_len tasks with
        | abort f => rfl
        | timeout => rfl
        | done tasks_len =>
          simp only [bind_done]
          split
          · rfl
          · cases collect_children E pid (List.take tasks_len tasks) [] with
            | abort f => rfl
            | timeout => rfl
            | done children =>
              simp only [bind_done]
              cases get_arr_len children with
              | abort f => rfl
              | timeout => rfl
              | done children_len =>
                simp only [bind_done]
                have h2 : INCR_INDENT (s1.pre o) = (INCR_INDENT s1).pre o := rfl
                rw [h2, merged_step_pre]
                cases merged_step E flag tasks tasks_len (INCR_INDENT s1) with
                | abort f => rfl
                | timeout => rfl
                | done s3 =>
                  simp only [Res.pre, bind_done]
                  rw [forked_loop_pre]
                  cases forked_loop E flag tasks_len (List.drop 1 (List.take tasks_len tasks)) s3 with
                  | abort f => rfl
                  | timeout => rfl
                  | done s4 => rfl

theorem for_children_pre (call : Int → Nat → St → Res St) (o : List String)
    (hc : ∀ c il s, call c il (s.pre o) = (call c il s).pre o)
    (len : Nat) (cs : List Int) (j : Nat) (s : St) :
    for_children call len cs j (s.pre o) = (for_children call len cs j s).pre o := by
  induction cs generalizing j s with
  | nil => rfl
  | cons c rest ih =>
    unfold for_children
    rw [hc]
    exact bind_pre o (fun s1 => ih (j + 1) s1)

theorem visit_end_pre (o : List String) (s : St) : visit_end (s.pre o) = (visit_end s).pre o := by
  unfold visit_end
  simp only [pre_tabs]
  split
  · rfl
  · rfl

theorem do_pstree_impl_pre (fuel : Nat) (E : Procfs) (flag : Nat) (o : List String) :
    ∀ (pid : Int) (il : Nat) (s : St),
      do_pstree_impl fuel E flag pid il (s.pre o) = (do_pstree_impl fuel E flag pid il s).pre o := by
  induction fuel with
  | zero => intro pid il s; rfl
  | succ fuel ih =>
    intro pid il s
    unfold do_pstree_impl
    rw [visit_head_pre]
    cases visit_head E flag pid il s with
    | abort f => rfl
    | timeout => rfl
    | done hs =>
      simp only [Res.pre2, bind_done]
      rw [for_children_pre (do_pstree_impl fuel E flag) o ih]
      exact bind_pre o (fun s1 => visit_end_pre o s1)

/-! ## What a completed call leaves in the globals -/

theorem visit_head_eq (E : Procfs) (flag : Nat) (pid : Int) (il : Nat) (s : St) :
    visit_head E flag pid il s =
      if MAX_TREE_DEPTH ≤ s.tabs then .abort .out_of_bounds
      else
        (print_proc_name E pid s.tabs flag (s.mark il)).bind fun s1 =>
        (get_proc_tasks E pid).bind fun tasks =>
        (get_arr_len tasks).bind fun tasks_len =>
        if tasks_len = 0 then .abort .assert_fail
        else
          (collect_children E pid (tasks.take tasks_len) []).bind fun children =>
          (get_arr_len children).bind fun children_len =>
          (merged_step E flag tasks tasks_len (INCR_INDENT s1)).bind fun s3 =>
          (forked_loop E flag tasks_len ((tasks.take tasks_len).drop 1) s3).bind fun s4 =>
          .done (sort_step flag (children.take children_len), s4) := rfl

/-- The steps of a completed `visit_head`. -/
theorem visit_head_done {E : Procfs} {flag : Nat} {pid : Int} {il : Nat} {s : St}
    {cs : List Int} {s4 : St} (h : visit_head E flag pid il s = .done (cs, s4)) :
    s.tabs < MAX_TREE_DEPTH ∧
    ∃ s1 tasks tasks_len children children_len s3,
      print_proc_name E pid s.tabs flag (s.mark il) = .done s1 ∧
      get_proc_tasks E pid = .done tasks ∧
      get_arr_len tasks = .done tasks_len ∧
      tasks_len ≠ 0 ∧
      collect_children E pid (tasks.take tasks_len) [] = .done children ∧
      get_arr_len children = .done children_len ∧
      merged_step E flag tasks tasks_len (INCR_INDENT s1) = .done s3 ∧
      forked_loop E flag tasks_len ((tasks.take tasks_len).drop 1) s3 = .done s4 ∧
      cs = sort_step flag (children.take children_len) := by
  rw [visit_head_eq] at h
  split at h
  · simp at h
  · rename_i hd
    obtain ⟨s1, h1, h⟩ := bind_eq_done h
    obtain ⟨tasks, h2, h⟩ := bind_eq_done h
    obtain ⟨tasks_len, h3, h⟩ := bind_eq_done h
    split at h
    · simp at h
    · rename_i hz
      obtain ⟨children, h4, h⟩ := bind_eq_done h
      obtain ⟨children_len, h5, h⟩ := bind_eq_done h
      obtain ⟨s3, h6, h⟩ := bind_eq_done h
      obtain ⟨s4a, h7, h⟩ := bind_eq_done h
      injection h with h
      injection h with ha hb
      subst hb
      exact ⟨Nat.lt_of_not_le hd, s1, tasks, tasks_len, children, children_len, s3,
        h1, h2, h3, hz, h4, h5, h6, h7, ha.symm⟩

theorem printed_refl (s : St) : Printed s s := ⟨rfl, rfl, [], by simp⟩

theorem printed_trans {a b c : St} (h1 : Printed a b) (h2 : Printed b c) : Printed a c := by
  obtain ⟨t1, l1, o1, e1⟩ := h1
  obtain ⟨t2, l2, o2, e2⟩ := h2
  exact ⟨t2.trans t1, l2.trans l1, o1 ++ o2, by rw [e2, e1, List.append_assoc]⟩

theorem print_proc_name_printed {E : Procfs} {pid : Int} {tabs flag : Nat} {s s1 : St}
    (h : print_proc_name E pid tabs flag s = .done s1) : Printed s s1 := by
  unfold print_proc_name at h
  obtain ⟨name, _, h⟩ := bind_eq_done h
  split at h
  · simp at h
  · injection h with h
    subst h
    exact ⟨rfl, rfl, _, rfl⟩

theorem print_forked_proc_printed {E : Procfs} {pid : Int} {tabs n sp : Nat} {s s1 : St}
    (h : print_forked_proc E pid tabs n sp s = .done s1) : Printed s s1 := by
  unfold print_forked_proc at h
  obtain ⟨name, _, h⟩ := bind_eq_done h
  split at h
  · simp at h
  · injection h with h
    subst h
    exact ⟨rfl, rfl, _, rfl⟩

theorem merged_step_printed {E : Procfs} {flag : Nat} {tasks : List Int} {len : Nat} {s s1 : St}
    (h : merged_step E flag tasks len s = .done s1) : Printed s s1 := by
  unfold merged_step at h
  split at h
  · exact print_forked_proc_printed h
  · injection h with h
    subst h
    exact printed_refl _

theorem forked_loop_printed {E : Procfs} {flag len : Nat} {ts : List Int} {s s1 : St}
    (h : forked_loop E flag len ts s = .done s1) : Printed s s1 := by
  induction ts generalizing s with
  | nil =>
    unfold forked_loop at h
    injection h with h
    subst h
    exact printed_refl _
  | cons t rest ih =>
    unfold forked_loop at h
    obtain ⟨s2, h2, h⟩ := bind_eq_done h
    refine printed_trans ?_ (ih h)
    split at h2
    · exact print_forked_proc_printed h2
    · injection h2 with h2
      subst h2
      exact printed_refl _

/-- Globals after a completed `visit_head`: `tabs` is one more, `last_child[tabs]` holds the
mark of line 197, the other entries are untouched, and output was only added. -/
theorem visit_head_globals {E : Procfs} {flag : Nat} {pid : Int} {il : Nat} {s : St}
    {cs : List Int} {s4 : St} (h : visit_head E flag pid il s = .done (cs, s4)) :
    s.tabs < MAX_TREE_DEPTH ∧ s4.tabs = s.tabs + 1 ∧
    s4.last_child = write s.last_child s.tabs (s.last_child s.tabs ||| il) ∧
    ∃ lines, s4.out = s.out ++ lines := by
  obtain ⟨hd, s1, tasks, tasks_len, children, children_len, s3, h1, _, _, _, _, _, h6, h7, _⟩ :=
    visit_head_done h
  have p1 := print_proc_name_printed h1
  have p3 := printed_trans (merged_step_printed h6) (forked_loop_printed h7)
  obtain ⟨t1, l1, o1, e1⟩ := p1
  obtain ⟨t3, l3, o3, e3⟩ := p3
  refine ⟨hd, ?_, ?_, o1 ++ o3, ?_⟩
  · rw [t3]; show s1.tabs + 1 = _; rw [t1]; rfl
  · rw [l3]; show s1.last_child = _; rw [l1]; rfl
  · rw [e3]; show s1.out ++ o3 = _; rw [e1]; show (s.out ++ o1) ++ o3 = _; rw [List.append_assoc]

theorem frame_refl (s : St) : Frame s s := ⟨rfl, fun _ => Or.inl rfl, [], by simp⟩

theorem frame_trans {a b c : St} (h1 : Frame a b) (h2 : Frame b c) : Frame a c := by
  obtain ⟨t1, l1, o1, e1⟩ := h1
  obtain ⟨t2, l2, o2, e2⟩ := h2
  refine ⟨t2.trans t1, fun k => ?_, o1 ++ o2, by rw [e2, e1, List.append_assoc]⟩
  rcases l2 k with h | ⟨hk, h⟩
  · rw [h]; exact l1 k
  · exact Or.inr ⟨t1 ▸ hk, h⟩

theorem for_children_frame {call : Int → Nat → St → Res St}
    (hc : ∀ c il s s1, call c il s = .done s1 → Frame s s1)
    {len : Nat} {cs : List Int} {j : Nat} {s s1 : St}
    (h : for_children call len cs j s = .done s1) : Frame s s1 := by
  induction cs generalizing j s with
  | nil =>
    unfold for_children at h
    injection h with h
    subst h
    exact frame_refl _
  | cons c rest ih =>
    unfold for_children at h
    obtain ⟨s2, h2, h⟩ := bind_eq_done h
    exact frame_trans (hc _ _ _ _ h2) (ih h)

theorem do_pstree_impl_frame (fuel : Nat) (E : Procfs) (flag : Nat) :
    ∀ (pid : Int) (il : Nat) (s s1 : St),
      do_pstree_impl fuel E flag pid il s = .done s1 → Frame s s1 := by
  induction fuel with
  | zero => intro pid il s s1 h; simp [do_pstree_impl] at h
  | succ fuel ih =>
    intro pid il s s1 h
    unfold do_pstree_impl at h
    obtain ⟨⟨cs, s4⟩, hh, h⟩ := bind_eq_done h
    obtain ⟨s5, hl, h⟩ := bind_eq_done h
    obtain ⟨_, t4, l4, o4, e4⟩ := visit_head_globals hh
    obtain ⟨t5, l5, o5, e5⟩ := for_children_frame ih hl
    unfold visit_end at h
    split at h
    · simp at h
    · injection h with h
      subst h
      simp only at t5 l5 e5
      have hw : ∀ k, s5.unmark.last_child k = if k = s.tabs then 0 else s5.last_child k := by
        intro k
        show write s5.last_child (s5.tabs - 1) 0 k = _
        rw [t5, t4]; rfl
      refine ⟨?_, fun k => ?_, o4 ++ o5, ?_⟩
      · show s5.tabs - 1 = s.tabs
        rw [t5, t4]; rfl
      · rw [hw k]
        by_cases hk : k = s.tabs
        · right; simp [hk]
        · simp only [hk, if_false]
          rcases l5 k with h | ⟨hk2, h⟩
          · left; rw [h, l4]; simp [write, hk]
          · right; rw [t4] at hk2; exact ⟨by omega, h⟩
      · show s5.out = _
        rw [e5, e4, List.append_assoc]

/-! ## Steps that succeed -/

theorem get_proc_tasks_ok {E : Procfs} {pid : Int} {ts : List Int}
    (h : E.task pid = some ts) (hl : ts.length < MAX_TASKS) : get_proc_tasks E pid = .done ts := by
  unfold get_proc_tasks
  rw [h]
  simp only
  rw [if_neg (by omega)]

theorem takeWhile_nonzero {ts : List Int} (h0 : ∀ t ∈ ts, t ≠ 0) :
    ts.takeWhile (fun x => x != 0) = ts := by
  rw [List.takeWhile_eq_self_iff]
  intro t ht
  simpa using h0 t ht

theorem get_arr_len_ok {ts : List Int} (h0 : ∀ t ∈ ts, t ≠ 0) (hl : ts.length < MAX_TASKS) :
    get_arr_len ts = .done ts.length := by
  unfold get_arr_len
  simp only [takeWhile_nonzero h0]
  rw [if_neg (by omega)]

theorem get_arr_len_short (a : List Int) (hl : a.length < MAX_TASKS) :
    get_arr_len a = .done (a.takeWhile (fun x => x != 0)).length := by
  unfold get_arr_len
  have := (List.takeWhile_sublist (fun x : Int => x != 0) (l := a)).length_le
  show (if MAX_TASKS ≤ _ then _ else _) = _
  rw [if_neg (by omega)]

theorem collect_children_ok (E : Procfs) (pid : Int) (ts : List Int)
    (hc : ∀ t ∈ ts, ∃ cs, E.children pid t = some cs ∧ cs.length < MAX_TASKS) :
    ∀ a : List Int, a.length < MAX_TASKS →
      ∃ b, collect_children E pid ts a = .done b ∧ b.length < MAX_TASKS := by
  induction ts with
  | nil => intro a ha; exact ⟨a, rfl, ha⟩
  | cons t rest ih =>
    intro a ha
    obtain ⟨cs, hcs, hl⟩ := hc t (List.mem_cons_self _ _)
    unfold collect_children get_children
    rw [hcs]
    simp only
    rw [if_neg (by omega), bind_done]
    apply ih (fun t ht => hc t (List.mem_cons_of_mem _ ht))
    simp only [List.length_append, List.length_drop]
    omega

theorem print_proc_name_ok {E : Procfs} {pid : Int} {name : String} (tabs flag : Nat) (s : St)
    (hn : GET_PROC_NAME E pid = .done name) (hd : tabs < MAX_TREE_DEPTH) :
    print_proc_name E pid tabs flag s =
      .done (s.emit (PRINT_INDENT s.last_child tabs ++ proc_text flag name pid)) := by
  unfold print_proc_name
  rw [hn, bind_done, if_neg (by omega)]

theorem print_forked_proc_ok {E : Procfs} {pid : Int} {name : String} (tabs n sp : Nat) (s : St)
    (hn : GET_PROC_NAME E pid = .done name) (hd : tabs < MAX_TREE_DEPTH) :
    print_forked_proc E pid tabs n sp s =
      .done (s.emit (PRINT_INDENT s.last_child tabs ++ forked_text name pid n sp)) := by
  unfold print_forked_proc
  rw [hn, bind_done, if_neg (by omega)]

theorem forked_loop_hidden (E : Procfs) (flag len : Nat) (hp : IS_SHOW_PID flag = false)
    (ts : List Int) (s : St) : forked_loop E flag len ts s = .done s := by
  induction ts with
  | nil => rfl
  | cons t rest ih =>
    unfold forked_loop
    rw [if_neg (by simp [hp]), bind_done]
    exact ih

theorem forked_loop_shown (E : Procfs) (flag len : Nat) (hp : IS_SHOW_PID flag = true)
    (hlen : 1 < len) (nm : Int → String) (ts : List Int)
    (hn : ∀ t ∈ ts, GET_PROC_NAME E t = .done (nm t)) (s : St) (hd : s.tabs < MAX_TREE_DEPTH) :
    forked_loop E flag len ts s =
      .done (s.emits (ts.map fun t => PRINT_INDENT s.last_child s.tabs ++ forked_text (nm t) t 1 1)) := by
  induction ts generalizing s with
  | nil => simp [forked_loop, St.emits]
  | cons t rest ih =>
    unfold forked_loop
    rw [if_pos ⟨hlen, hp⟩, print_forked_proc_ok _ _ _ _ (hn t (List.mem_cons_self _ _)) hd, bind_done,
      ih (fun t ht => hn t (List.mem_cons_of_mem _ ht))
        (s.emit (PRINT_INDENT s.last_child s.tabs ++ forked_text (nm t) t 1 1)) hd]
    simp [St.emits, St.emit]

theorem take_upto_zero (a : List Int) : a.take (upto_zero a).length = upto_zero a :=
  (List.prefix_iff_eq_take.mp (List.takeWhile_prefix _)).symm

/-- The head of a call on a process whose reads succeed, up to the thread lines. -/
theorem visit_head_ok {E : Procfs} {flag : Nat} {pid : Int} (il : Nat) {s : St} {name : String}
    {ts : List Int} {s3 s4 : St}
    (hd : s.tabs < MAX_TREE_DEPTH) (hn : GET_PROC_NAME E pid = .done name)
    (ht : E.task pid = some ts) (hl : ts.length < MAX_TASKS) (h0 : ∀ t ∈ ts, t ≠ 0)
    (hne : ts ≠ [])
    (hc : ∀ t ∈ ts, ∃ cs, E.children pid t = some cs ∧ cs.length < MAX_TASKS)
    (h6 : merged_step E flag ts ts.length
      (INCR_INDENT ((s.mark il).emit (PRINT_INDENT (s.mark il).last_child s.tabs ++ proc_text flag name pid)))
        = .done s3)
    (h7 : forked_loop E flag ts.length ts.tail s3 = .done s4) :
    ∃ children, collect_children E pid ts [] = .done children ∧ children.length < MAX_TASKS ∧
      visit_head E flag pid il s = .done (sort_step flag (upto_zero children), s4) := by
  obtain ⟨children, hcc, hcl⟩ := collect_children_ok E pid ts hc [] (by simp [MAX_TASKS])
  refine ⟨children, hcc, hcl, ?_⟩
  have hlen : ts.length ≠ 0 := fun h => hne (List.length_eq_zero.mp h)
  rw [visit_head_eq, if_neg (by omega), print_proc_name_ok _ _ _ hn hd, bind_done,
    get_proc_tasks_ok ht hl, bind_done, get_arr_len_ok h0 hl, bind_done, if_neg hlen,
    List.take_length, hcc, bind_done, get_arr_len_short _ hcl, bind_done, h6, bind_done,
    List.drop_one, h7, bind_done]
  show Res.done (sort_step flag (children.take (upto_zero children).length), s4) = _
  rw [take_upto_zero]

theorem PRINT_INDENT_zero (lc : Nat → Nat) : PRINT_INDENT lc 0 = "" := rfl

theorem do_pstree_impl_succ (fuel : Nat) (E : Procfs) (flag : Nat) (pid : Int) (il : Nat) (s : St) :
    do_pstree_impl (fuel + 1) E flag pid il s =
      (visit_head E flag pid il s).bind fun hs =>
        (for_children (do_pstree_impl fuel E flag) hs.1.length hs.1 0 hs.2).bind visit_end := rfl

theorem qsort_nil (cmp : Int → Int → Int) : qsort [] cmp = [] := rfl

theorem sort_step_nil (flag : Nat) : sort_step flag [] = [] := by
  unfold sort_step
  split <;> rfl

/-- C7: a process with exactly one thread and no children is rendered as one line, the
connector (empty at depth 0) followed by `name`, or by `name(pid)` when pids are shown; no
thread line is printed and the call returns. -/
theorem single_thread_leaf_line (fuel : Nat) (E : Procfs) (flag : Nat) (pid t : Int) (il : Nat)
    (s : St) (name : String)
    (hd : s.tabs < MAX_TREE_DEPTH) (hn : GET_PROC_NAME E pid = .done name)
    (ht : E.task pid = some [t]) (ht0 : t ≠ 0) (hc : E.children pid t = some [])
    (hf : IS_FORKED_TASK flag = false) :
    ∃ s1, do_pstree_impl (fuel + 1) E flag pid il s = .done s1 ∧
      s1.out = s.out ++ [PRINT_INDENT (s.mark il).last_child s.tabs ++
        (if IS_SHOW_PID flag = true then name ++ "(" ++ fmt_d pid ++ ")" else name)] ∧
      s1.tabs = s.tabs ∧
      (s.tabs = 0 → PRINT_INDENT (s.mark il).last_child s.tabs = "") := by
  have h6 : merged_step E flag [t] [t].length
      (INCR_INDENT ((s.mark il).emit (PRINT_INDENT (s.mark il).last_child s.tabs ++ proc_text flag name pid)))
      = .done (INCR_INDENT ((s.mark il).emit (PRINT_INDENT (s.mark il).last_child s.tabs ++ proc_text flag name pid))) := by
    unfold merged_step
    rw [if_neg (by simp)]
  have h7 : forked_loop E flag [t].length [t].tail
      (INCR_INDENT ((s.mark il).emit (PRINT_INDENT (s.mark il).last_child s.tabs ++ proc_text flag name pid)))
      = .done (INCR_INDENT ((s.mark il).emit (PRINT_INDENT (s.mark il).last_child s.tabs ++ proc_text flag name pid))) := rfl
  obtain ⟨children, hcc, _, hv⟩ := visit_head_ok il hd hn ht (by simp [MAX_TASKS])
    (by simpa using ht0) (by simp) (by intro t1 h1; simp at h1; subst h1; exact ⟨[], hc, by simp [MAX_TASKS]⟩)
    h6 h7
  have hch : children = [] := by
    simp only [collect_children, get_children, hc] at hcc
    rw [if_neg (by simp [MAX_TASKS])] at hcc
    simpa using hcc.symm
  subst hch
  have hu : upto_zero [] = [] := rfl
  rw [hu, sort_step_nil] at hv
  have hte : proc_text flag name pid =
      (if IS_SHOW_PID flag = true then name ++ "(" ++ fmt_d pid ++ ")" else name) := by
    unfold proc_text
    rw [hf]
    cases IS_SHOW_PID flag <;> rfl
  rw [hte] at hv
  refine ⟨(INCR_INDENT ((s.mark il).emit (PRINT_INDENT (s.mark il).last_child s.tabs ++
      (if IS_SHOW_PID flag = true then name ++ "(" ++ fmt_d pid ++ ")" else name)))).unmark,
    ?_, rfl, rfl, ?_⟩
  · rw [do_pstree_impl_succ, hv, bind_done]
    simp only [for_children, bind_done, visit_end]
    rw [if_neg]
    show ¬ MAX_TREE_DEPTH ≤ s.tabs + 1 - 1
    omega
  · intro h0; rw [h0]; rfl

/-- The globals do not stand in the way of a second run: with no limit on open streams, when
`do_pstree` completes from the start state, a run from the globals it left completes too and
adds the very same lines to stderr.  The limit is what stops a second run. -/
theorem do_pstree_again (fuel : Nat) (E : Procfs) (flag : Nat) (pid : Int) (s1 : St)
    (h : do_pstree fuel E flag pid St.init = .done s1) :
    ∃ s2, do_pstree fuel E flag pid s1 = .done s2 ∧ s2.out = s1.out ++ s1.out := by
  obtain ⟨t1, l1, _⟩ := do_pstree_impl_frame fuel E flag pid 0 St.init s1 h
  have hs : s1 = St.init.pre s1.out := by
    cases s1 with
    | mk tabs lc out =>
      simp only [St.pre, St.init, List.append_nil, St.mk.injEq, and_true]
      refine ⟨t1, funext fun k => ?_⟩
      rcases l1 k with h | ⟨_, h⟩
      · exact h
      · exact h
  refine ⟨s1.pre s1.out, ?_, rfl⟩
  have := do_pstree_impl_pre fuel E flag s1.out pid 0 St.init
  unfold do_pstree at h ⊢
  rw [h] at this
  rw [← hs] at this
  exact this

/-- After the head of a call the rest of the call is the loop over the children followed by
lines 224-225, and it only adds output. -/
theorem after_head {E : Procfs} {flag : Nat} {pid : Int} {il : Nat} {s : St} {cs : List Int} {s4 : St}
    (fuel : Nat) (hv : visit_head E flag pid il s = .done (cs, s4)) :
    do_pstree_impl (fuel + 1) E flag pid il s =
        (for_children (do_pstree_impl fuel E flag) cs.length cs 0 s4).bind visit_end ∧
    ∀ s1, do_pstree_impl (fuel + 1) E flag pid il s = .done s1 → ∃ rest, s1.out = s4.out ++ rest := by
  have he : do_pstree_impl (fuel + 1) E flag pid il s =
      (for_children (do_pstree_impl fuel E flag) cs.length cs 0 s4).bind visit_end := by
    rw [do_pstree_impl_succ, hv, bind_done]
  refine ⟨he, fun s1 h1 => ?_⟩
  rw [he] at h1
  obtain ⟨s5, hl, h1⟩ := bind_eq_done h1
  obtain ⟨_, _, rest, e5⟩ := for_children_frame (do_pstree_impl_frame fuel E flag) hl
  unfold visit_end at h1
  split at h1
  · simp at h1
  · injection h1 with h1
    subst h1
    exact ⟨rest, e5⟩

/-- C4: a process with k > 1 threads, pids not shown: the head of its call prints the main
line and then exactly one thread line, reading the braced name of the second thread for k = 2
and `(k-1)*[` braced name `]` for k > 2; what remains of the call is the loop over the children,
whose lines come after. -/
theorem merged_thread_line (fuel : Nat) (E : Procfs) (flag : Nat) (pid : Int) (il : Nat) (s : St)
    (name tname : String) (ts : List Int)
    (hd : s.tabs + 1 < MAX_TREE_DEPTH) (hn : GET_PROC_NAME E pid = .done name)
    (ht : E.task pid = some ts) (hk : 1 < ts.length) (hl : ts.length < MAX_TASKS)
    (h0 : ∀ t ∈ ts, t ≠ 0)
    (hc : ∀ t ∈ ts, ∃ cs, E.children pid t = some cs ∧ cs.length < MAX_TASKS)
    (hn1 : GET_PROC_NAME E (ts.getD 1 0) = .done tname)
    (hp : IS_SHOW_PID flag = false) :
    ∃ cs s4, visit_head E flag pid il s = .done (cs, s4) ∧
      s4.out = s.out ++
        [PRINT_INDENT (s.mark il).last_child s.tabs ++ proc_text flag name pid,
         PRINT_INDENT (s.mark il).last_child (s.tabs + 1) ++
          (if ts.length = 2 then "\x7b" ++ tname ++ "\x7d"
            else toString (ts.length - 1) ++ "*[\x7b" ++ tname ++ "\x7d]")] ∧
      do_pstree_impl (fuel + 1) E flag pid il s =
        (for_children (do_pstree_impl fuel E flag) cs.length cs 0 s4).bind visit_end ∧
      ∀ s1, do_pstree_impl (fuel + 1) E flag pid il s = .done s1 → ∃ rest, s1.out = s4.out ++ rest := by
  have hne : ts ≠ [] := by intro h; rw [h] at hk; simp at hk
  have h6 := print_forked_proc_ok (s.tabs + 1) (ts.length - 1) 0
    (INCR_INDENT ((s.mark il).emit (PRINT_INDENT (s.mark il).last_child s.tabs ++ proc_text flag name pid)))
    hn1 hd
  have h6a : merged_step E flag ts ts.length
      (INCR_INDENT ((s.mark il).emit (PRINT_INDENT (s.mark il).last_child s.tabs ++ proc_text flag name pid)))
      = .done ((INCR_INDENT ((s.mark il).emit
          (PRINT_INDENT (s.mark il).last_child s.tabs ++ proc_text flag name pid))).emit
            (PRINT_INDENT (s.mark il).last_child (s.tabs + 1) ++
              forked_text tname (ts.getD 1 0) (ts.length - 1) 0)) := by
    unfold merged_step
    rw [if_pos ⟨hk, hp⟩]
    exact h6
  obtain ⟨children, _, _, hv⟩ := visit_head_ok il (Nat.lt_of_succ_lt hd) hn ht hl h0 hne hc h6a
    (forked_loop_hidden E flag ts.length hp ts.tail _)
  refine ⟨_, _, hv, ?_, after_head fuel hv⟩
  have hft : forked_text tname (ts.getD 1 0) (ts.length - 1) 0 =
      (if ts.length = 2 then "\x7b" ++ tname ++ "\x7d"
        else toString (ts.length - 1) ++ "*[\x7b" ++ tname ++ "\x7d]") := by
    unfold forked_text
    by_cases h2 : ts.length = 2
    · rw [if_pos h2, h2]; rfl
    · rw [if_neg h2]
      have : decide (1 < ts.length - 1) = true := by simp; omega
      rw [this]
  rw [← hft]
  simp [St.emit, INCR_INDENT, St.mark]

/-- C5: a process with threads t0..t(k-1), k > 1, pids shown: the head of its call prints the main
line and then k-1 thread lines, one for each of t1..t(k-1) in listing order, each the braced name
of the thread followed by its id in parentheses; no merged line is printed, and what remains of
the call is the loop over the children, whose lines come after. -/
theorem individual_thread_lines (fuel : Nat) (E : Procfs) (flag : Nat) (pid : Int) (il : Nat) (s : St)
    (name : String) (nm : Int → String) (ts : List Int)
    (hd : s.tabs + 1 < MAX_TREE_DEPTH) (hn : GET_PROC_NAME E pid = .done name)
    (ht : E.task pid = some ts) (hk : 1 < ts.length) (hl : ts.length < MAX_TASKS)
    (h0 : ∀ t ∈ ts, t ≠ 0)
    (hc : ∀ t ∈ ts, ∃ cs, E.children pid t = some cs ∧ cs.length < MAX_TASKS)
    (hn1 : ∀ t ∈ ts.tail, GET_PROC_NAME E t = .done (nm t))
    (hp : IS_SHOW_PID flag = true) :
    ∃ cs s4, visit_head E flag pid il s = .done (cs, s4) ∧
      s4.out = s.out ++
        ((PRINT_INDENT (s.mark il).last_child s.tabs ++ proc_text flag name pid) ::
          ts.tail.map fun t =>
            PRINT_INDENT (s.mark il).last_child (s.tabs + 1) ++
              ("\x7b" ++ nm t ++ "\x7d(" ++ fmt_d t ++ ")")) ∧
      (ts.tail.map fun t =>
            PRINT_INDENT (s.mark il).last_child (s.tabs + 1) ++
              ("\x7b" ++ nm t ++ "\x7d(" ++ fmt_d t ++ ")")).length = ts.length - 1 ∧
      do_pstree_impl (fuel + 1) E flag pid il s =
        (for_children (do_pstree_impl fuel E flag) cs.length cs 0 s4).bind visit_end ∧
      ∀ s1, do_pstree_impl (fuel + 1) E flag pid il s = .done s1 → ∃ rest, s1.out = s4.out ++ rest := by
  have hne : ts ≠ [] := by intro h; rw [h] at hk; simp at hk
  have h6a : merged_step E flag ts ts.length
      (INCR_INDENT ((s.mark il).emit (PRINT_INDENT (s.mark il).last_child s.tabs ++ proc_text flag name pid)))
      = .done (INCR_INDENT ((s.mark il).emit
          (PRINT_INDENT (s.mark il).last_child s.tabs ++ proc_text flag name pid))) := by
    unfold merged_step
    rw [if_neg (by simp [hp])]
  obtain ⟨children, _, _, hv⟩ := visit_head_ok il (Nat.lt_of_succ_lt hd) hn ht hl h0 hne hc h6a
    (forked_loop_shown E flag ts.length hp hk nm ts.tail hn1 _ hd)
  refine ⟨_, _, hv, ?_, by simp, after_head fuel hv⟩
  simp [St.emits, St.emit, INCR_INDENT, St.mark, forked_text]

/-! ## The sort of lines 208-210 -/

theorem compare_pid_le_zero (a b : Int) : compare_pid a b ≤ 0 ↔ a < b := by
  unfold compare_pid
  split <;> omega

theorem msort_merge_loop_perm (cmp : Int → Int → Int) (k : Nat) :
    ∀ l r : List Int, (msort_merge_loop cmp k l r).Perm (l ++ r) := by
  induction k with
  | zero => intro l r; exact List.Perm.refl _
  | succ k ih =>
    intro l r
    cases l with
    | nil => exact List.Perm.refl _
    | cons a l =>
      cases r with
      | nil => simp [msort_merge_loop]
      | cons b r =>
        unfold msort_merge_loop
        split
        · exact (ih l (b :: r)).cons a
        · refine ((ih (a :: l) r).cons b).trans ?_
          exact List.perm_middle.symm

theorem msort_merge_perm (cmp : Int → Int → Int) (l r : List Int) :
    (msort_merge cmp l r).Perm (l ++ r) :=
  msort_merge_loop_perm cmp _ l r

theorem msort_merge_loop_sorted (k : Nat) :
    ∀ l r : List Int, l.length + r.length ≤ k → l.Sorted (· ≤ ·) → r.Sorted (· ≤ ·) →
      (msort_merge_loop compare_pid k l r).Sorted (· ≤ ·) := by
  induction k with
  | zero =>
    intro l r hk _ _
    have h1 : l = [] := List.length_eq_zero.mp (by omega)
    have h2 : r = [] := List.length_eq_zero.mp (by omega)
    subst h1 h2
    exact List.sorted_nil
  | succ k ih =>
    intro l r hk hl hr
    cases l with
    | nil => exact hr
    | cons a l =>
      cases r with
      | nil => exact hl
      | cons b r =>
        have hl2 := List.sorted_cons.mp hl
        have hr2 := List.sorted_cons.mp hr
        simp only [List.length_cons] at hk
        unfold msort_merge_loop
        split
        · rename_i hab
          rw [compare_pid_le_zero] at hab
          refine List.sorted_cons.mpr ⟨fun x hx => ?_,
            ih l (b :: r) (by simp only [List.length_cons]; omega) hl2.2 hr⟩
          have hx2 := (msort_merge_loop_perm compare_pid k l (b :: r)).subset hx
          rcases List.mem_append.mp hx2 with h | h
          · exact hl2.1 x h
          · rcases List.mem_cons.mp h with h | h
            · omega
            · have := hr2.1 x h; omega
        · rename_i hab
          rw [compare_pid_le_zero] at hab
          refine List.sorted_cons.mpr ⟨fun x hx => ?_,
            ih (a :: l) r (by simp only [List.length_cons]; omega) hl hr2.2⟩
          have hx2 := (msort_merge_loop_perm compare_pid k (a :: l) r).subset hx
          rcases List.mem_append.mp hx2 with h | h
          · rcases List.mem_cons.mp h with h | h
            · omega
            · have := hl2.1 x h; omega
          · exact hr2.1 x h

theorem msort_merge_sorted (l r : List Int) (hl : l.Sorted (· ≤ ·)) (hr : r.Sorted (· ≤ ·)) :
    (msort_merge compare_pid l r).Sorted (· ≤ ·) :=
  msort_merge_loop_sorted _ l r (Nat.le_refl _) hl hr

theorem msort_with_tmp_perm (cmp : Int → Int → Int) (d : Nat) :
    ∀ b : List Int, (msort_with_tmp cmp d b).Perm b := by
  induction d with
  | zero => intro b; exact List.Perm.refl _
  | succ d ih =>
    intro b
    unfold msort_with_tmp
    split
    · exact List.Perm.refl _
    · refine (msort_merge_perm cmp _ _).trans ?_
      refine ((ih _).append (ih _)).trans ?_
      rw [List.take_append_drop]

theorem msort_with_tmp_sorted (d : Nat) :
    ∀ b : List Int, b.length ≤ d → (msort_with_tmp compare_pid d b).Sorted (· ≤ ·) := by
  induction d with
  | zero =>
    intro b hb
    have : b = [] := List.length_eq_zero.mp (Nat.le_zero.mp hb)
    subst this
    exact List.sorted_nil
  | succ d ih =>
    intro b hb
    unfold msort_with_tmp
    split
    · rename_i h1
      match b, h1 with
      | [], _ => exact List.sorted_nil
      | [x], _ => exact List.sorted_singleton x
      | _ :: _ :: _, h => simp at h
    · rename_i h1
      apply msort_merge_sorted
      · apply ih
        rw [List.length_take]
        omega
      · apply ih
        rw [List.length_drop]
        omega

theorem qsort_perm (b : List Int) (cmp : Int → Int → Int) : (qsort b cmp).Perm b :=
  msort_with_tmp_perm cmp b.length b

theorem qsort_compare_pid_sorted (b : List Int) : (qsort b compare_pid).Sorted (· ≤ ·) :=
  msort_with_tmp_sorted b.length b (Nat.le_refl _)

theorem get_arr_len_done {a : List Int} {n : Nat} (h : get_arr_len a = .done n) :
    a.take n = upto_zero a := by
  unfold get_arr_len at h
  simp only at h
  split at h
  · simp at h
  · injection h with h
    subst h
    exact take_upto_zero a

/-- C6: with NUMERIC_SORT set, the children a call recurses into are the result of `qsort` with
`compare_pid` on the child list read from /proc; that result is a permutation of the list, and
it is strictly ascending when the child pids are distinct. -/
theorem numeric_sort_ascending (fuel : Nat) (E : Procfs) (flag : Nat) (pid : Int) (il : Nat)
    (s : St) (cs : List Int) (s4 : St)
    (hv : visit_head E flag pid il s = .done (cs, s4)) (hs : IS_NUMERIC_SORT flag = true) :
    ∃ tasks children,
      get_proc_tasks E pid = .done tasks ∧
      collect_children E pid (upto_zero tasks) [] = .done children ∧
      cs = qsort (upto_zero children) compare_pid ∧
      cs.Perm (upto_zero children) ∧
      ((upto_zero children).Nodup → cs.Sorted (· < ·)) ∧
      do_pstree_impl (fuel + 1) E flag pid il s =
        (for_children (do_pstree_impl fuel E flag) cs.length cs 0 s4).bind visit_end := by
  obtain ⟨_, s1, tasks, tasks_len, children, children_len, s3, _, h2, h3, _, h4, h5, _, _, hcs⟩ :=
    visit_head_done hv
  rw [get_arr_len_done h3] at h4
  rw [get_arr_len_done h5] at hcs
  unfold sort_step at hcs
  rw [if_pos hs] at hcs
  subst hcs
  refine ⟨tasks, children, h2, h4, rfl, qsort_perm _ _, fun hnd => ?_, (after_head fuel hv).1⟩
  exact (qsort_compare_pid_sorted _).lt_of_le ((qsort_perm _ _).nodup_iff.mpr hnd)

/-! ## The calls of a run, and the connectors of their main lines -/

theorem visit_on_path {E : Procfs} {flag fuel0 : Nat} {root : Int} {s0 : St}
    (h0t : s0.tabs = 0) (h0l : ∀ k, s0.last_child k = 0)
    {flags : List Nat} {fuel : Nat} {pid : Int} {il : Nat} {s : St}
    (hv : Visit E flag fuel0 root s0 flags fuel pid il s) : OnPath flags s := by
  induction hv with
  | root => exact ⟨h0t, fun i hi => by simp at hi, fun k _ => h0l k⟩
  | @child flags fuel pid il s cs s4 j sj _ hh hj hl ih =>
    obtain ⟨pt, pl, pz⟩ := ih
    obtain ⟨_, t4, l4, _⟩ := visit_head_globals hh
    obtain ⟨t5, l5, _⟩ := for_children_frame (do_pstree_impl_frame fuel E flag) hl
    have hz : s.last_child s.tabs ||| il = il := by
      rw [pz s.tabs (by omega)]; simp
    rw [hz] at l4
    have hlc : ∀ k, sj.last_child k = if k = s.tabs then il else s.last_child k := by
      intro k
      rcases l5 k with h | ⟨hk, h⟩
      · rw [h, l4]; rfl
      · rw [h]
        rw [t4] at hk
        rw [if_neg (by omega), pz k (by omega)]
    refine ⟨?_, fun i hi => ?_, fun k hk => ?_⟩
    · rw [t5, t4, pt]; simp
    · rw [hlc i]
      simp only [List.length_append, List.length_singleton] at hi
      by_cases hi2 : i = s.tabs
      · rw [if_pos hi2, hi2, pt]; simp
      · rw [if_neg hi2, pl i (by omega)]
        rw [List.getD_append _ _ _ _ (by omega)]
    · simp only [List.length_append, List.length_singleton] at hk
      rw [hlc k, if_neg (by omega), pz k (by omega)]

theorem indent_pieces_succ (lc : Nat → Nat) (n : Nat) :
    indent_pieces lc (n + 1) =
      (List.range n).map (fun i => column (lc (i + 1))) ++ [glyph (lc (n + 1))] := by
  unfold indent_pieces
  rw [List.range_succ, List.map_append]
  congr 1
  · apply List.map_congr_left
    intro i hi
    have := List.mem_range.mp hi
    rw [if_neg (by omega)]
    rfl
  · simp [glyph]

theorem PRINT_INDENT_on_path {flags : List Nat} {s : St} (il : Nat) (hp : OnPath flags s) :
    PRINT_INDENT (s.mark il).last_child s.tabs = connector flags il := by
  obtain ⟨pt, pl, pz⟩ := hp
  cases flags with
  | nil => rw [pt]; rfl
  | cons f anc =>
    rw [pt]
    show String.join (indent_pieces _ (anc.length + 1)) = String.join _
    rw [indent_pieces_succ]
    have hm : ∀ k, (s.mark il).last_child k = if k = s.tabs then s.last_child s.tabs ||| il
        else s.last_child k := fun k => rfl
    congr 2
    · apply List.ext_getElem
      · simp
      · intro i h1 h2
        simp only [List.length_map, List.length_range] at h1
        simp only [List.getElem_map, List.getElem_range]
        rw [hm, if_neg (by rw [pt]; simp; omega), pl (i + 1) (by simp; omega)]
        simp [List.getElem?_eq_getElem h1]
    · rw [hm, if_pos (by rw [pt]; rfl), pz s.tabs (by omega)]
      simp

/-- The main line is the first thing a completed call adds to stderr. -/
theorem main_line_first {fuel : Nat} {E : Procfs} {flag : Nat} {pid : Int} {il : Nat} {s s1 : St}
    {name : String} (hn : GET_PROC_NAME E pid = .done name)
    (h : do_pstree_impl fuel E flag pid il s = .done s1) :
    ∃ rest, s1.out = s.out ++
      (PRINT_INDENT (s.mark il).last_child s.tabs ++ proc_text flag name pid) :: rest := by
  cases fuel with
  | zero => simp [do_pstree_impl] at h
  | succ fuel =>
    rw [do_pstree_impl_succ] at h
    obtain ⟨⟨cs, s4⟩, hh, _⟩ := bind_eq_done h
    obtain ⟨r5, e5⟩ := (after_head fuel hh).2 s1 (by rw [do_pstree_impl_succ]; exact h)
    obtain ⟨hd, s1a, tasks, tasks_len, children, children_len, s3, h1, _, _, _, _, _, h6, h7, _⟩ :=
      visit_head_done hh
    rw [print_proc_name_ok _ _ _ hn hd] at h1
    injection h1 with h1
    obtain ⟨_, _, r3, e3⟩ := printed_trans (merged_step_printed h6) (forked_loop_printed h7)
    refine ⟨r3 ++ r5, ?_⟩
    rw [e5, e3, ← h1]
    simp [INCR_INDENT, St.emit, St.mark]

/-- C3: in a run of `do_pstree` from zeroed globals, the main line of every visited process is
its connector followed by its text: no connector for the root; at depth d >= 1 one column for
each proper ancestor below the root, top-down, three blanks if that ancestor was called as a
last child and a bar with two blanks otherwise, and then the corner if the process itself was
called as the last element of its parent's child list and the tee otherwise. -/
theorem connector_of_visited (E : Procfs) (flag fuel0 : Nat) (root : Int) (s0 : St)
    (h0t : s0.tabs = 0) (h0l : ∀ k, s0.last_child k = 0)
    (flags : List Nat) (fuel : Nat) (pid : Int) (il : Nat) (s : St) (name : String)
    (hv : Visit E flag fuel0 root s0 flags fuel pid il s)
    (hn : GET_PROC_NAME E pid = .done name) (hd : flags.length < MAX_TREE_DEPTH) :
    s.tabs = flags.length ∧
    print_proc_name E pid s.tabs flag (s.mark il) =
      .done ((s.mark il).emit (connector flags il ++ proc_text flag name pid)) ∧
    ∀ s1, do_pstree_impl fuel E flag pid il s = .done s1 →
      ∃ rest, s1.out = s.out ++ (connector flags il ++ proc_text flag name pid) :: rest := by
  have hp := visit_on_path h0t h0l hv
  refine ⟨hp.1, ?_, fun s1 h1 => ?_⟩
  · rw [print_proc_name_ok _ _ _ hn (by rw [hp.1]; exact hd)]
    show Res.done ((s.mark il).emit (PRINT_INDENT (s.mark il).last_child s.tabs ++ _)) = _
    rw [PRINT_INDENT_on_path il hp]
  · have := main_line_first hn h1
    rw [PRINT_INDENT_on_path il hp] at this
    exact this

/-! ## Abort by assertion and completion -/

theorem collect_children_mem (E : Procfs) (pid : Int) (ts : List Int) :
    ∀ a b : List Int, collect_children E pid ts a = .done b →
      ∀ c ∈ b, c ∈ a ∨ ∃ t ∈ ts, ∃ cs, E.children pid t = some cs ∧ c ∈ cs := by
  induction ts with
  | nil =>
    intro a b hb c hc
    unfold collect_children at hb
    injection hb with hb
    subst hb
    exact Or.inl hc
  | cons t rest ih =>
    intro a b hb c hc
    unfold collect_children at hb
    obtain ⟨a1, h1, hb⟩ := bind_eq_done hb
    unfold get_children at h1
    cases hcs : E.children pid t with
    | none => rw [hcs] at h1; simp at h1
    | some cs =>
      rw [hcs] at h1
      simp only at h1
      split at h1
      · simp at h1
      · injection h1 with h1
        subst h1
        rcases ih _ b hb c hc with h | ⟨t1, ht1, cs1, hcs1, hc1⟩
        · rcases List.mem_append.mp h with h | h
          · exact Or.inr ⟨t, List.mem_cons_self _ _, cs, hcs, h⟩
          · exact Or.inl (List.mem_of_mem_drop h)
        · exact Or.inr ⟨t1, List.mem_cons_of_mem _ ht1, cs1, hcs1, hc1⟩

theorem sort_step_mem {flag : Nat} {a : List Int} {c : Int} (h : c ∈ sort_step flag (upto_zero a)) :
    c ∈ a := by
  unfold sort_step at h
  have hu : c ∈ upto_zero a := by
    split at h
    · exact (qsort_perm _ _).subset h
    · exact h
  exact (List.takeWhile_sublist _).subset hu

theorem forked_loop_ok (E : Procfs) (flag len : Nat) (ts : List Int)
    (hn : ∀ t ∈ ts, ∃ name, GET_PROC_NAME E t = .done name) (s : St)
    (hd : s.tabs < MAX_TREE_DEPTH) : ∃ s1, forked_loop E flag len ts s = .done s1 := by
  induction ts generalizing s with
  | nil => exact ⟨s, rfl⟩
  | cons t rest ih =>
    unfold forked_loop
    obtain ⟨name, hname⟩ := hn t (List.mem_cons_self _ _)
    split
    · rw [print_forked_proc_ok _ _ _ _ hname hd, bind_done]
      exact ih (fun t ht => hn t (List.mem_cons_of_mem _ ht)) _ hd
    · rw [bind_done]
      exact ih (fun t ht => hn t (List.mem_cons_of_mem _ ht)) _ hd

theorem merged_step_ok (E : Procfs) (flag : Nat) (ts : List Int)
    (hn : ∀ t ∈ ts, ∃ name, GET_PROC_NAME E t = .done name) (s : St)
    (hd : s.tabs < MAX_TREE_DEPTH) : ∃ s1, merged_step E flag ts ts.length s = .done s1 := by
  unfold merged_step
  split
  · rename_i h
    have hm : ts.getD 1 0 ∈ ts := by
      rw [List.getD_eq_getElem _ _ h.1]
      exact List.getElem_mem _
    obtain ⟨name, hname⟩ := hn _ hm
    rw [print_forked_proc_ok _ _ _ _ hname hd]
    exact ⟨_, rfl⟩
  · exact ⟨_, rfl⟩

/-- Head of a call on a live process: it fails the assertion when the task list is empty
and completes otherwise, with live children of smaller height. -/
theorem visit_head_live {E : Procfs} {live : Int → Prop} {h : Int → Nat} (hw : Walkable E live h)
    (flag : Nat) {pid : Int} (il : Nat) {s : St} (hl : live pid)
    (hd : s.tabs + 1 < MAX_TREE_DEPTH) :
    (E.task pid = some [] ∧ visit_head E flag pid il s = .abort .assert_fail) ∨
    (E.task pid ≠ some [] ∧ ∃ cs s4, visit_head E flag pid il s = .done (cs, s4) ∧
      ∀ c ∈ cs, live c ∧ h c < h pid) := by
  obtain ⟨⟨name, hn⟩, ts, ht, hlen, h0, hnt, hc⟩ := hw pid hl
  by_cases hne : ts = []
  · left
    subst hne
    refine ⟨ht, ?_⟩
    rw [visit_head_eq, if_neg (by omega), print_proc_name_ok _ _ _ hn (by omega), bind_done,
      get_proc_tasks_ok ht hlen, bind_done]
    rfl
  · right
    refine ⟨by rw [ht]; simpa using hne, ?_⟩
    obtain ⟨s3, h6⟩ := merged_step_ok E flag ts hnt
      (INCR_INDENT ((s.mark il).emit (PRINT_INDENT (s.mark il).last_child s.tabs ++ proc_text flag name pid)))
      hd
    have hd3 : s3.tabs < MAX_TREE_DEPTH := by
      rw [(merged_step_printed h6).1]; exact hd
    obtain ⟨s4, h7⟩ := forked_loop_ok E flag ts.length ts.tail
      (fun t ht => hnt t (List.mem_of_mem_tail ht)) s3 hd3
    obtain ⟨children, hcc, _, hv⟩ := visit_head_ok il (Nat.lt_of_succ_lt hd) hn ht hlen h0 hne
      (fun t ht => by obtain ⟨cs, h1, h2, _⟩ := hc t ht; exact ⟨cs, h1, h2⟩) h6 h7
    refine ⟨_, s4, hv, fun c hcm => ?_⟩
    rcases collect_children_mem E pid ts [] children hcc c (sort_step_mem hcm) with h | ⟨t, ht1, cs, hcs, hc1⟩
    · simp at h
    · obtain ⟨cs2, h1, _, h3⟩ := hc t ht1
      rw [hcs] at h1
      injection h1 with h1
      subst h1
      exact h3 c hc1

theorem for_children_cons (call : Int → Nat → St → Res St) (len : Nat) (c : Int) (rest : List Int)
    (j : Nat) (s : St) :
    for_children call len (c :: rest) j s =
      (call c (if j = len - 1 then 1 else 0) s).bind fun s1 =>
        for_children call len rest (j + 1) s1 := rfl

theorem for_children_append (call : Int → Nat → St → Res St) (len : Nat) (l1 l2 : List Int) :
    ∀ (j : Nat) (s : St), for_children call len (l1 ++ l2) j s =
      (for_children call len l1 j s).bind fun s1 => for_children call len l2 (j + l1.length) s1 := by
  induction l1 with
  | nil => intro j s; rfl
  | cons c rest ih =>
    intro j s
    show for_children call len (c :: (rest ++ l2)) j s = _
    rw [for_children_cons, for_children_cons]
    cases call c (if j = len - 1 then 1 else 0) s with
    | abort f => rfl
    | timeout => rfl
    | done s1 =>
      simp only [bind_done]
      rw [ih (j + 1) s1]
      simp only [List.length_cons]
      rw [show j + (rest.length + 1) = j + 1 + rest.length by omega]

/-- A fault of the loop over the children is the fault of one of its calls, made after the calls
before it returned. -/
theorem for_children_abort {call : Int → Nat → St → Res St} {len : Nat} {f : Fault} :
    ∀ (cs : List Int) (j0 : Nat) (s : St), for_children call len cs j0 s = .abort f →
      ∃ j, j < cs.length ∧ ∃ sj, for_children call len (cs.take j) j0 s = .done sj ∧
        call (cs.getD j 0) (if j0 + j = len - 1 then 1 else 0) sj = .abort f := by
  intro cs
  induction cs with
  | nil => intro j0 s h; simp [for_children] at h
  | cons c rest ih =>
    intro j0 s h
    unfold for_children at h
    cases hc : call c (if j0 = len - 1 then 1 else 0) s with
    | abort f1 =>
      rw [hc] at h
      simp only [bind_abort] at h
      exact ⟨0, by simp, s, rfl, by simpa using hc.trans h⟩
    | timeout => rw [hc] at h; simp at h
    | done s1 =>
      rw [hc, bind_done] at h
      obtain ⟨j, hj, sj, h1, h2⟩ := ih (j0 + 1) s1 h
      refine ⟨j + 1, by simpa using hj, sj, ?_, ?_⟩
      · show for_children call len (c :: rest.take j) j0 s = _
        unfold for_children
        rw [hc, bind_done]
        exact h1
      · rw [show j0 + (j + 1) = j0 + 1 + j by omega]
        simpa using h2

/-- A fault of the call for child `j`, made after the calls before it returned, is the fault of
the loop. -/
theorem for_children_abort_at {call : Int → Nat → St → Res St} {cs : List Int} {j : Nat}
    {s sj : St} {f : Fault} (hj : j < cs.length)
    (h1 : for_children call cs.length (cs.take j) 0 s = .done sj)
    (h2 : call (cs.getD j 0) (if j = cs.length - 1 then 1 else 0) sj = .abort f) :
    for_children call cs.length cs 0 s = .abort f := by
  have hsplit : cs = cs.take j ++ (cs.getD j 0 :: cs.drop (j + 1)) := by
    rw [List.getD_eq_getElem _ _ hj, List.getElem_cons_drop, List.take_append_drop]
  have hlen : (cs.take j).length = j := by rw [List.length_take]; omega
  have := for_children_append call cs.length (cs.take j) (cs.getD j 0 :: cs.drop (j + 1)) 0 s
  rw [← hsplit, h1, bind_done, hlen, Nat.zero_add] at this
  rw [this, for_children_cons, h2]
  rfl

theorem for_children_done_or_assert {call : Int → Nat → St → Res St} (len T : Nat)
    (hframe : ∀ c il s s1, call c il s = .done s1 → Frame s s1) :
    ∀ (cs : List Int),
      (∀ c ∈ cs, ∀ il s, s.tabs = T →
        (∃ s1, call c il s = .done s1) ∨ call c il s = .abort .assert_fail) →
      ∀ (j : Nat) (s : St), s.tabs = T →
        (∃ s1, for_children call len cs j s = .done s1) ∨
          for_children call len cs j s = .abort .assert_fail := by
  intro cs
  induction cs with
  | nil => intro _ j s _; exact Or.inl ⟨s, rfl⟩
  | cons c rest ih =>
    intro hcall j s hs
    unfold for_children
    rcases hcall c (List.mem_cons_self _ _) (if j = len - 1 then 1 else 0) s hs with ⟨s1, h1⟩ | h1
    · rw [h1, bind_done]
      exact ih (fun c hc => hcall c (List.mem_cons_of_mem _ hc)) (j + 1) s1
        ((hframe _ _ _ _ h1).1.trans hs)
    · rw [h1]
      exact Or.inr rfl

/-- On a walkable table a call with enough fuel and room in `last_child` returns or fails an
assertion. -/
theorem impl_done_or_assert {E : Procfs} {live : Int → Prop} {h : Int → Nat}
    (hw : Walkable E live h) (flag : Nat) :
    ∀ (fuel : Nat) (pid : Int) (il : Nat) (s : St), live pid → h pid < fuel →
      s.tabs + h pid + 1 < MAX_TREE_DEPTH →
      (∃ s1, do_pstree_impl fuel E flag pid il s = .done s1) ∨
        do_pstree_impl fuel E flag pid il s = .abort .assert_fail := by
  intro fuel
  induction fuel with
  | zero => intro pid il s _ hf _; omega
  | succ fuel ih =>
    intro pid il s hl hf hd
    rw [do_pstree_impl_succ]
    rcases visit_head_live hw flag il hl (s := s) (by omega) with ⟨_, hv⟩ | ⟨_, cs, s4, hv, hcs⟩
    · rw [hv]; exact Or.inr rfl
    · rw [hv, bind_done]
      obtain ⟨_, t4, _, _⟩ := visit_head_globals hv
      rcases for_children_done_or_assert cs.length (s.tabs + 1)
          (do_pstree_impl_frame fuel E flag) cs
          (fun c hc il1 s1 hs1 => ih c il1 s1 (hcs c hc).1 (by have := (hcs c hc).2; omega)
            (by have := (hcs c hc).2; omega)) 0 s4 t4 with ⟨s5, h5⟩ | h5
      · left
        rw [h5, bind_done]
        have t5 := (for_children_frame (do_pstree_impl_frame fuel E flag) h5).1
        unfold visit_end
        rw [if_neg (by rw [t5, t4]; simp; omega)]
        exact ⟨_, rfl⟩
      · right
        rw [h5]
        rfl

theorem getD_mem {cs : List Int} {j : Nat} (hj : j < cs.length) : cs.getD j 0 ∈ cs := by
  rw [List.getD_eq_getElem _ _ hj]
  exact List.getElem_mem _

/-- Along a run on a walkable table every called process is live, has fuel above its height,
and sits at a depth that leaves room for its height. -/
theorem visit_live {E : Procfs} {live : Int → Prop} {h : Int → Nat} (hw : Walkable E live h)
    {flag fuel0 : Nat} {root : Int} {s0 : St} (h0t : s0.tabs = 0)
    (hl : live root) (hf : h root < fuel0) (hd : h root + 1 < MAX_TREE_DEPTH)
    {flags : List Nat} {fuel : Nat} {pid : Int} {il : Nat} {s : St}
    (hv : Visit E flag fuel0 root s0 flags fuel pid il s) :
    live pid ∧ h pid < fuel ∧ s.tabs + h pid ≤ h root := by
  induction hv with
  | root => exact ⟨hl, hf, by omega⟩
  | @child flags fuel pid il s cs s4 j sj _ hh hj hlp ih =>
    obtain ⟨ipl, ipf, ipd⟩ := ih
    rcases visit_head_live hw flag il ipl (s := s) (by omega) with ⟨_, hv⟩ | ⟨_, cs1, s41, hv, hcs⟩
    · rw [hv] at hh; simp at hh
    · rw [hv] at hh
      injection hh with hh
      injection hh with hc1 hc2
      subst hc1 hc2
      obtain ⟨hcl, hch⟩ := hcs _ (getD_mem hj)
      obtain ⟨_, t4, _, _⟩ := visit_head_globals hv
      have t5 := (for_children_frame (do_pstree_impl_frame fuel E flag) hlp).1
      refine ⟨hcl, by omega, ?_⟩
      rw [t5, t4]
      omega

/-- A fault of a call made during a run is the fault of the run. -/
theorem visit_abort {E : Procfs} {flag fuel0 : Nat} {root : Int} {s0 : St}
    {flags : List Nat} {fuel : Nat} {pid : Int} {il : Nat} {s : St} {f : Fault}
    (hv : Visit E flag fuel0 root s0 flags fuel pid il s)
    (ha : do_pstree_impl fuel E flag pid il s = .abort f) :
    do_pstree_impl fuel0 E flag root 0 s0 = .abort f := by
  induction hv with
  | root => exact ha
  | @child flags fuel pid il s cs s4 j sj _ hh hj hlp ih =>
    apply ih
    rw [do_pstree_impl_succ, hh, bind_done, for_children_abort_at hj hlp ha]
    rfl

theorem visit_end_not_assert (s : St) : visit_end s ≠ .abort .assert_fail := by
  unfold visit_end
  split <;> simp

/-- On a walkable table, an assertion failure of a call made during a run comes from a called
process with an empty task list. -/
theorem assert_from_empty {E : Procfs} {live : Int → Prop} {h : Int → Nat} (hw : Walkable E live h)
    {flag fuel0 : Nat} {root : Int} {s0 : St} (h0t : s0.tabs = 0)
    (hl : live root) (hf : h root < fuel0) (hd : h root + 1 < MAX_TREE_DEPTH) :
    ∀ (fuel : Nat) (flags : List Nat) (pid : Int) (il : Nat) (s : St),
      Visit E flag fuel0 root s0 flags fuel pid il s →
      do_pstree_impl fuel E flag pid il s = .abort .assert_fail →
      ∃ flags1 fuel1 pid1 il1 s1, Visit E flag fuel0 root s0 flags1 fuel1 pid1 il1 s1 ∧
        E.task pid1 = some [] := by
  intro fuel
  induction fuel with
  | zero => intro flags pid il s _ ha; simp [do_pstree_impl] at ha
  | succ fuel ih =>
    intro flags pid il s hv ha
    obtain ⟨ipl, _, ipd⟩ := visit_live hw h0t hl hf hd hv
    rcases visit_head_live hw flag il ipl (s := s) (by omega) with ⟨ht, _⟩ | ⟨_, cs, s4, hh, _⟩
    · exact ⟨flags, fuel + 1, pid, il, s, hv, ht⟩
    · rw [do_pstree_impl_succ, hh, bind_done] at ha
      cases hloop : for_children (do_pstree_impl fuel E flag) cs.length cs 0 s4 with
      | done s5 =>
        rw [hloop, bind_done] at ha
        exact absurd ha (visit_end_not_assert s5)
      | timeout => rw [hloop] at ha; simp at ha
      | abort f =>
        rw [hloop] at ha
        simp only [bind_abort, Res.abort.injEq] at ha
        subst ha
        obtain ⟨j, hj, sj, h1, h2⟩ := for_children_abort cs 0 s4 hloop
        rw [Nat.zero_add] at h2
        exact ih _ _ _ _ (Visit.child hv hh hj h1) h2

/-! ## main (pstree.c 232-255) -/

theorem flag_bits (f : Nat) (hf : f < 4) :
    f ||| NUMERIC_SORT < 4 ∧ f ||| SHOW_PID < 4 ∧
    IS_SHOW_PID (f ||| NUMERIC_SORT) = IS_SHOW_PID f ∧
    IS_NUMERIC_SORT (f ||| NUMERIC_SORT) = true ∧
    IS_SHOW_PID (f ||| SHOW_PID) = true ∧
    IS_NUMERIC_SORT (f ||| SHOW_PID) = IS_NUMERIC_SORT f := by
  interval_cases f <;> decide

theorem main_loop_flags (opts : List Int) (hnp : ∀ o ∈ opts, o = code 'n' ∨ o = code 'p') :
    ∀ f, f < 4 → ∃ g, main_loop opts f = .inr g ∧ g < 4 ∧
      (IS_SHOW_PID g = true ↔ IS_SHOW_PID f = true ∨ code 'p' ∈ opts) ∧
      (IS_NUMERIC_SORT g = true ↔ IS_NUMERIC_SORT f = true ∨ code 'n' ∈ opts) := by
  induction opts with
  | nil => intro f hf; exact ⟨f, rfl, hf, by simp, by simp⟩
  | cons o rest ih =>
    intro f hf
    obtain ⟨b1, b2, b3, b4, b5, b6⟩ := flag_bits f hf
    have hrest := fun x hx => hnp x (List.mem_cons_of_mem _ hx)
    rcases hnp o (List.mem_cons_self _ _) with ho | ho
    · subst ho
      obtain ⟨g, hg, hg4, hp, hn⟩ := ih hrest _ b1
      refine ⟨g, ?_, hg4, ?_, ?_⟩
      · rw [← hg]; rfl
      · rw [hp, b3]
        have : code 'p' ≠ code 'n' := by decide
        simp [this]
      · rw [hn, b4]; simp
    · subst ho
      obtain ⟨g, hg, hg4, hp, hn⟩ := ih hrest _ b2
      refine ⟨g, ?_, hg4, ?_, ?_⟩
      · rw [← hg]; rfl
      · rw [hp, b5]; simp
      · rw [hn, b6]
        have : code 'n' ≠ code 'p' := by decide
        simp [this]

theorem main_loop_stop (pre : List Int) (o : Int) (post : List Int)
    (hnp : ∀ x ∈ pre, x = code 'n' ∨ x = code 'p') :
    ∀ f, ∃ g, main_loop (pre ++ o :: post) f = main_loop (o :: post) g := by
  intro f
  induction pre generalizing f with
  | nil => exact ⟨f, rfl⟩
  | cons x rest ih =>
    have hrest := fun y hy => hnp y (List.mem_cons_of_mem _ hy)
    rcases hnp x (List.mem_cons_self _ _) with hx | hx
    · subst hx
      obtain ⟨g, hg⟩ := ih hrest (f ||| NUMERIC_SORT)
      exact ⟨g, by rw [← hg]; rfl⟩
    · subst hx
      obtain ⟨g, hg⟩ := ih hrest (f ||| SHOW_PID)
      exact ⟨g, by rw [← hg]; rfl⟩

/-- C10: option dispatch of `main`, for option codes `opts` (none of them the end marker -1).
If every code is 'n' or 'p', `main` calls `do_pstree` once, on START_PID = 1, with a flag whose
SHOW_PID bit is set exactly when 'p' occurs and whose NUMERIC_SORT bit is set exactly when 'n'
occurs.  Otherwise the first code `o` that is neither 'n' nor 'p' ends `main` without a call of
`do_pstree`: with EXIT_SUCCESS for 'h' (after the usage text) and 'V' (after the version
text), with EXIT_FAILURE after the usage text for any other code. -/
theorem main_dispatch (fuel : Nat) (E : Procfs) (opts : List Int) (hend : (-1 : Int) ∉ opts) :
    ((∀ o ∈ opts, o = code 'n' ∨ o = code 'p') →
      ∃ flag, main fuel E opts =
          .rendered flag START_PID (do_pstree fuel E flag START_PID St.init) ∧
        START_PID = 1 ∧
        (IS_SHOW_PID flag = true ↔ code 'p' ∈ opts) ∧
        (IS_NUMERIC_SORT flag = true ↔ code 'n' ∈ opts)) ∧
    (∀ pre o post, opts = pre ++ o :: post → (∀ x ∈ pre, x = code 'n' ∨ x = code 'p') →
      o ≠ code 'n' → o ≠ code 'p' →
      main fuel E opts =
        .returned (if o = code 'h' ∨ o = code 'V' then EXIT_SUCCESS else EXIT_FAILURE)
          (if o = code 'V' then VERSION else USAGE)) := by
  constructor
  · intro hnp
    obtain ⟨g, hg, _, hp, hn⟩ := main_loop_flags opts hnp 0 (by decide)
    refine ⟨g, ?_, rfl, ?_, ?_⟩
    · unfold main
      rw [hg]
    · rw [hp]
      have : IS_SHOW_PID 0 = false := by decide
      simp [this]
    · rw [hn]
      have : IS_NUMERIC_SORT 0 = false := by decide
      simp [this]
  · intro pre o post hopts hpre hon hop
    have ho1 : o ≠ -1 := by
      intro h
      apply hend
      rw [hopts, h]
      simp
    obtain ⟨g, hg⟩ := main_loop_stop pre o post hpre 0
    unfold main
    rw [hopts, hg]
    unfold main_loop
    rw [if_neg ho1]
    by_cases hh : o = code 'h'
    · rw [if_pos hh]
      have hne : code 'h' ≠ code 'V' := by decide
      simp [hh, hne]
    · rw [if_neg hh]
      by_cases hV : o = code 'V'
      · rw [if_pos hV]
        simp [hV]
      · rw [if_neg hV, if_neg hon, if_neg hop]
        simp [hh, hV]

/-! ## The end-to-end example and the failing inputs -/

/-- C1: on the process table of the end-to-end example, with pids hidden and no sort, the run
prints four lines; the fourth, the thread line of pid 3, has the tee and not the corner. -/
theorem example_render_lines :
    (do_pstree 3 exampleFs 0 1 St.init).lines =
      some ["systemd", "├──init-helper", "└──worker", "   ├──\x7bworker\x7d"] := by
  decide

/-- C2: for a process whose threads 10 and 11 report the children [20] and [21], the child
list the call recurses into is [21]: the list of the second thread is stored over the list of
the first, and the child 20 is not rendered. -/
theorem second_thread_children_replace_first :
    twoForkersFs.task 10 = some [10, 11] ∧
    twoForkersFs.children 10 10 = some [20] ∧
    twoForkersFs.children 10 11 = some [21] ∧
    collect_children twoForkersFs 10 [10, 11] [] = .done [21] ∧
    (do_pstree 3 twoForkersFs 0 10 St.init).lines =
      some ["srv", "├──\x7bsrv\x7d", "└──b"] := by
  refine ⟨rfl, rfl, rfl, rfl, ?_⟩
  decide

/-- C9, as stated, fails: name files and children files are readable, no thread id is zero and
no process reports an empty task list, yet the run ends in `exit(EXIT_FAILURE)`, because the
task directory cannot be opened; it neither completes nor fails an assertion.  That is so
with no limit on open streams and with every limit that lets the program open one. -/
theorem unreadable_task_dir_exits :
    (∀ pid, GET_PROC_NAME noTaskDirFs pid = .done "init") ∧
    (∀ pid tid, noTaskDirFs.children pid tid = some []) ∧
    (∀ pid ts, noTaskDirFs.task pid = some ts → ∀ t ∈ ts, t ≠ 0) ∧
    (∀ pid, noTaskDirFs.task pid ≠ some []) ∧
    (∀ fuel flag, do_pstree (fuel + 1) noTaskDirFs flag 1 St.init = .abort .exit_failure) ∧
    (∀ nofile fuel flag,
      Fd.do_pstree (nofile + 1) (fuel + 1) noTaskDirFs flag 1 FdSt.init =
        .abort .exit_failure) := by
  refine ⟨fun _ => rfl, fun _ _ => rfl, ?_, ?_, fun _ _ => rfl, fun _ _ _ => rfl⟩
  · intro pid ts h
    simp [noTaskDirFs] at h
  · intro pid h
    simp [noTaskDirFs] at h

/-! ## Instances of the theorems -/

theorem lines_some {r : Res St} {o : List String} (h : r.lines = some o) :
    ∃ s, r = .done s ∧ s.out = o := by
  cases r with
  | done s => exact ⟨s, rfl, by simpa [Res.lines] using h⟩
  | abort f => simp [Res.lines] at h
  | timeout => simp [Res.lines] at h

theorem example_visit_3 : Visit exampleFs 0 3 1 St.init [0] 2 3 1 exampleAt3 :=
  @Visit.child exampleFs 0 3 1 St.init [] 2 1 0 St.init [2, 3]
    (INCR_INDENT ((St.init.mark 0).emit "systemd")) 1 exampleAt3 Visit.root rfl (by decide) rfl

theorem example_walkable : Walkable exampleFs exampleLive exampleHeight := by
  intro pid hl
  rcases hl with rfl | rfl | rfl
  · refine ⟨⟨_, rfl⟩, [1], rfl, by decide, by decide, ?_, ?_⟩
    · intro t ht
      simp at ht
      subst ht
      exact ⟨_, rfl⟩
    · intro t ht
      simp at ht
      subst ht
      refine ⟨[2, 3], rfl, by decide, ?_⟩
      intro c hc
      simp at hc
      rcases hc with rfl | rfl
      · exact ⟨Or.inr (Or.inl rfl), by decide⟩
      · exact ⟨Or.inr (Or.inr rfl), by decide⟩
  · refine ⟨⟨_, rfl⟩, [2], rfl, by decide, by decide, ?_, ?_⟩
    · intro t ht
      simp at ht
      subst ht
      exact ⟨_, rfl⟩
    · intro t ht
      simp at ht
      subst ht
      exact ⟨[], rfl, by decide, by simp⟩
  · refine ⟨⟨_, rfl⟩, [3, 30], rfl, by decide, by decide, ?_, ?_⟩
    · intro t ht
      simp at ht
      rcases ht with rfl | rfl
      · exact ⟨_, rfl⟩
      · exact ⟨_, rfl⟩
    · intro t ht
      simp at ht
      rcases ht with rfl | rfl
      · exact ⟨[], rfl, by decide, by simp⟩
      · exact ⟨[], rfl, by decide, by simp⟩

/-- Instance of C3: pid 3 of the example, called as the last child of the root, gets the
corner glyph and no column. -/
theorem connector_of_visited_witness :
    Visit exampleFs 0 3 1 St.init [0] 2 3 1 exampleAt3 ∧
    connector [0] 1 = "└──" ∧
    exampleAt3.tabs = 1 ∧
    print_proc_name exampleFs 3 exampleAt3.tabs 0 (exampleAt3.mark 1) =
      .done ((exampleAt3.mark 1).emit (connector [0] 1 ++ proc_text 0 "worker" 3)) :=
  have h := connector_of_visited exampleFs 0 3 1 St.init rfl (fun _ => rfl) [0] 2 3 1 exampleAt3
    "worker" example_visit_3 rfl (by decide)
  ⟨example_visit_3, by decide, h.1, h.2.1⟩

/-- Instance of C4: pid 3 of the example has the threads 3 and 30; its call prints its main
line and one thread line. -/
theorem merged_thread_line_witness :
    ∃ cs s4, visit_head exampleFs 0 3 1 exampleAt3 = .done (cs, s4) ∧
      s4.out = ["systemd", "├──init-helper", "└──worker", "   ├──\x7bworker\x7d"] := by
  obtain ⟨cs, s4, h1, h2, _⟩ := merged_thread_line 1 exampleFs 0 3 1 exampleAt3 "worker" "worker"
    [3, 30] (by decide) rfl rfl (by decide) (by decide) (by decide)
    (fun t ht => by
      simp at ht
      rcases ht with rfl | rfl
      · exact ⟨[], rfl, by decide⟩
      · exact ⟨[], rfl, by decide⟩) rfl rfl
  exact ⟨cs, s4, h1, by rw [h2]; decide⟩

/-- Instance of C5: with pids shown, the call for pid 3 prints its main line and one line for
thread 30. -/
theorem individual_thread_lines_witness :
    ∃ cs s4, visit_head exampleFs 1 3 0 St.init = .done (cs, s4) ∧
      s4.out = ["worker(3)", "├──\x7bworker\x7d(30)"] := by
  obtain ⟨cs, s4, h1, h2, _⟩ := individual_thread_lines 1 exampleFs 1 3 0 St.init "worker"
    (fun _ => "worker") [3, 30] (by decide) rfl rfl (by decide) (by decide) (by decide)
    (fun t ht => by
      simp at ht
      rcases ht with rfl | rfl
      · exact ⟨[], rfl, by decide⟩
      · exact ⟨[], rfl, by decide⟩)
    (fun t ht => by
      simp at ht
      subst ht
      rfl) rfl
  exact ⟨cs, s4, h1, by rw [h2]; decide⟩

/-- Instance of C6: the children 5, 3, 4 are visited in the order 3, 4, 5. -/
theorem numeric_sort_ascending_witness :
    visit_head unsortedFs 2 1 0 St.init =
      .done ([3, 4, 5], INCR_INDENT ((St.init.mark 0).emit "init")) ∧
    ∃ tasks children,
      get_proc_tasks unsortedFs 1 = .done tasks ∧
      collect_children unsortedFs 1 (upto_zero tasks) [] = .done children ∧
      [3, 4, 5] = qsort (upto_zero children) compare_pid ∧
      List.Perm [3, 4, 5] (upto_zero children) :=
  have h := numeric_sort_ascending 1 unsortedFs 2 1 0 St.init [3, 4, 5]
    (INCR_INDENT ((St.init.mark 0).emit "init")) rfl rfl
  ⟨rfl, h.elim fun tasks h => h.elim fun children h =>
    ⟨tasks, children, h.1, h.2.1, h.2.2.1, h.2.2.2.1⟩⟩

/-- Instance of C7: pid 2 of the example, as the first child of the root. -/
theorem single_thread_leaf_line_witness :
    ∃ s1, do_pstree_impl 1 exampleFs 0 2 0 (INCR_INDENT ((St.init.mark 0).emit "systemd")) = .done s1 ∧
      s1.out = ["systemd", "├──init-helper"] := by
  obtain ⟨s1, h1, h2, _⟩ := single_thread_leaf_line 0 exampleFs 0 2 2 0
    (INCR_INDENT ((St.init.mark 0).emit "systemd")) "init-helper" (by decide) rfl rfl (by decide)
    rfl rfl
  exact ⟨s1, h1, by rw [h2]; decide⟩

/-- Instance of C10: the options p, n, p lead to the call of `do_pstree` with both bits set;
the options n, h, p end `main` with EXIT_SUCCESS at h. -/
theorem main_dispatch_witness :
    (∃ flag, main 3 exampleFs [code 'p', code 'n', code 'p'] =
        .rendered flag START_PID (do_pstree 3 exampleFs flag START_PID St.init) ∧
      START_PID = 1 ∧
      (IS_SHOW_PID flag = true ↔ code 'p' ∈ [code 'p', code 'n', code 'p']) ∧
      (IS_NUMERIC_SORT flag = true ↔ code 'n' ∈ [code 'p', code 'n', code 'p'])) ∧
    main 3 exampleFs [code 'n', code 'h', code 'p'] = .returned EXIT_SUCCESS USAGE :=
  ⟨(main_dispatch 3 exampleFs [code 'p', code 'n', code 'p'] (by decide)).1 (by decide),
    (main_dispatch 3 exampleFs [code 'n', code 'h', code 'p'] (by decide)).2
      [code 'n'] (code 'h') [code 'p'] rfl (by decide) (by decide) (by decide)⟩

/-! ## compare_pid -/

/-- C18: `compare_pid` has the two values 1 (for a >= b) and 0 (for a < b): it is never
negative, it is 1 and not 0 on equal arguments, and the results for (a, b) and (b, a) are never
of opposite sign. -/
theorem compare_pid_two_valued (a b : Int) :
    compare_pid a b = (if a ≥ b then 1 else 0) ∧
    (compare_pid a b = 1 ∨ compare_pid a b = 0) ∧
    0 ≤ compare_pid a b ∧
    compare_pid a a = 1 ∧
    ¬ (compare_pid a b < 0 ∧ 0 < compare_pid b a) ∧
    ¬ (0 < compare_pid a b ∧ compare_pid b a < 0) := by
  unfold compare_pid
  refine ⟨rfl, ?_, ?_, ?_, ?_, ?_⟩
  · split <;> simp
  · split <;> simp
  · simp
  · split <;> split <;> simp
  · split <;> split <;> simp

/-! ## The example with pids shown -/

/-- C12: on the process table of the end-to-end example, with pids shown and no sort, the line
of thread 30 of pid 3 is printed with the tee and not with the corner. -/
theorem show_pids_example_lines :
    (do_pstree 3 exampleFs 1 1 St.init).lines =
      some ["systemd(1)", "├──init-helper(2)", "└──worker(3)", "   ├──\x7bworker\x7d(30)"] ∧
    IS_SHOW_PID 1 = true ∧ IS_NUMERIC_SORT 1 = false := by
  decide

/-! ## GET_PROC_NAME -/

theorem fgets_aux_line (body rest : List Char) (hnl : Char.ofNat 10 ∉ body) :
    ∀ n, body.length < n →
      fgets_aux n (body ++ Char.ofNat 10 :: rest) = body ++ [Char.ofNat 10] := by
  induction body with
  | nil =>
    intro n hn
    cases n with
    | zero => simp at hn
    | succ n => simp [fgets_aux]
  | cons c cs ih =>
    intro n hn
    cases n with
    | zero => simp at hn
    | succ n =>
      have hc : c ≠ Char.ofNat 10 := fun h => hnl (by simp [h])
      have hcs : Char.ofNat 10 ∉ cs := fun h => hnl (List.mem_cons_of_mem _ h)
      have h := ih hcs n (by simpa using hn)
      show fgets_aux (n + 1) (c :: (cs ++ Char.ofNat 10 :: rest)) = c :: (cs ++ [Char.ofNat 10])
      unfold fgets_aux
      rw [if_neg hc, h]

theorem strlen_line (body : List Char) (hnul : Char.ofNat 0 ∉ body) :
    strlen (body ++ [Char.ofNat 10]) = body.length + 1 := by
  unfold strlen
  have h : (body ++ [Char.ofNat 10]).takeWhile (fun c => c != Char.ofNat 0)
      = body ++ [Char.ofNat 10] := by
    rw [List.takeWhile_eq_self_iff]
    intro c hc
    rcases List.mem_append.mp hc with h | h
    · have : c ≠ Char.ofNat 0 := fun e => hnul (e ▸ h)
      simpa using this
    · simp at h
      subst h
      decide
  rw [h]
  simp

/-- C11 (amended): when the first line of the name file ends in a newline, has at most 255
characters with the newline and holds no NUL, `fgets` reads exactly that line and the name
used for display is the line without its trailing newline. -/
theorem name_strips_trailing_newline (E : Procfs) (pid : Int) (file : String)
    (body rest : List Char)
    (hc : E.comm pid = some file) (hf : file.data = body ++ Char.ofNat 10 :: rest)
    (hnl : Char.ofNat 10 ∉ body) (hnul : Char.ofNat 0 ∉ body) (hlen : body.length < 255) :
    fgets MAX_NAME_LEN file.data = body ++ [Char.ofNat 10] ∧
    GET_PROC_NAME E pid = .done (String.mk body) := by
  have hfg : fgets MAX_NAME_LEN file.data = body ++ [Char.ofNat 10] := by
    unfold fgets
    rw [hf]
    exact fgets_aux_line body rest hnl _ (by simpa [MAX_NAME_LEN] using hlen)
  refine ⟨hfg, ?_⟩
  unfold GET_PROC_NAME
  rw [hc]
  simp only [hfg, strlen_line body hnul]
  rw [if_neg (by omega)]
  simp

/-- C11, as stated, fails: a name file that holds "abc" with no newline is read as the line
"abc", and the name used for display is "ab", not the unchanged line. -/
theorem name_without_newline_loses_last_char :
    fgets MAX_NAME_LEN ("abc").data = ("abc").data ∧
    GET_PROC_NAME noNewlineFs 1 = .done "ab" ∧
    (do_pstree 1 noNewlineFs 0 1 St.init).lines = some ["ab"] := by
  refine ⟨by decide, rfl, by decide⟩

/-- Instance of C11 (amended): the name file of pid 3 of the example holds "worker" and a
newline. -/
theorem name_strips_trailing_newline_witness :
    fgets MAX_NAME_LEN ("worker\n").data = ("worker\n").data ∧
    GET_PROC_NAME exampleFs 3 = .done "worker" :=
  name_strips_trailing_newline exampleFs 3 "worker\n" ("worker").data [] rfl rfl
    (by decide) (by decide) (by decide)

/-! ## The cleanup of last_child -/

/-- Entry states of the calls inside a call entered at depth `d`: the call itself, or a state
deeper than `d` in which `last_child[d]` holds the mark of line 197 and the entries below `d`
are as at entry. -/
theorem inside_keeps_mark {E : Procfs} {flag fuel0 : Nat} {pid0 : Int} {il0 : Nat} {s0 : St}
    {fuel : Nat} {pid : Int} {il : Nat} {s : St}
    (hi : Inside E flag fuel0 pid0 il0 s0 fuel pid il s) :
    (s = s0 ∧ il = il0) ∨
    (s0.tabs < s.tabs ∧ (∀ k, k < s0.tabs → s.last_child k = s0.last_child k) ∧
      s.last_child s0.tabs = s0.last_child s0.tabs ||| il0) := by
  induction hi with
  | top => exact Or.inl ⟨rfl, rfl⟩
  | @child fuel pid il s cs s4 j sj _ hh hj hl ih =>
    right
    obtain ⟨_, t4, l4, _⟩ := visit_head_globals hh
    obtain ⟨t5, l5, _⟩ := for_children_frame (do_pstree_impl_frame fuel E flag) hl
    have hsame : ∀ k, k < s4.tabs → sj.last_child k = s4.last_child k := by
      intro k hk
      rcases l5 k with h | ⟨h, _⟩
      · exact h
      · omega
    rcases ih with ⟨hs, hil⟩ | ⟨ht, hlow, hd⟩
    · subst hs hil
      refine ⟨by omega, fun k hk => ?_, ?_⟩
      · rw [hsame k (by omega), l4]
        simp [write, Nat.ne_of_lt hk]
      · rw [hsame _ (by omega), l4]
        simp [write]
    · refine ⟨by omega, fun k hk => ?_, ?_⟩
      · rw [hsame k (by omega), l4]
        have : k ≠ s.tabs := by omega
        simp only [write, this, if_false]
        exact hlow k hk
      · rw [hsame _ (by omega), l4]
        have : s0.tabs ≠ s.tabs := by omega
        simp only [write, this, if_false]
        exact hd

/-- C13: when `do_pstree_impl` is entered at depth d = `tabs` with `last_child[k] = 0` for all
k >= d, then at its return `tabs` is d again, `last_child[k] = 0` for all k >= d and the entries
below d are unchanged; and `last_child[d]` holds `is_last_child` after the head of the call, at
the entry of every call made inside it and at the return of every such call. -/
theorem last_child_cleanup (fuel : Nat) (E : Procfs) (flag : Nat) (pid : Int) (il : Nat) (s : St)
    (hz : ∀ k, s.tabs ≤ k → s.last_child k = 0) :
    (∀ s1, do_pstree_impl fuel E flag pid il s = .done s1 →
      s1.tabs = s.tabs ∧ (∀ k, s.tabs ≤ k → s1.last_child k = 0) ∧
        ∀ k, k < s.tabs → s1.last_child k = s.last_child k) ∧
    (∀ cs s4, visit_head E flag pid il s = .done (cs, s4) → s4.last_child s.tabs = il) ∧
    (∀ f p i s2, Inside E flag fuel pid il s f p i s2 →
      (s2 = s ∧ i = il) ∨
      (s.tabs < s2.tabs ∧ s2.last_child s.tabs = il ∧
        ∀ s3, do_pstree_impl f E flag p i s2 = .done s3 → s3.last_child s.tabs = il)) := by
  have hmark : s.last_child s.tabs ||| il = il := by
    rw [hz s.tabs (Nat.le_refl _)]; simp
  refine ⟨fun s1 h1 => ?_, fun cs s4 hh => ?_, fun f p i s2 hi => ?_⟩
  · obtain ⟨t1, l1, _⟩ := do_pstree_impl_frame fuel E flag pid il s s1 h1
    refine ⟨t1, fun k hk => ?_, fun k hk => ?_⟩
    · rcases l1 k with h | ⟨_, h⟩
      · rw [h]; exact hz k hk
      · exact h
    · rcases l1 k with h | ⟨h, _⟩
      · exact h
      · omega
  · obtain ⟨_, _, l4, _⟩ := visit_head_globals hh
    rw [l4, hmark]
    simp [write]
  · rcases inside_keeps_mark hi with h | ⟨ht, _, hd⟩
    · exact Or.inl h
    · right
      rw [hmark] at hd
      refine ⟨ht, hd, fun s3 h3 => ?_⟩
      obtain ⟨_, l3, _⟩ := do_pstree_impl_frame f E flag p i s2 s3 h3
      rcases l3 s.tabs with h | ⟨h, _⟩
      · rw [h]; exact hd
      · omega

/-- Instance of C13: the call for pid 1 of the example from the start state, and the call for
pid 3 made inside it. -/
theorem last_child_cleanup_witness :
    (∀ s1, do_pstree_impl 3 exampleFs 0 1 0 St.init = .done s1 →
      s1.tabs = 0 ∧ (∀ k, 0 ≤ k → s1.last_child k = 0)) ∧
    Inside exampleFs 0 3 1 0 St.init 2 3 1 exampleAt3 ∧
    exampleAt3.last_child 0 = 0 :=
  have h := last_child_cleanup 3 exampleFs 0 1 0 St.init (fun _ _ => rfl)
  ⟨fun s1 h1 => ⟨(h.1 s1 h1).1, (h.1 s1 h1).2.1⟩,
    @Inside.child exampleFs 0 3 1 0 St.init 2 1 0 St.init [2, 3]
      (INCR_INDENT ((St.init.mark 0).emit "systemd")) 1 exampleAt3 Inside.top rfl (by decide) rfl,
    rfl⟩

/-! ## The child list of a process with several threads -/

theorem overlay_len_cons (L : List Int) (Ls : List (List Int)) :
    overlay_len (L :: Ls) = max L.length (overlay_len Ls) := rfl

theorem overlay_len_lt {Ls : List (List Int)} {n : Nat} (hn : 0 < n)
    (h : ∀ L ∈ Ls, L.length < n) : overlay_len Ls < n := by
  induction Ls with
  | nil => exact hn
  | cons L Ls ih =>
    rw [overlay_len_cons]
    have h1 := h L (List.mem_cons_self _ _)
    have h2 := ih (fun L hL => h L (List.mem_cons_of_mem _ hL))
    omega

theorem exists_longer {Ls : List (List Int)} {j : Nat} (h : j < overlay_len Ls) :
    ∃ L ∈ Ls, j < L.length := by
  induction Ls with
  | nil => simp [overlay_len] at h
  | cons L Ls ih =>
    rw [overlay_len_cons] at h
    by_cases hj : j < L.length
    · exact ⟨L, List.mem_cons_self _ _, hj⟩
    · obtain ⟨L1, hL1, h1⟩ := ih (by omega)
      exact ⟨L1, List.mem_cons_of_mem _ hL1, h1⟩

/-- The array after the calls of `get_children` for the child lists `Ls`, started on the array
`a`: its entries come from the last list that has them, and from `a` beyond all lists. -/
theorem collect_children_entries (E : Procfs) (pid : Int) {ts : List Int} {Ls : List (List Int)}
    (hL : List.Forall₂ (fun t L => E.children pid t = some L ∧ L.length < MAX_TASKS) ts Ls) :
    ∀ a : List Int, ∃ b, collect_children E pid ts a = .done b ∧
      b.length = max a.length (overlay_len Ls) ∧
      ∀ j, b.getD j 0 =
        match Ls.reverse.find? (fun L => decide (j < L.length)) with
        | some L => L.getD j 0
        | none => a.getD j 0 := by
  induction hL with
  | nil =>
    intro a
    exact ⟨a, rfl, by simp [overlay_len], fun j => rfl⟩
  | @cons t L ts Ls h1 _ ih =>
    intro a
    obtain ⟨b, hb, hlen, hent⟩ := ih (L ++ a.drop L.length)
    refine ⟨b, ?_, ?_, fun j => ?_⟩
    · unfold collect_children get_children
      rw [h1.1]
      simp only
      rw [if_neg (by have := h1.2; omega), bind_done]
      exact hb
    · rw [hlen, overlay_len_cons]
      simp only [List.length_append, List.length_drop]
      omega
    · rw [hent j, List.reverse_cons, List.find?_append]
      cases hf : Ls.reverse.find? (fun L => decide (j < L.length)) with
      | some L1 => rfl
      | none =>
        simp only [Option.none_or, List.find?_cons, List.find?_nil]
        by_cases hj : j < L.length
        · simp only [hj, decide_True]
          rw [List.getD_append _ _ _ _ hj]
        · simp only [hj, decide_False]
          rw [List.getD_append_right _ _ _ _ (by omega)]
          simp only [List.getD_eq_getElem?_getD, List.getElem?_drop]
          congr 2
          omega

theorem collect_children_overlay (E : Procfs) (pid : Int) {ts : List Int} {Ls : List (List Int)}
    (hL : List.Forall₂ (fun t L => E.children pid t = some L ∧ L.length < MAX_TASKS) ts Ls) :
    collect_children E pid ts [] = .done (overlay Ls) := by
  obtain ⟨b, hb, hlen, hent⟩ := collect_children_entries E pid hL []
  rw [hb]
  congr 1
  apply List.ext_getElem
  · simp [overlay, hlen]
  · intro j h1 h2
    have := hent j
    rw [List.getD_eq_getElem _ _ h1] at this
    rw [this]
    simp only [overlay, List.getElem_map, List.getElem_range, overlay_entry]
    cases Ls.reverse.find? (fun L => decide (j < L.length)) <;> simp

theorem overlay_entry_mem {Ls : List (List Int)} {j : Nat} (h : j < overlay_len Ls) :
    ∃ L ∈ Ls, j < L.length ∧ overlay_entry Ls j = L.getD j 0 := by
  obtain ⟨L0, hL0, hj0⟩ := exists_longer h
  unfold overlay_entry
  cases hf : Ls.reverse.find? (fun L => decide (j < L.length)) with
  | none =>
    rw [List.find?_eq_none] at hf
    exact absurd (by simpa using hj0) (hf L0 (List.mem_reverse.mpr hL0))
  | some L1 =>
    refine ⟨L1, List.mem_reverse.mp (List.mem_of_find?_eq_some hf), ?_, rfl⟩
    simpa using List.find?_some hf

theorem overlay_nonzero {Ls : List (List Int)} (hnz : ∀ L ∈ Ls, ∀ c ∈ L, c ≠ 0) :
    ∀ c ∈ overlay Ls, c ≠ 0 := by
  intro c hc
  unfold overlay at hc
  obtain ⟨j, hj, hcj⟩ := List.mem_map.mp hc
  obtain ⟨L, hL, hjl, he⟩ := overlay_entry_mem (List.mem_range.mp hj)
  rw [← hcj, he, List.getD_eq_getElem _ _ hjl]
  exact hnz L hL _ (List.getElem_mem _)

theorem find_last_longer (j : Nat) :
    ∀ (Ls : List (List Int)) (i : Nat), i < Ls.length → j < (Ls.getD i []).length →
      (∀ k, i < k → k < Ls.length → (Ls.getD k []).length ≤ j) →
      Ls.reverse.find? (fun L => decide (j < L.length)) = some (Ls.getD i []) := by
  intro Ls
  induction Ls with
  | nil => intro i hi; simp at hi
  | cons L Ls ih =>
    intro i hi hj hlast
    rw [List.reverse_cons, List.find?_append]
    cases i with
    | zero =>
      have hnone : Ls.reverse.find? (fun L => decide (j < L.length)) = none := by
        rw [List.find?_eq_none]
        intro x hx
        obtain ⟨k, hk, hxk⟩ := List.getElem_of_mem (List.mem_reverse.mp hx)
        have := hlast (k + 1) (by omega) (by simpa using hk)
        rw [List.getD_cons_succ, List.getD_eq_getElem _ _ hk, hxk] at this
        simpa using this
      rw [hnone]
      simp only [List.getD_cons_zero] at hj
      simp [hj]
    | succ i =>
      simp only [List.length_cons] at hi
      rw [List.getD_cons_succ] at hj ⊢
      rw [ih i (by omega) hj (fun k hk1 hk2 => by
        have := hlast (k + 1) (by omega) (by simpa using hk2)
        rwa [List.getD_cons_succ] at this)]
      rfl

/-- C14: for a process whose threads report the child lists `Ls` (non-zero pids, fewer than
MAX_TASKS entries each), the array filled by the calls of `get_children` is the overlay of the
lists: as long as the longest list, entry j taken from the last list longer than j.  With
NUMERIC_SORT clear this is the child list the call recurses into, and for one thread it is that
thread's list. -/
theorem effective_children_are_overlay (E : Procfs) (pid : Int) (ts : List Int)
    (Ls : List (List Int))
    (hL : List.Forall₂ (fun t L => E.children pid t = some L ∧ L.length < MAX_TASKS) ts Ls)
    (hnz : ∀ L ∈ Ls, ∀ c ∈ L, c ≠ 0) :
    collect_children E pid ts [] = .done (overlay Ls) ∧
    (overlay Ls).length = overlay_len Ls ∧
    (∀ i j, i < Ls.length → j < (Ls.getD i []).length →
      (∀ k, i < k → k < Ls.length → (Ls.getD k []).length ≤ j) →
      (overlay Ls).getD j 0 = (Ls.getD i []).getD j 0) ∧
    (∀ flag il s cs s4, IS_NUMERIC_SORT flag = false → E.task pid = some ts →
      (∀ t ∈ ts, t ≠ 0) → visit_head E flag pid il s = .done (cs, s4) → cs = overlay Ls) ∧
    (∀ L0, Ls = [L0] → overlay Ls = L0) := by
  have hov := collect_children_overlay E pid hL
  have hlen : (overlay Ls).length = overlay_len Ls := by simp [overlay]
  have hent : ∀ i j, i < Ls.length → j < (Ls.getD i []).length →
      (∀ k, i < k → k < Ls.length → (Ls.getD k []).length ≤ j) →
      (overlay Ls).getD j 0 = (Ls.getD i []).getD j 0 := by
    intro i j hi hj hlast
    have hjl : j < overlay_len Ls := by
      by_contra hcon
      obtain ⟨b, hb, hbl, _⟩ := collect_children_entries E pid hL []
      have hmem : Ls.getD i [] ∈ Ls := by
        rw [List.getD_eq_getElem _ _ hi]; exact List.getElem_mem _
      have : ∀ (Ms : List (List Int)) (M : List Int), M ∈ Ms → M.length ≤ overlay_len Ms := by
        intro Ms
        induction Ms with
        | nil => intro M hM; simp at hM
        | cons M0 Ms ihm =>
          intro M hM
          rw [overlay_len_cons]
          rcases List.mem_cons.mp hM with h | h
          · subst h; omega
          · have := ihm M h; omega
      have := this Ls _ hmem
      omega
    have hj2 : j < (overlay Ls).length := by rw [hlen]; exact hjl
    rw [List.getD_eq_getElem _ _ hj2]
    simp only [overlay, List.getElem_map, List.getElem_range, overlay_entry]
    rw [find_last_longer j Ls i hi hj hlast]
  refine ⟨hov, hlen, hent, ?_, ?_⟩
  · intro flag il s cs s4 hs ht h0 hv
    obtain ⟨_, s1, tasks, tasks_len, children, children_len, s3, _, h2, h3, _, h4, h5, _, _, hcs⟩ :=
      visit_head_done hv
    have htasks : tasks = ts := by
      unfold get_proc_tasks at h2
      rw [ht] at h2
      simp only at h2
      split at h2
      · simp at h2
      · injection h2 with h2
        exact h2.symm
    subst htasks
    rw [get_arr_len_done h3] at h4
    have hu : upto_zero tasks = tasks := takeWhile_nonzero h0
    rw [hu, hov] at h4
    injection h4 with h4
    subst h4
    rw [get_arr_len_done h5] at hcs
    have hu2 : upto_zero (overlay Ls) = overlay Ls := takeWhile_nonzero (overlay_nonzero hnz)
    rw [hu2] at hcs
    unfold sort_step at hcs
    rw [if_neg (by simp [hs])] at hcs
    exact hcs
  · intro L0 h0
    subst h0
    apply List.ext_getElem
    · rw [hlen]; simp [overlay_len]
    · intro j h1 h2
      have := hent 0 j (by simp) (by simpa using h2) (fun k hk1 hk2 => by simp at hk2; omega)
      rw [List.getD_eq_getElem _ _ h1] at this
      rw [this]
      simp [List.getElem?_eq_getElem h2]

/-- Instance of C14: child lists [20, 21, 22], [23], [24, 25] give the child list
[24, 25, 22]. -/
theorem effective_children_are_overlay_witness :
    overlay [[20, 21, 22], [23], [24, 25]] = [24, 25, 22] ∧
    collect_children threeListsFs 10 [10, 11, 12] [] = .done (overlay [[20, 21, 22], [23], [24, 25]]) ∧
    (overlay [[20, 21, 22], [23], [24, 25]]).length = overlay_len [[20, 21, 22], [23], [24, 25]] :=
  have h := effective_children_are_overlay threeListsFs 10 [10, 11, 12]
    [[20, 21, 22], [23], [24, 25]]
    (List.Forall₂.cons ⟨rfl, by decide⟩ (List.Forall₂.cons ⟨rfl, by decide⟩
      (List.Forall₂.cons ⟨rfl, by decide⟩ List.Forall₂.nil)))
    (by decide)
  ⟨by decide, h.1, h.2.1⟩

/-! ## The connector of thread lines -/

theorem PRINT_INDENT_thread_on_path {flags : List Nat} {s : St} (il : Nat) (hp : OnPath flags s) :
    PRINT_INDENT (s.mark il).last_child (s.tabs + 1) = thread_connector flags il := by
  obtain ⟨pt, pl, pz⟩ := hp
  have hm : ∀ k, (s.mark il).last_child k = if k = s.tabs then s.last_child s.tabs ||| il
      else s.last_child k := fun k => rfl
  have hg : glyph ((s.mark il).last_child (s.tabs + 1)) = glyph 0 := by
    rw [hm, if_neg (by omega), pz _ (by omega)]
  show String.join (indent_pieces _ (s.tabs + 1)) = _
  rw [indent_pieces_succ, hg]
  cases flags with
  | nil =>
    have : s.tabs = 0 := pt
    rw [this]
    rfl
  | cons f anc =>
    show _ = String.join ((anc ++ [il]).map column ++ [glyph 0])
    congr 2
    apply List.ext_getElem
    · simp [pt]
    · intro i h1 h2
      simp only [List.length_map, List.length_range] at h1
      simp only [List.getElem_map, List.getElem_range]
      rw [pt] at h1
      simp only [List.length_cons] at h1
      rw [hm]
      by_cases hi : i = anc.length
      · rw [if_pos (by rw [pt]; simp [hi]), pz s.tabs (by omega)]
        simp [hi]
      · rw [if_neg (by rw [pt]; simp; omega), pl (i + 1) (by simp; omega)]
        have hia : i < anc.length := by omega
        simp [List.getElem_append_left, hia, List.getElem?_eq_getElem hia]

theorem print_forked_proc_shape {E : Procfs} {t : Int} {tabs n sp : Nat} {s s1 : St}
    (h : print_forked_proc E t tabs n sp s = .done s1) :
    ∃ name, s1 = s.emit (PRINT_INDENT s.last_child tabs ++ forked_text name t n sp) := by
  unfold print_forked_proc at h
  obtain ⟨name, _, h⟩ := bind_eq_done h
  split at h
  · simp at h
  · injection h with h
    exact ⟨name, h.symm⟩

theorem merged_step_shape {E : Procfs} {flag : Nat} {tasks : List Int} {len : Nat} {s s1 : St}
    (h : merged_step E flag tasks len s = .done s1) :
    s1.tabs = s.tabs ∧ s1.last_child = s.last_child ∧ ∃ lines, s1.out = s.out ++ lines ∧
      ∀ l ∈ lines, ∃ name t n sp, l = PRINT_INDENT s.last_child s.tabs ++ forked_text name t n sp := by
  unfold merged_step at h
  split at h
  · obtain ⟨name, h1⟩ := print_forked_proc_shape h
    subst h1
    refine ⟨rfl, rfl, [_], rfl, fun l hl => ?_⟩
    simp only [List.mem_singleton] at hl
    exact ⟨name, _, _, _, hl⟩
  · injection h with h
    subst h
    exact ⟨rfl, rfl, [], by simp, fun l hl => by simp at hl⟩

theorem forked_loop_shape {E : Procfs} {flag len : Nat} {ts : List Int} {s s1 : St}
    (h : forked_loop E flag len ts s = .done s1) :
    s1.tabs = s.tabs ∧ s1.last_child = s.last_child ∧ ∃ lines, s1.out = s.out ++ lines ∧
      ∀ l ∈ lines, ∃ name t n sp, l = PRINT_INDENT s.last_child s.tabs ++ forked_text name t n sp := by
  induction ts generalizing s with
  | nil =>
    unfold forked_loop at h
    injection h with h
    subst h
    exact ⟨rfl, rfl, [], by simp, fun l hl => by simp at hl⟩
  | cons t rest ih =>
    unfold forked_loop at h
    obtain ⟨s2, h2, h⟩ := bind_eq_done h
    obtain ⟨t3, l3, o3, e3, p3⟩ := ih h
    split at h2
    · obtain ⟨name, h1⟩ := print_forked_proc_shape h2
      subst h1
      refine ⟨t3, l3, (PRINT_INDENT s.last_child s.tabs ++ forked_text name t 1 1) :: o3,
        by rw [e3]; simp [St.emit], fun l hl => ?_⟩
      rcases List.mem_cons.mp hl with hl | hl
      · exact ⟨name, _, _, _, hl⟩
      · exact p3 l hl
    · injection h2 with h2
      subst h2
      exact ⟨t3, l3, o3, e3, p3⟩

/-- C15 (amended): in a run of `do_pstree` from zeroed globals, every line that the head of a
call prints after the main line (the merged thread line, or the individual thread lines) starts
with the thread connector of the process: one column for each ancestor below the root, one
column for the process itself unless it is the root, and then always the tee, because
`last_child[tabs + 1]` is 0 at that moment. -/
theorem thread_lines_have_tee (E : Procfs) (flag fuel0 : Nat) (root : Int) (s0 : St)
    (h0t : s0.tabs = 0) (h0l : ∀ k, s0.last_child k = 0)
    (flags : List Nat) (fuel : Nat) (pid : Int) (il : Nat) (s : St)
    (hv : Visit E flag fuel0 root s0 flags fuel pid il s) :
    (s.mark il).last_child (s.tabs + 1) = 0 ∧
    PRINT_INDENT (s.mark il).last_child (s.tabs + 1) = thread_connector flags il ∧
    (flags = [] → thread_connector flags il = "├──") ∧
    (∀ f anc, flags = f :: anc →
      thread_connector flags il = String.join (anc.map column ++ [column il] ++ ["├──"])) ∧
    (∀ cs s4 name, GET_PROC_NAME E pid = .done name →
      visit_head E flag pid il s = .done (cs, s4) →
      ∃ tl, s4.out = s.out ++ (connector flags il ++ proc_text flag name pid) :: tl ∧
        ∀ l ∈ tl, ∃ tname t n sp, l = thread_connector flags il ++ forked_text tname t n sp) := by
  have hp := visit_on_path h0t h0l hv
  have hth := PRINT_INDENT_thread_on_path il hp
  refine ⟨?_, hth, ?_, ?_, ?_⟩
  · show (if s.tabs + 1 = s.tabs then _ else s.last_child (s.tabs + 1)) = 0
    rw [if_neg (by omega), hp.2.2 _ (by rw [hp.1]; omega)]
  · intro h; subst h; rfl
  · intro f anc h; subst h
    show String.join ((anc ++ [il]).map column ++ [glyph 0]) = _
    simp [glyph]
  · intro cs s4 name hn hh
    obtain ⟨hd, s1, tasks, tasks_len, children, children_len, s3, h1, _, _, _, _, _, h6, h7, _⟩ :=
      visit_head_done hh
    rw [print_proc_name_ok _ _ _ hn hd] at h1
    injection h1 with h1
    subst h1
    obtain ⟨t6, l6, o6, e6, p6⟩ := merged_step_shape h6
    obtain ⟨_, _, o7, e7, p7⟩ := forked_loop_shape h7
    rw [t6, l6] at p7
    refine ⟨o6 ++ o7, ?_, fun l hl => ?_⟩
    · rw [e7, e6, PRINT_INDENT_on_path il hp]
      simp [INCR_INDENT, St.emit, St.mark]
    · have hpi : PRINT_INDENT (INCR_INDENT ((s.mark il).emit (PRINT_INDENT (s.mark il).last_child s.tabs ++
          proc_text flag name pid))).last_child
          (INCR_INDENT ((s.mark il).emit (PRINT_INDENT (s.mark il).last_child s.tabs ++
          proc_text flag name pid))).tabs = thread_connector flags il := hth
      rw [hpi] at p6 p7
      rcases List.mem_append.mp hl with h | h
      · exact p6 l h
      · exact p7 l h

/-- C15, as stated, fails for the root: its thread line has no column before the tee, although
the claim gives every thread line a column for the owning process. -/
theorem root_thread_line_has_no_column :
    (do_pstree 1 rootThreadsFs 0 1 St.init).lines = some ["init", "├──\x7binit\x7d"] ∧
    (do_pstree 1 rootThreadsFs 1 1 St.init).lines = some ["init(1)", "├──\x7binit\x7d(9)"] := by
  decide

/-- Instance of C15 (amended): the thread line of pid 3 of the example, a last child at
depth 1, has one blank column and the tee. -/
theorem thread_lines_have_tee_witness :
    thread_connector [0] 1 = "   ├──" ∧
    PRINT_INDENT (exampleAt3.mark 1).last_child (exampleAt3.tabs + 1) = thread_connector [0] 1 :=
  have h := thread_lines_have_tee exampleFs 0 3 1 St.init rfl (fun _ => rfl) [0] 2 3 1 exampleAt3
    example_visit_3
  ⟨by decide, h.2.1⟩

/-! ## The indices of last_child -/

theorem PRINT_INDENT_reads_bounds (level i : Nat) (hi : i ∈ PRINT_INDENT_reads level) :
    1 ≤ i ∧ i ≤ level := by
  unfold PRINT_INDENT_reads at hi
  obtain ⟨k, hk, hki⟩ := List.mem_map.mp hi
  have := List.mem_range.mp hk
  split at hki <;> omega

theorem PRINT_INDENT_reads_guard (level : Nat) :
    MAX_TREE_DEPTH ≤ level ↔ ∃ i ∈ PRINT_INDENT_reads level, MAX_TREE_DEPTH ≤ i := by
  constructor
  · intro h
    refine ⟨level, ?_, h⟩
    unfold PRINT_INDENT_reads
    refine List.mem_map.mpr ⟨level - 1, List.mem_range.mpr ?_, by simp⟩
    have : 0 < MAX_TREE_DEPTH := by decide
    omega
  · rintro ⟨i, hi, h⟩
    have := (PRINT_INDENT_reads_bounds level i hi).2
    omega

/-- C17: `do_pstree_impl` has no depth check: entered with `tabs` at or beyond MAX_TREE_DEPTH it
stores outside `last_child`.  The test of the model before a `PRINT_INDENT` is exactly "some index
read is outside the array".  In a run from zeroed globals a call for a process at depth
d <= 254 has `tabs = d`, and every index of `last_child` it uses is at most d + 1 <= 255: at most
d for the stores and the main line, d + 1 for the thread lines; the store of line 225 is made
with `tabs` back at d. -/
theorem last_child_indices_in_range (E : Procfs) (flag fuel0 : Nat) (root : Int) (s0 : St)
    (h0t : s0.tabs = 0) (h0l : ∀ k, s0.last_child k = 0)
    (flags : List Nat) (fuel : Nat) (pid : Int) (il : Nat) (s : St)
    (hv : Visit E flag fuel0 root s0 flags fuel pid il s) (hd : flags.length ≤ 254) :
    (∀ f p i s1, MAX_TREE_DEPTH ≤ s1.tabs →
      do_pstree_impl (f + 1) E flag p i s1 = .abort .out_of_bounds) ∧
    (∀ level, MAX_TREE_DEPTH ≤ level ↔ ∃ i ∈ PRINT_INDENT_reads level, MAX_TREE_DEPTH ≤ i) ∧
    s.tabs = flags.length ∧
    (∀ i ∈ call_accesses s.tabs, i < MAX_TREE_DEPTH ∧ i ≤ flags.length + 1) ∧
    (∀ i ∈ s.tabs :: PRINT_INDENT_reads s.tabs, i ≤ flags.length) ∧
    (∀ i ∈ PRINT_INDENT_reads (s.tabs + 1), i ≤ flags.length + 1) ∧
    (∀ cs s4 s5, visit_head E flag pid il s = .done (cs, s4) →
      for_children (do_pstree_impl (fuel - 1) E flag) cs.length cs 0 s4 = .done s5 →
      s4.tabs = flags.length + 1 ∧ s5.tabs - 1 = flags.length ∧
        visit_end s5 = .done s5.unmark) := by
  have hp := visit_on_path h0t h0l hv
  have ht := hp.1
  refine ⟨fun f p i s1 h1 => ?_, PRINT_INDENT_reads_guard, ht, fun i hi => ?_, fun i hi => ?_,
    fun i hi => ?_, fun cs s4 s5 hh hl => ?_⟩
  · rw [do_pstree_impl_succ, visit_head_eq, if_pos h1]
    rfl
  · have hle : i ≤ flags.length + 1 := by
      unfold call_accesses at hi
      rcases List.mem_cons.mp hi with h | h
      · omega
      · rcases List.mem_append.mp h with h | h
        · rcases List.mem_append.mp h with h | h
          · have := (PRINT_INDENT_reads_bounds _ _ h).2; omega
          · have := (PRINT_INDENT_reads_bounds _ _ h).2; omega
        · simp at h; omega
    exact ⟨by have : MAX_TREE_DEPTH = 256 := rfl; omega, hle⟩
  · rcases List.mem_cons.mp hi with h | h
    · omega
    · have := (PRINT_INDENT_reads_bounds _ _ h).2; omega
  · have := (PRINT_INDENT_reads_bounds _ _ hi).2; omega
  · obtain ⟨_, t4, _, _⟩ := visit_head_globals hh
    have t5 := (for_children_frame (do_pstree_impl_frame (fuel - 1) E flag) hl).1
    refine ⟨by omega, by omega, ?_⟩
    unfold visit_end
    rw [if_neg (by have : MAX_TREE_DEPTH = 256 := rfl; omega)]

/-- Instance of C17: the call for pid 3 of the example, at depth 1, uses the indices 1 and 2. -/
theorem last_child_indices_in_range_witness :
    exampleAt3.tabs = 1 ∧ call_accesses 1 = [1, 1, 1, 2, 1] ∧
    (∀ i ∈ call_accesses exampleAt3.tabs, i < MAX_TREE_DEPTH ∧ i ≤ 1 + 1) :=
  have h := last_child_indices_in_range exampleFs 0 3 1 St.init rfl (fun _ => rfl) [0] 2 3 1
    exampleAt3 example_visit_3 (by decide)
  ⟨h.2.2.1, by decide, h.2.2.2.1⟩

/-! ## The program and the reference renderer -/

theorem emits_emits (s : St) (a b : List String) : (s.emits a).emits b = s.emits (a ++ b) := by
  simp [St.emits, List.append_assoc]

theorem emits_nil (s : St) : s.emits [] = s := by
  simp [St.emits]

theorem on_path_emits {flags : List Nat} {s : St} (ls : List String) (h : OnPath flags s) :
    OnPath flags (s.emits ls) := h

theorem print_forked_proc_ref (E : Procfs) (t : Int) (n sp : Nat) (s : St)
    (hd : s.tabs < MAX_TREE_DEPTH) :
    print_forked_proc E t s.tabs n sp s =
      (ref_forked E t (PRINT_INDENT s.last_child s.tabs) n sp).bind fun ls => .done (s.emits ls) := by
  unfold print_forked_proc ref_forked
  cases GET_PROC_NAME E t with
  | abort f => rfl
  | timeout => rfl
  | done name =>
    simp only [bind_done]
    rw [if_neg (by omega)]
    rfl

theorem merged_step_ref (E : Procfs) (flag : Nat) (tasks : List Int) (len : Nat) (s : St)
    (hd : s.tabs < MAX_TREE_DEPTH) :
    merged_step E flag tasks len s =
      (ref_merged E flag tasks len (PRINT_INDENT s.last_child s.tabs)).bind
        fun ls => .done (s.emits ls) := by
  unfold merged_step ref_merged
  split
  · exact print_forked_proc_ref E _ _ _ s hd
  · simp [emits_nil]

theorem forked_loop_ref (E : Procfs) (flag len : Nat) (ts : List Int) :
    ∀ s : St, s.tabs < MAX_TREE_DEPTH →
      forked_loop E flag len ts s =
        (ref_forked_lines E flag len (PRINT_INDENT s.last_child s.tabs) ts).bind
          fun ls => .done (s.emits ls) := by
  induction ts with
  | nil => intro s _; simp [forked_loop, ref_forked_lines, emits_nil]
  | cons t rest ih =>
    intro s hd
    unfold forked_loop ref_forked_lines
    split
    · rw [print_forked_proc_ref E t 1 1 s hd]
      cases ref_forked E t (PRINT_INDENT s.last_child s.tabs) 1 1 with
      | abort f => rfl
      | timeout => rfl
      | done l1 =>
        simp only [bind_done]
        rw [ih (s.emits l1) hd]
        show (ref_forked_lines E flag len (PRINT_INDENT s.last_child s.tabs) rest).bind _ = _
        cases ref_forked_lines E flag len (PRINT_INDENT s.last_child s.tabs) rest with
        | abort f => rfl
        | timeout => rfl
        | done l2 => simp [emits_emits]
    · simp only [bind_done]
      rw [ih s hd]
      cases ref_forked_lines E flag len (PRINT_INDENT s.last_child s.tabs) rest with
      | abort f => rfl
      | timeout => rfl
      | done l2 => simp

theorem visit_head_ref (E : Procfs) (flag : Nat) (pid : Int) (il : Nat) (flags : List Nat) (s : St)
    (hp : OnPath flags s) (hd : flags.length + 1 < MAX_TREE_DEPTH) :
    visit_head E flag pid il s =
      (ref_head E flag pid flags il).bind fun hs =>
        .done (hs.1, (INCR_INDENT (s.mark il)).emits hs.2) := by
  have ht : s.tabs = flags.length := hp.1
  have hmain := PRINT_INDENT_on_path il hp
  have hthread := PRINT_INDENT_thread_on_path il hp
  rw [visit_head_eq, if_neg (by omega)]
  unfold print_proc_name ref_head
  cases GET_PROC_NAME E pid with
  | abort f => rfl
  | timeout => rfl
  | done name =>
    simp only [bind_done]
    rw [if_neg (by omega), bind_done, hmain]
    cases get_proc_tasks E pid with
    | abort f => rfl
    | timeout => rfl
    | done tasks =>
      simp only [bind_done]
      cases get_arr_len tasks with
      | abort f => rfl
      | timeout => rfl
      | done tasks_len =>
        simp only [bind_done]
        split
        · rfl
        · cases collect_children E pid (List.take tasks_len tasks) [] with
          | abort f => rfl
          | timeout => rfl
          | done children =>
            simp only [bind_done]
            cases get_arr_len children with
            | abort f => rfl
            | timeout => rfl
            | done children_len =>
              simp only [bind_done]
              have hs2 : INCR_INDENT ((s.mark il).emit (connector flags il ++ proc_text flag name pid))
                  = (INCR_INDENT (s.mark il)).emits [connector flags il ++ proc_text flag name pid] :=
                rfl
              rw [hs2, merged_step_ref E flag tasks tasks_len _ (by show s.tabs + 1 < _; omega)]
              have hpi : PRINT_INDENT ((INCR_INDENT (s.mark il)).emits
                  [connector flags il ++ proc_text flag name pid]).last_child
                  ((INCR_INDENT (s.mark il)).emits
                  [connector flags il ++ proc_text flag name pid]).tabs
                  = thread_connector flags il := hthread
              rw [hpi]
              cases ref_merged E flag tasks tasks_len (thread_connector flags il) with
              | abort f => rfl
              | timeout => rfl
              | done l1 =>
                simp only [bind_done]
                rw [forked_loop_ref E flag tasks_len _ _ (by show s.tabs + 1 < _; omega)]
                have hpi2 : PRINT_INDENT (((INCR_INDENT (s.mark il)).emits
                    [connector flags il ++ proc_text flag name pid]).emits l1).last_child
                    (((INCR_INDENT (s.mark il)).emits
                    [connector flags il ++ proc_text flag name pid]).emits l1).tabs
                    = thread_connector flags il := hthread
                rw [hpi2]
                cases ref_forked_lines E flag tasks_len (thread_connector flags il)
                    (List.drop 1 (List.take tasks_len tasks)) with
                | abort f => rfl
                | timeout => rfl
                | done l2 =>
                  simp only [bind_done, emits_emits]
                  rfl

theorem on_path_after_head {flags : List Nat} {s : St} (il : Nat) (ls : List String)
    (hp : OnPath flags s) : OnPath (flags ++ [il]) ((INCR_INDENT (s.mark il)).emits ls) := by
  obtain ⟨pt, pl, pz⟩ := hp
  have hm : ∀ k, ((INCR_INDENT (s.mark il)).emits ls).last_child k =
      if k = s.tabs then s.last_child s.tabs ||| il else s.last_child k := fun k => rfl
  refine ⟨?_, fun i hi => ?_, fun k hk => ?_⟩
  · show s.tabs + 1 = _
    rw [pt]; simp
  · simp only [List.length_append, List.length_singleton] at hi
    rw [hm]
    by_cases hi2 : i = s.tabs
    · rw [if_pos hi2, pz s.tabs (by omega), hi2, pt]; simp
    · rw [if_neg hi2, pl i (by omega), List.getD_append _ _ _ _ (by omega)]
  · simp only [List.length_append, List.length_singleton] at hk
    rw [hm, if_neg (by omega), pz k (by omega)]

theorem unmark_after_head {flags : List Nat} {s : St} (il : Nat) (ls : List String)
    (hp : OnPath flags s) : ((INCR_INDENT (s.mark il)).emits ls).unmark = s.emits ls := by
  obtain ⟨pt, pl, pz⟩ := hp
  have h1 : ((INCR_INDENT (s.mark il)).emits ls).unmark =
      St.mk (s.tabs + 1 - 1) (write (s.mark il).last_child (s.tabs + 1 - 1) 0) (s.out ++ ls) := rfl
  have h2 : s.emits ls = St.mk s.tabs s.last_child (s.out ++ ls) := rfl
  rw [h1, h2, Nat.add_sub_cancel]
  congr 1
  funext k
  show (if k = s.tabs then 0 else (if k = s.tabs then _ else s.last_child k)) = _
  by_cases hk : k = s.tabs
  · rw [if_pos hk, hk, pz s.tabs (by omega)]
  · rw [if_neg hk, if_neg hk]

theorem for_children_ref {call : Int → Nat → St → Res St} (rcall : Int → Nat → Res (List String))
    {F : List Nat}
    (hc : ∀ c i s, OnPath F s → call c i s = (rcall c i).bind fun ls => .done (s.emits ls))
    (len : Nat) (cs : List Int) :
    ∀ (j : Nat) (s : St), OnPath F s →
      for_children call len cs j s =
        (ref_children rcall len cs j).bind fun ls => .done (s.emits ls) := by
  induction cs with
  | nil => intro j s _; simp [for_children, ref_children, emits_nil]
  | cons c rest ih =>
    intro j s hs
    rw [for_children_cons]
    unfold ref_children
    rw [hc c _ s hs]
    cases rcall c (if j = len - 1 then 1 else 0) with
    | abort f => rfl
    | timeout => rfl
    | done l1 =>
      simp only [bind_done]
      rw [ih (j + 1) (s.emits l1) (on_path_emits l1 hs)]
      cases ref_children rcall len rest (j + 1) with
      | abort f => rfl
      | timeout => rfl
      | done l2 => simp [emits_emits]

/-- On the globals of a path, with room for the remaining recursion in `last_child`, a call of
the program prints what the reference renderer returns and leaves the globals as they were. -/
theorem do_pstree_impl_ref (E : Procfs) (flag : Nat) :
    ∀ (fuel : Nat) (pid : Int) (il : Nat) (flags : List Nat) (s : St), OnPath flags s →
      flags.length + fuel < MAX_TREE_DEPTH →
      do_pstree_impl fuel E flag pid il s =
        (ref_render fuel E flag pid flags il).bind fun ls => .done (s.emits ls) := by
  intro fuel
  induction fuel with
  | zero => intro pid il flags s _ _; rfl
  | succ fuel ih =>
    intro pid il flags s hp hd
    rw [do_pstree_impl_succ, visit_head_ref E flag pid il flags s hp (by omega)]
    unfold ref_render
    cases ref_head E flag pid flags il with
    | abort f => rfl
    | timeout => rfl
    | done hs =>
      simp only [bind_done]
      rw [for_children_ref (fun c i => ref_render fuel E flag c (flags ++ [il]) i)
        (fun c i s1 h1 => ih c i (flags ++ [il]) s1 h1 (by simp; omega)) hs.1.length hs.1 0 _
        (on_path_after_head il hs.2 hp)]
      cases ref_children (fun c i => ref_render fuel E flag c (flags ++ [il]) i) hs.1.length hs.1 0 with
      | abort f => rfl
      | timeout => rfl
      | done ls =>
        simp only [bind_done, emits_emits]
        unfold visit_end
        rw [if_neg (by
          show ¬ MAX_TREE_DEPTH ≤ s.tabs + 1 - 1
          have := hp.1
          omega)]
        rw [unmark_after_head il _ hp]

/-- C16: started on zeroed globals with a recursion budget of at most 255 levels (a process
tree whose processes are at depth at most 254 is rendered in full within it), the program and
the reference renderer, which is given the flags of the open calls as an argument, end the
same way, and when they return they have produced the same lines in the same order. -/
theorem stateful_equals_reference (fuel : Nat) (E : Procfs) (flag : Nat) (pid : Int)
    (hf : fuel ≤ 255) :
    (do_pstree fuel E flag pid St.init).bind (fun s => .done s.out) =
      ref_render fuel E flag pid [] 0 ∧
    (∀ ls, ref_render fuel E flag pid [] 0 = .done ls →
      do_pstree fuel E flag pid St.init = .done (St.init.emits ls)) ∧
    (∀ s, do_pstree fuel E flag pid St.init = .done s →
      ref_render fuel E flag pid [] 0 = .done s.out) := by
  have hp : OnPath [] St.init := ⟨rfl, fun i hi => by simp at hi, fun _ _ => rfl⟩
  have h := do_pstree_impl_ref E flag fuel pid 0 [] St.init hp
    (by have : MAX_TREE_DEPTH = 256 := rfl; simp; omega)
  unfold do_pstree
  rw [h]
  refine ⟨?_, fun ls hl => ?_, fun s hs => ?_⟩
  · cases ref_render fuel E flag pid [] 0 with
    | abort f => rfl
    | timeout => rfl
    | done ls => simp [St.emits, St.init]
  · rw [hl]; rfl
  · obtain ⟨ls, hl, hs⟩ := bind_eq_done hs
    injection hs with hs
    subst hs
    rw [hl]
    simp [St.emits, St.init]

/-- Instance of C16: the example, rendered by the program and by the reference renderer. -/
theorem stateful_equals_reference_witness :
    ref_render 3 exampleFs 0 1 [] 0 =
      .done ["systemd", "├──init-helper", "└──worker", "   ├──\x7bworker\x7d"] ∧
    (do_pstree 3 exampleFs 0 1 St.init).bind (fun s => .done s.out) =
      ref_render 3 exampleFs 0 1 [] 0 :=
  ⟨rfl, (stateful_equals_reference 3 exampleFs 0 1 (by decide)).1⟩

/-! ## Runs with a limit on open streams -/

theorem fd_print_proc_name_done {nofile : Nat} {E : Procfs} {pid : Int} {tabs flag : Nat}
    {s s1 : FdSt} (h : Fd.print_proc_name nofile E pid tabs flag s = .done s1) :
    s.fds < nofile ∧ print_proc_name E pid tabs flag s.st = .done s1.st ∧ s1.fds = s.fds := by
  unfold Fd.print_proc_name at h
  split at h
  · simp at h
  · rename_i hg
    obtain ⟨st1, h1, h⟩ := bind_eq_done h
    injection h with h
    subst h
    exact ⟨by omega, h1, rfl⟩

theorem fd_print_forked_proc_done {nofile : Nat} {E : Procfs} {pid : Int} {tabs n sp : Nat}
    {s s1 : FdSt} (h : Fd.print_forked_proc nofile E pid tabs n sp s = .done s1) :
    s.fds < nofile ∧ print_forked_proc E pid tabs n sp s.st = .done s1.st ∧ s1.fds = s.fds := by
  unfold Fd.print_forked_proc at h
  split at h
  · simp at h
  · rename_i hg
    obtain ⟨st1, h1, h⟩ := bind_eq_done h
    injection h with h
    subst h
    exact ⟨by omega, h1, rfl⟩

theorem fd_merged_step_done {nofile : Nat} {E : Procfs} {flag : Nat} {tasks : List Int}
    {len : Nat} {s s1 : FdSt} (h : Fd.merged_step nofile E flag tasks len s = .done s1) :
    merged_step E flag tasks len s.st = .done s1.st ∧ s1.fds = s.fds := by
  unfold Fd.merged_step at h
  unfold merged_step
  split
  · rename_i hc
    rw [if_pos hc] at h
    obtain ⟨_, h1, h2⟩ := fd_print_forked_proc_done h
    exact ⟨h1, h2⟩
  · rename_i hc
    rw [if_neg hc] at h
    injection h with h
    subst h
    exact ⟨rfl, rfl⟩

theorem fd_forked_loop_done {nofile : Nat} {E : Procfs} {flag len : Nat} {ts : List Int} :
    ∀ {s s1 : FdSt}, Fd.forked_loop nofile E flag len ts s = .done s1 →
      forked_loop E flag len ts s.st = .done s1.st ∧ s1.fds = s.fds := by
  induction ts with
  | nil =>
    intro s s1 h
    unfold Fd.forked_loop at h
    injection h with h
    subst h
    exact ⟨rfl, rfl⟩
  | cons t rest ih =>
    intro s s1 h
    unfold Fd.forked_loop at h
    obtain ⟨s2, h2, h⟩ := bind_eq_done h
    obtain ⟨h3, h4⟩ := ih h
    unfold forked_loop
    split
    · rename_i hc
      rw [if_pos hc] at h2
      obtain ⟨_, h5, h6⟩ := fd_print_forked_proc_done h2
      rw [h5, bind_done]
      exact ⟨h3, h4.trans h6⟩
    · rename_i hc
      rw [if_neg hc] at h2
      injection h2 with h2
      subst h2
      rw [bind_done]
      exact ⟨h3, h4⟩

theorem fd_collect_children_done {nofile : Nat} {E : Procfs} {pid : Int} {ts : List Int} :
    ∀ {a b : List Int} {n n1 : Nat}, Fd.collect_children nofile E pid ts a n = .done (b, n1) →
      collect_children E pid ts a = .done b ∧ n1 = n + ts.length := by
  induction ts with
  | nil =>
    intro a b n n1 h
    unfold Fd.collect_children at h
    injection h with h
    injection h with h1 h2
    subst h1 h2
    exact ⟨rfl, rfl⟩
  | cons t rest ih =>
    intro a b n n1 h
    unfold Fd.collect_children at h
    obtain ⟨r, h1, h⟩ := bind_eq_done h
    unfold Fd.get_children at h1
    split at h1
    · simp at h1
    · obtain ⟨a1, h2, h1⟩ := bind_eq_done h1
      injection h1 with h1
      subst h1
      obtain ⟨h3, h4⟩ := ih h
      unfold collect_children
      rw [h2, bind_done]
      refine ⟨h3, ?_⟩
      rw [h4]
      simp only [List.length_cons]
      omega

theorem opened_by_eq {E : Procfs} {pid : Int} {tasks : List Int}
    (h : get_proc_tasks E pid = .done tasks) : opened_by E pid = (upto_zero tasks).length := by
  unfold opened_by
  rw [h]

/-- A completed head of a call under the limit is a completed head without it, and it leaves
one more stream open per task. -/
theorem fd_visit_head_done {nofile : Nat} {E : Procfs} {flag : Nat} {pid : Int} {il : Nat}
    {s : FdSt} {cs : List Int} {s4 : FdSt}
    (h : Fd.visit_head nofile E flag pid il s = .done (cs, s4)) :
    visit_head E flag pid il s.st = .done (cs, s4.st) ∧ s4.fds = s.fds + opened_by E pid := by
  unfold Fd.visit_head at h
  split at h
  · simp at h
  · rename_i hd
    obtain ⟨s1, h1, h⟩ := bind_eq_done h
    obtain ⟨tasks, h2, h⟩ := bind_eq_done h
    obtain ⟨tasks_len, h3, h⟩ := bind_eq_done h
    split at h
    · simp at h
    · rename_i hz
      obtain ⟨cr, h4, h⟩ := bind_eq_done h
      obtain ⟨children_len, h5, h⟩ := bind_eq_done h
      obtain ⟨s3, h6, h⟩ := bind_eq_done h
      obtain ⟨s4a, h7, h⟩ := bind_eq_done h
      injection h with h
      injection h with ha hb
      subst hb
      obtain ⟨_, p1, f1⟩ := fd_print_proc_name_done h1
      have p2 : get_proc_tasks E pid = .done tasks := by
        unfold Fd.get_proc_tasks at h2
        split at h2
        · simp at h2
        · exact h2
      obtain ⟨p4, f4⟩ := fd_collect_children_done
        (show Fd.collect_children nofile E pid (tasks.take tasks_len) [] s1.fds
          = .done (cr.1, cr.2) from h4)
      obtain ⟨p6, f6⟩ := fd_merged_step_done h6
      obtain ⟨p7, f7⟩ := fd_forked_loop_done h7
      refine ⟨?_, ?_⟩
      · rw [visit_head_eq, if_neg hd, p1, bind_done, p2, bind_done, h3, bind_done, if_neg hz,
          p4, bind_done, h5, bind_done, p6, bind_done, p7, bind_done, ha]
      · rw [f7, f6]
        show cr.2 = _
        rw [f4, f1, opened_by_eq p2, ← get_arr_len_done h3]

theorem fd_for_children_cons (call : Int → Nat → FdSt → Res FdSt) (len : Nat) (c : Int)
    (rest : List Int) (j : Nat) (s : FdSt) :
    Fd.for_children call len (c :: rest) j s =
      (call c (if j = len - 1 then 1 else 0) s).bind fun s1 =>
        Fd.for_children call len rest (j + 1) s1 := rfl

theorem fd_for_children_done {call : Int → Nat → FdSt → Res FdSt}
    {ocall : Int → Nat → St → Res St}
    (hc : ∀ c i s s1, call c i s = .done s1 → ocall c i s.st = .done s1.st ∧ s.fds ≤ s1.fds)
    {len : Nat} {cs : List Int} :
    ∀ {j : Nat} {s s1 : FdSt}, Fd.for_children call len cs j s = .done s1 →
      for_children ocall len cs j s.st = .done s1.st ∧ s.fds ≤ s1.fds := by
  induction cs with
  | nil =>
    intro j s s1 h
    unfold Fd.for_children at h
    injection h with h
    subst h
    exact ⟨rfl, Nat.le_refl _⟩
  | cons c rest ih =>
    intro j s s1 h
    rw [fd_for_children_cons] at h
    obtain ⟨s2, h2, h⟩ := bind_eq_done h
    obtain ⟨h3, h4⟩ := hc _ _ _ _ h2
    obtain ⟨h5, h6⟩ := ih h
    rw [for_children_cons, h3, bind_done]
    exact ⟨h5, Nat.le_trans h4 h6⟩

/-- A completed call under the limit on open streams is a completed call without it, with the
same globals and output; the number of open streams does not go down. -/
theorem fd_do_pstree_impl_done (nofile : Nat) (E : Procfs) (flag : Nat) :
    ∀ (fuel : Nat) (pid : Int) (il : Nat) (s s1 : FdSt),
      Fd.do_pstree_impl nofile fuel E flag pid il s = .done s1 →
      do_pstree_impl fuel E flag pid il s.st = .done s1.st ∧ s.fds ≤ s1.fds := by
  intro fuel
  induction fuel with
  | zero => intro pid il s s1 h; simp [Fd.do_pstree_impl] at h
  | succ fuel ih =>
    intro pid il s s1 h
    unfold Fd.do_pstree_impl at h
    obtain ⟨⟨cs, s4⟩, hh, h⟩ := bind_eq_done h
    obtain ⟨s5, hl, h⟩ := bind_eq_done h
    obtain ⟨p1, f1⟩ := fd_visit_head_done hh
    obtain ⟨p2, f2⟩ := fd_for_children_done (ih) hl
    unfold Fd.visit_end at h
    obtain ⟨st1, p3, h⟩ := bind_eq_done h
    injection h with h
    subst h
    refine ⟨?_, ?_⟩
    · rw [do_pstree_impl_succ, p1, bind_done]
      show (for_children (do_pstree_impl fuel E flag) cs.length cs 0 s4.st).bind visit_end = _
      rw [p2, bind_done, p3]
    · show s.fds ≤ s5.fds
      have : s4.fds ≤ s5.fds := f2
      omega

theorem fd_print_proc_name_ok (nofile : Nat) (E : Procfs) (pid : Int) (tabs flag : Nat) (s : FdSt)
    (h : s.fds < nofile) :
    Fd.print_proc_name nofile E pid tabs flag s =
      (print_proc_name E pid tabs flag s.st).bind fun st1 => .done ⟨st1, s.fds⟩ := by
  unfold Fd.print_proc_name
  rw [if_neg (by omega)]

theorem fd_print_forked_proc_ok (nofile : Nat) (E : Procfs) (pid : Int) (tabs n sp : Nat)
    (s : FdSt) (h : s.fds < nofile) :
    Fd.print_forked_proc nofile E pid tabs n sp s =
      (print_forked_proc E pid tabs n sp s.st).bind fun st1 => .done ⟨st1, s.fds⟩ := by
  unfold Fd.print_forked_proc
  rw [if_neg (by omega)]

theorem fd_merged_step_ok (nofile : Nat) (E : Procfs) (flag : Nat) (tasks : List Int) (len : Nat)
    (s : FdSt) (h : s.fds < nofile) :
    Fd.merged_step nofile E flag tasks len s =
      (merged_step E flag tasks len s.st).bind fun st1 => .done ⟨st1, s.fds⟩ := by
  unfold Fd.merged_step merged_step
  split
  · exact fd_print_forked_proc_ok nofile E _ _ _ _ s h
  · rfl

theorem fd_forked_loop_ok (nofile : Nat) (E : Procfs) (flag len : Nat) (ts : List Int) :
    ∀ s : FdSt, s.fds < nofile →
      Fd.forked_loop nofile E flag len ts s =
        (forked_loop E flag len ts s.st).bind fun st1 => .done ⟨st1, s.fds⟩ := by
  induction ts with
  | nil => intro s _; rfl
  | cons t rest ih =>
    intro s h
    unfold Fd.forked_loop forked_loop
    split
    · rw [fd_print_forked_proc_ok nofile E t _ _ _ s h]
      cases print_forked_proc E t s.st.tabs 1 1 s.st with
      | abort f => rfl
      | timeout => rfl
      | done st1 =>
        simp only [bind_done]
        exact ih ⟨st1, s.fds⟩ h
    · simp only [bind_done]
      exact ih s h

theorem fd_collect_children_ok (nofile : Nat) (E : Procfs) (pid : Int) (ts : List Int) :
    ∀ (a : List Int) (n : Nat), n + ts.length ≤ nofile →
      Fd.collect_children nofile E pid ts a n =
        (collect_children E pid ts a).bind fun b => .done (b, n + ts.length) := by
  induction ts with
  | nil => intro a n _; rfl
  | cons t rest ih =>
    intro a n h
    simp only [List.length_cons] at h
    unfold Fd.collect_children collect_children Fd.get_children
    rw [if_neg (by omega)]
    cases get_children E pid t a with
    | abort f => rfl
    | timeout => rfl
    | done a1 =>
      simp only [bind_done]
      rw [ih a1 (n + 1) (by omega)]
      simp only [List.length_cons]
      rw [show n + 1 + rest.length = n + (rest.length + 1) by omega]

/-- With streams to spare for the name file, the task directory, the children file of every
task and the name files of the threads, the head of a call under the limit does what the head
without the limit does, and leaves one more stream open per task. -/
theorem fd_visit_head_ok (nofile : Nat) (E : Procfs) (flag : Nat) (pid : Int) (il : Nat)
    (s : FdSt) (h : s.fds + opened_by E pid < nofile) :
    Fd.visit_head nofile E flag pid il s =
      (visit_head E flag pid il s.st).bind fun hs =>
        .done (hs.1, ⟨hs.2, s.fds + opened_by E pid⟩) := by
  unfold Fd.visit_head
  rw [visit_head_eq]
  split
  · rfl
  · rw [fd_print_proc_name_ok nofile E pid _ _ _ (by show s.fds < nofile; omega)]
    show ((print_proc_name E pid s.st.tabs flag (s.st.mark il)).bind _).bind _ = _
    cases print_proc_name E pid s.st.tabs flag (s.st.mark il) with
    | abort f => rfl
    | timeout => rfl
    | done st1 =>
      simp only [bind_done]
      unfold Fd.get_proc_tasks
      rw [if_neg (by omega)]
      cases ht : get_proc_tasks E pid with
      | abort f => rfl
      | timeout => rfl
      | done tasks =>
        simp only [bind_done]
        rw [opened_by_eq ht] at h ⊢
        cases hl : get_arr_len tasks with
        | abort f => rfl
        | timeout => rfl
        | done tasks_len =>
          simp only [bind_done]
          split
          · rfl
          · have hlen : (List.take tasks_len tasks).length = (upto_zero tasks).length := by
              rw [get_arr_len_done hl]
            rw [fd_collect_children_ok nofile E pid _ [] s.fds (by rw [hlen]; omega), hlen]
            cases collect_children E pid (List.take tasks_len tasks) [] with
            | abort f => rfl
            | timeout => rfl
            | done children =>
              simp only [bind_done]
              cases get_arr_len children with
              | abort f => rfl
              | timeout => rfl
              | done children_len =>
                simp only [bind_done]
                rw [fd_merged_step_ok nofile E flag tasks tasks_len _ h]
                show ((merged_step E flag tasks tasks_len (INCR_INDENT st1)).bind _).bind _ = _
                cases merged_step E flag tasks tasks_len (INCR_INDENT st1) with
                | abort f => rfl
                | timeout => rfl
                | done st3 =>
                  simp only [bind_done]
                  rw [fd_forked_loop_ok nofile E flag tasks_len _ _ h]
                  show ((forked_loop E flag tasks_len (List.drop 1 (List.take tasks_len tasks))
                    st3).bind _).bind _ = _
                  cases forked_loop E flag tasks_len (List.drop 1 (List.take tasks_len tasks))
                      st3 with
                  | abort f => rfl
                  | timeout => rfl
                  | done st4 => rfl

theorem fd_for_children_append (call : Int → Nat → FdSt → Res FdSt) (len : Nat)
    (l1 l2 : List Int) :
    ∀ (j : Nat) (s : FdSt), Fd.for_children call len (l1 ++ l2) j s =
      (Fd.for_children call len l1 j s).bind
        fun s1 => Fd.for_children call len l2 (j + l1.length) s1 := by
  induction l1 with
  | nil => intro j s; rfl
  | cons c rest ih =>
    intro j s
    show Fd.for_children call len (c :: (rest ++ l2)) j s = _
    rw [fd_for_children_cons, fd_for_children_cons]
    cases call c (if j = len - 1 then 1 else 0) s with
    | abort f => rfl
    | timeout => rfl
    | done s1 =>
      simp only [bind_done]
      rw [ih (j + 1) s1]
      simp only [List.length_cons]
      rw [show j + (rest.length + 1) = j + 1 + rest.length by omega]

theorem fd_for_children_abort {call : Int → Nat → FdSt → Res FdSt} {len : Nat} {f : Fault} :
    ∀ (cs : List Int) (j0 : Nat) (s : FdSt), Fd.for_children call len cs j0 s = .abort f →
      ∃ j, j < cs.length ∧ ∃ sj, Fd.for_children call len (cs.take j) j0 s = .done sj ∧
        call (cs.getD j 0) (if j0 + j = len - 1 then 1 else 0) sj = .abort f := by
  intro cs
  induction cs with
  | nil => intro j0 s h; simp [Fd.for_children] at h
  | cons c rest ih =>
    intro j0 s h
    rw [fd_for_children_cons] at h
    cases hc : call c (if j0 = len - 1 then 1 else 0) s with
    | abort f1 =>
      rw [hc] at h
      simp only [bind_abort] at h
      exact ⟨0, by simp, s, rfl, by simpa using hc.trans h⟩
    | timeout => rw [hc] at h; simp at h
    | done s1 =>
      rw [hc, bind_done] at h
      obtain ⟨j, hj, sj, h1, h2⟩ := ih (j0 + 1) s1 h
      refine ⟨j + 1, by simpa using hj, sj, ?_, ?_⟩
      · show Fd.for_children call len (c :: rest.take j) j0 s = _
        rw [fd_for_children_cons, hc, bind_done]
        exact h1
      · rw [show j0 + (j + 1) = j0 + 1 + j by omega]
        simpa using h2

/-- Result of the call for child `j`: it continues the loop over the first `j` children. -/
theorem fd_for_children_at {call : Int → Nat → FdSt → Res FdSt} {cs : List Int} {j : Nat}
    {s sj : FdSt} (hj : j < cs.length)
    (h1 : Fd.for_children call cs.length (cs.take j) 0 s = .done sj) :
    Fd.for_children call cs.length cs 0 s =
      (call (cs.getD j 0) (if j = cs.length - 1 then 1 else 0) sj).bind
        fun s1 => Fd.for_children call cs.length (cs.drop (j + 1)) (j + 1) s1 := by
  have hsplit : cs = cs.take j ++ (cs.getD j 0 :: cs.drop (j + 1)) := by
    rw [List.getD_eq_getElem _ _ hj, List.getElem_cons_drop, List.take_append_drop]
  have hlen : (cs.take j).length = j := by rw [List.length_take]; omega
  have := fd_for_children_append call cs.length (cs.take j) (cs.getD j 0 :: cs.drop (j + 1)) 0 s
  rw [← hsplit, h1, bind_done, hlen, Nat.zero_add] at this
  rw [this, fd_for_children_cons]

theorem fd_for_children_abort_at {call : Int → Nat → FdSt → Res FdSt} {cs : List Int} {j : Nat}
    {s sj : FdSt} {f : Fault} (hj : j < cs.length)
    (h1 : Fd.for_children call cs.length (cs.take j) 0 s = .done sj)
    (h2 : call (cs.getD j 0) (if j = cs.length - 1 then 1 else 0) sj = .abort f) :
    Fd.for_children call cs.length cs 0 s = .abort f := by
  rw [fd_for_children_at hj h1, h2]
  rfl

theorem fd_for_children_take_succ {call : Int → Nat → FdSt → Res FdSt} {cs : List Int} {j : Nat}
    {s sj s1 : FdSt} (len : Nat) (hj : j < cs.length)
    (h1 : Fd.for_children call len (cs.take j) 0 s = .done sj)
    (h2 : call (cs.getD j 0) (if j = len - 1 then 1 else 0) sj = .done s1) :
    Fd.for_children call len (cs.take (j + 1)) 0 s = .done s1 := by
  have ht : cs.take (j + 1) = cs.take j ++ [cs.getD j 0] := by
    rw [List.take_succ, List.getElem?_eq_getElem hj, List.getD_eq_getElem _ _ hj]
    rfl
  have hlen : (cs.take j).length = j := by rw [List.length_take]; omega
  rw [ht, fd_for_children_append, h1, bind_done, hlen, Nat.zero_add, fd_for_children_cons, h2]
  rfl

/-- The loop over the children returns or fails an assertion when each of its calls does, in
the state in which the loop makes it. -/
theorem fd_for_children_done_or_assert {call : Int → Nat → FdSt → Res FdSt} (cs : List Int)
    (s4 : FdSt)
    (hstep : ∀ j sj, j < cs.length →
      Fd.for_children call cs.length (cs.take j) 0 s4 = .done sj →
      (∃ s1, call (cs.getD j 0) (if j = cs.length - 1 then 1 else 0) sj = .done s1) ∨
        call (cs.getD j 0) (if j = cs.length - 1 then 1 else 0) sj = .abort .assert_fail) :
    (∃ s5, Fd.for_children call cs.length cs 0 s4 = .done s5) ∨
      Fd.for_children call cs.length cs 0 s4 = .abort .assert_fail := by
  have hk : ∀ k, k ≤ cs.length →
      (∃ sk, Fd.for_children call cs.length (cs.take k) 0 s4 = .done sk) ∨
        Fd.for_children call cs.length cs 0 s4 = .abort .assert_fail := by
    intro k
    induction k with
    | zero => intro _; exact Or.inl ⟨s4, rfl⟩
    | succ k ih =>
      intro hk
      rcases ih (by omega) with ⟨sk, h1⟩ | h1
      · rcases hstep k sk (by omega) h1 with ⟨s1, h2⟩ | h2
        · exact Or.inl ⟨s1, fd_for_children_take_succ cs.length (by omega) h1 h2⟩
        · exact Or.inr (fd_for_children_abort_at (by omega) h1 h2)
      · exact Or.inr h1
  have := hk cs.length (Nat.le_refl _)
  rwa [List.take_length] at this

theorem fd_visit_trans {nofile : Nat} {E : Procfs} {flag : Nat}
    {f0 : Nat} {p0 : Int} {i0 : Nat} {s0 : FdSt} {f1 : Nat} {p1 : Int} {i1 : Nat} {s1 : FdSt}
    {f2 : Nat} {p2 : Int} {i2 : Nat} {s2 : FdSt}
    (h1 : FdVisit nofile E flag f0 p0 i0 s0 f1 p1 i1 s1)
    (h2 : FdVisit nofile E flag f1 p1 i1 s1 f2 p2 i2 s2) :
    FdVisit nofile E flag f0 p0 i0 s0 f2 p2 i2 s2 := by
  induction h2 with
  | top => exact h1
  | child _ hh hj hl ih => exact FdVisit.child ih hh hj hl

/-- Head of a call on a live process with streams to spare: it fails the assertion when the
task list is empty and completes otherwise, with live children of smaller height. -/
theorem fd_visit_head_live {E : Procfs} {live : Int → Prop} {h : Int → Nat}
    (hw : Walkable E live h) (nofile flag : Nat) {pid : Int} (il : Nat) {s : FdSt}
    (hl : live pid) (hd : s.st.tabs + 1 < MAX_TREE_DEPTH)
    (hfd : s.fds + opened_by E pid < nofile) :
    (E.task pid = some [] ∧ Fd.visit_head nofile E flag pid il s = .abort .assert_fail) ∨
    (E.task pid ≠ some [] ∧ ∃ cs s4, Fd.visit_head nofile E flag pid il s = .done (cs, s4) ∧
      (∀ c ∈ cs, live c ∧ h c < h pid) ∧ s4.st.tabs = s.st.tabs + 1) := by
  rw [fd_visit_head_ok nofile E flag pid il s hfd]
  rcases visit_head_live hw flag il hl hd with ⟨ht, hv⟩ | ⟨ht, cs, s4, hv, hcs⟩
  · left
    rw [hv]
    exact ⟨ht, rfl⟩
  · right
    rw [hv]
    obtain ⟨_, t4, _, _⟩ := visit_head_globals hv
    exact ⟨ht, cs, ⟨s4, s.fds + opened_by E pid⟩, rfl, hcs, t4⟩

theorem fd_for_children_tabs {nofile : Nat} {E : Procfs} {flag fuel len : Nat} {cs : List Int}
    {j : Nat} {s s1 : FdSt}
    (h : Fd.for_children (Fd.do_pstree_impl nofile fuel E flag) len cs j s = .done s1) :
    s1.st.tabs = s.st.tabs := by
  have h1 := (fd_for_children_done
    (fun c i s s1 hc => fd_do_pstree_impl_done nofile E flag fuel c i s s1 hc) h).1
  exact (for_children_frame (do_pstree_impl_frame fuel E flag) h1).1

/-- On a walkable table a call with enough fuel, room in `last_child` and streams to spare at
every call made inside it returns or fails an assertion. -/
theorem fd_impl_done_or_assert {E : Procfs} {live : Int → Prop} {h : Int → Nat}
    (hw : Walkable E live h) (nofile flag : Nat) :
    ∀ (fuel : Nat) (pid : Int) (il : Nat) (s : FdSt), live pid → h pid < fuel →
      s.st.tabs + h pid + 1 < MAX_TREE_DEPTH →
      (∀ f p i s1, FdVisit nofile E flag fuel pid il s f p i s1 →
        s1.fds + opened_by E p < nofile) →
      (∃ s1, Fd.do_pstree_impl nofile fuel E flag pid il s = .done s1) ∨
        Fd.do_pstree_impl nofile fuel E flag pid il s = .abort .assert_fail := by
  intro fuel
  induction fuel with
  | zero => intro pid il s _ hf _ _; omega
  | succ fuel ih =>
    intro pid il s hl hf hd hfd
    unfold Fd.do_pstree_impl
    rcases fd_visit_head_live hw nofile flag il hl (s := s) (by omega)
        (hfd _ _ _ _ FdVisit.top) with ⟨_, hv⟩ | ⟨_, cs, s4, hv, hcs, t4⟩
    · rw [hv]; exact Or.inr rfl
    · rw [hv, bind_done]
      rcases @fd_for_children_done_or_assert (Fd.do_pstree_impl nofile fuel E flag) cs s4
          (fun j sj hj hlp => by
            have hc := hcs _ (getD_mem hj)
            have tj := fd_for_children_tabs hlp
            exact ih _ _ sj hc.1 (by omega) (by omega)
              (fun f p i s1 hv1 => hfd _ _ _ _
                (fd_visit_trans (FdVisit.child FdVisit.top hv hj hlp) hv1)))
        with ⟨s5, h5⟩ | h5
      · left
        show ∃ s1, ((Fd.for_children (Fd.do_pstree_impl nofile fuel E flag) cs.length cs 0 s4).bind
          fun s5 => Fd.visit_end s5) = .done s1
        rw [h5, bind_done]
        have t5 := fd_for_children_tabs h5
        unfold Fd.visit_end visit_end
        rw [if_neg (by rw [t5, t4]; simp; omega)]
        exact ⟨_, rfl⟩
      · right
        show ((Fd.for_children (Fd.do_pstree_impl nofile fuel E flag) cs.length cs 0 s4).bind
          fun s5 => Fd.visit_end s5) = _
        rw [h5]
        rfl

/-- Along a run on a walkable table every called process is live, has fuel above its height,
and sits at a depth that leaves room for its height. -/
theorem fd_visit_live {E : Procfs} {live : Int → Prop} {h : Int → Nat} (hw : Walkable E live h)
    {nofile flag fuel0 : Nat} {root : Int} {il0 : Nat} {s0 : FdSt}
    (hl : live root) (hf : h root < fuel0) (hd : s0.st.tabs + h root + 1 < MAX_TREE_DEPTH)
    {fuel : Nat} {pid : Int} {il : Nat} {s : FdSt}
    (hv : FdVisit nofile E flag fuel0 root il0 s0 fuel pid il s) :
    live pid ∧ h pid < fuel ∧ s.st.tabs + h pid ≤ s0.st.tabs + h root := by
  induction hv with
  | top => exact ⟨hl, hf, by omega⟩
  | @child fuel pid il s cs s4 j sj _ hh hj hlp ih =>
    obtain ⟨ipl, ipf, ipd⟩ := ih
    have hh1 := (fd_visit_head_done hh).1
    rcases visit_head_live hw flag il ipl (s := s.st) (by omega) with
      ⟨_, hv⟩ | ⟨_, cs1, s41, hv, hcs⟩
    · rw [hv] at hh1; simp at hh1
    · rw [hv] at hh1
      injection hh1 with hh1
      injection hh1 with hc1 hc2
      subst hc1
      obtain ⟨hcl, hch⟩ := hcs _ (getD_mem hj)
      obtain ⟨_, t4, _, _⟩ := visit_head_globals hv
      have t5 := fd_for_children_tabs hlp
      refine ⟨hcl, by omega, ?_⟩
      rw [t5, ← hc2, t4]
      omega

/-- A fault of a call made during a run is the fault of the run. -/
theorem fd_visit_abort {nofile : Nat} {E : Procfs} {flag fuel0 : Nat} {root : Int} {il0 : Nat}
    {s0 : FdSt} {fuel : Nat} {pid : Int} {il : Nat} {s : FdSt} {f : Fault}
    (hv : FdVisit nofile E flag fuel0 root il0 s0 fuel pid il s)
    (ha : Fd.do_pstree_impl nofile fuel E flag pid il s = .abort f) :
    Fd.do_pstree_impl nofile fuel0 E flag root il0 s0 = .abort f := by
  induction hv with
  | top => exact ha
  | @child fuel pid il s cs s4 j sj _ hh hj hlp ih =>
    apply ih
    unfold Fd.do_pstree_impl
    rw [hh, bind_done]
    show ((Fd.for_children (Fd.do_pstree_impl nofile fuel E flag) cs.length cs 0 s4).bind
      fun s5 => Fd.visit_end s5) = _
    rw [fd_for_children_abort_at hj hlp ha]
    rfl

theorem fd_visit_end_not_assert (s : FdSt) : Fd.visit_end s ≠ .abort .assert_fail := by
  unfold Fd.visit_end visit_end
  split <;> simp [Res.bind]

/-- On a walkable table, an assertion failure of a call made during a run with streams to
spare comes from a called process with an empty task list. -/
theorem fd_assert_from_empty {E : Procfs} {live : Int → Prop} {h : Int → Nat}
    (hw : Walkable E live h) {nofile flag fuel0 : Nat} {root : Int} {il0 : Nat} {s0 : FdSt}
    (hl : live root) (hf : h root < fuel0) (hd : s0.st.tabs + h root + 1 < MAX_TREE_DEPTH)
    (hfd : ∀ f p i s, FdVisit nofile E flag fuel0 root il0 s0 f p i s →
      s.fds + opened_by E p < nofile) :
    ∀ (fuel : Nat) (pid : Int) (il : Nat) (s : FdSt),
      FdVisit nofile E flag fuel0 root il0 s0 fuel pid il s →
      Fd.do_pstree_impl nofile fuel E flag pid il s = .abort .assert_fail →
      ∃ fuel1 pid1 il1 s1, FdVisit nofile E flag fuel0 root il0 s0 fuel1 pid1 il1 s1 ∧
        E.task pid1 = some [] := by
  intro fuel
  induction fuel with
  | zero => intro pid il s _ ha; simp [Fd.do_pstree_impl] at ha
  | succ fuel ih =>
    intro pid il s hv ha
    obtain ⟨ipl, _, ipd⟩ := fd_visit_live hw hl hf hd hv
    rcases fd_visit_head_live hw nofile flag il ipl (s := s) (by omega) (hfd _ _ _ _ hv) with
      ⟨ht, _⟩ | ⟨_, cs, s4, hh, _⟩
    · exact ⟨fuel + 1, pid, il, s, hv, ht⟩
    · unfold Fd.do_pstree_impl at ha
      rw [hh, bind_done] at ha
      change ((Fd.for_children (Fd.do_pstree_impl nofile fuel E flag) cs.length cs 0 s4).bind
        fun s5 => Fd.visit_end s5) = _ at ha
      cases hloop : Fd.for_children (Fd.do_pstree_impl nofile fuel E flag) cs.length cs 0 s4 with
      | done s5 =>
        rw [hloop, bind_done] at ha
        exact absurd ha (fd_visit_end_not_assert s5)
      | timeout => rw [hloop] at ha; simp at ha
      | abort f =>
        rw [hloop] at ha
        simp only [bind_abort, Res.abort.injEq] at ha
        subst ha
        obtain ⟨j, hj, sj, h1, h2⟩ := fd_for_children_abort cs 0 s4 hloop
        rw [Nat.zero_add] at h2
        exact ih _ _ _ (FdVisit.child hv hh hj h1) h2

/-- C9 (amended): on a process table whose name files, task directories and children files
are readable, whose thread ids are non-zero, whose lists have fewer than MAX_TASKS entries and
whose tree below the root has at most `h root` <= 254 levels, and with a limit `nofile` on open
streams such that at every call the streams already open (none at the start, one more for every
children file read since) plus one per thread of the called process stay below the limit: a run
of `do_pstree` with fuel above `h root` fails an assertion exactly when it calls a process whose
task list is empty, and it returns when it calls no such process. -/
theorem assert_iff_empty_thread_set (nofile : Nat) (E : Procfs) (live : Int → Prop)
    (h : Int → Nat) (hw : Walkable E live h) (flag fuel : Nat) (root : Int)
    (hl : live root) (hf : h root < fuel) (hd : h root + 1 < MAX_TREE_DEPTH)
    (hfd : ∀ f pid il s, FdVisit nofile E flag fuel root 0 FdSt.init f pid il s →
      s.fds + opened_by E pid < nofile) :
    (Fd.do_pstree nofile fuel E flag root FdSt.init = .abort .assert_fail ↔
      ∃ f pid il s, FdVisit nofile E flag fuel root 0 FdSt.init f pid il s ∧
        E.task pid = some []) ∧
    ((∀ f pid il s, FdVisit nofile E flag fuel root 0 FdSt.init f pid il s →
        E.task pid ≠ some []) →
      ∃ s1, Fd.do_pstree nofile fuel E flag root FdSt.init = .done s1) := by
  have hd0 : FdSt.init.st.tabs + h root + 1 < MAX_TREE_DEPTH := by
    show 0 + h root + 1 < _
    omega
  have hto : Fd.do_pstree nofile fuel E flag root FdSt.init = .abort .assert_fail →
      ∃ f pid il s, FdVisit nofile E flag fuel root 0 FdSt.init f pid il s ∧
        E.task pid = some [] :=
    fun ha => fd_assert_from_empty hw hl hf hd0 hfd fuel root 0 FdSt.init FdVisit.top ha
  refine ⟨⟨hto, ?_⟩, fun hno => ?_⟩
  · rintro ⟨f, pid, il, s, hv, ht⟩
    obtain ⟨ipl, ipf, ipd⟩ := fd_visit_live hw hl hf hd0 hv
    have ipd0 : s.st.tabs + h pid ≤ 0 + h root := ipd
    apply fd_visit_abort hv
    cases f with
    | zero => omega
    | succ f =>
      rcases fd_visit_head_live hw nofile flag il ipl (s := s) (by omega) (hfd _ _ _ _ hv) with
        ⟨_, hh⟩ | ⟨hne, _⟩
      · unfold Fd.do_pstree_impl
        rw [hh]
        rfl
      · exact absurd ht hne
  · rcases fd_impl_done_or_assert hw nofile flag fuel root 0 FdSt.init hl hf hd0 hfd with
      hdone | ha
    · exact hdone
    · obtain ⟨f, pid, il, s, hv, ht⟩ := hto ha
      exact absurd ht (hno _ _ _ _ hv)

/-- The calls of the run on the example with 1021 streams to open: pid 1 with no stream open,
pid 2 with one, pid 3 with two. -/
theorem example_fd_visits {f : Nat} {pid : Int} {il : Nat} {s : FdSt}
    (hv : FdVisit 1021 exampleFs 0 2 1 0 FdSt.init f pid il s) :
    (f = 2 ∧ pid = 1 ∧ il = 0 ∧ s = FdSt.init) ∨
    (f = 1 ∧ pid = 2 ∧ il = 0 ∧ s = ⟨INCR_INDENT ((St.init.mark 0).emit "systemd"), 1⟩) ∨
    (f = 1 ∧ pid = 3 ∧ il = 1 ∧ s = ⟨exampleAt3, 2⟩) := by
  induction hv with
  | top => exact Or.inl ⟨rfl, rfl, rfl, rfl⟩
  | @child fuel pid il s cs s4 j sj _ hh hj hlp ih =>
    rcases ih with ⟨hf, hp, hi, hs⟩ | ⟨hf, hp, hi, hs⟩ | ⟨hf, hp, hi, hs⟩
    · have hf1 : fuel = 1 := by omega
      subst hf1 hp hi hs
      have e : Fd.visit_head 1021 exampleFs 0 1 0 FdSt.init =
          .done ([2, 3], ⟨INCR_INDENT ((St.init.mark 0).emit "systemd"), 1⟩) := rfl
      rw [e] at hh
      injection hh with hh
      injection hh with hc1 hc2
      subst hc1 hc2
      have hj2 : j = 0 ∨ j = 1 := by
        have : j < 2 := hj
        omega
      rcases hj2 with rfl | rfl
      · injection hlp with hlp
        subst hlp
        exact Or.inr (Or.inl ⟨rfl, rfl, rfl, rfl⟩)
      · have e1 : Fd.for_children (Fd.do_pstree_impl 1021 1 exampleFs 0) 2 [2] 0
            ⟨INCR_INDENT ((St.init.mark 0).emit "systemd"), 1⟩ = .done ⟨exampleAt3, 2⟩ := rfl
        have hlp1 : Fd.for_children (Fd.do_pstree_impl 1021 1 exampleFs 0) 2 [2] 0
            ⟨INCR_INDENT ((St.init.mark 0).emit "systemd"), 1⟩ = .done sj := hlp
        rw [e1] at hlp1
        injection hlp1 with hlp1
        subst hlp1
        exact Or.inr (Or.inr ⟨rfl, rfl, rfl, rfl⟩)
    · subst hp hi hs
      have e : ∃ x, Fd.visit_head 1021 exampleFs 0 2 0
          ⟨INCR_INDENT ((St.init.mark 0).emit "systemd"), 1⟩ = .done ([], x) := ⟨_, rfl⟩
      obtain ⟨x, e⟩ := e
      rw [e] at hh
      injection hh with hh
      injection hh with hc1 hc2
      subst hc1
      exact absurd hj (by simp)
    · subst hp hi hs
      have e : ∃ x, Fd.visit_head 1021 exampleFs 0 3 1 ⟨exampleAt3, 2⟩ = .done ([], x) :=
        ⟨_, rfl⟩
      obtain ⟨x, e⟩ := e
      rw [e] at hh
      injection hh with hh
      injection hh with hc1 hc2
      subst hc1
      exact absurd hj (by simp)

/-- On the example with 1021 streams to open every call has streams to spare. -/
theorem example_fd_spare (f : Nat) (pid : Int) (il : Nat) (s : FdSt)
    (hv : FdVisit 1021 exampleFs 0 2 1 0 FdSt.init f pid il s) :
    s.fds + opened_by exampleFs pid < 1021 := by
  rcases example_fd_visits hv with ⟨_, hp, _, hs⟩ | ⟨_, hp, _, hs⟩ | ⟨_, hp, _, hs⟩ <;>
    subst hp hs <;> decide

/-- Instance of C9 (amended): the example is walkable, with 1021 streams to open every call
has streams to spare, and the run returns. -/
theorem assert_iff_empty_thread_set_witness :
    Walkable exampleFs exampleLive exampleHeight ∧
    (∀ f pid il s, FdVisit 1021 exampleFs 0 2 1 0 FdSt.init f pid il s →
      s.fds + opened_by exampleFs pid < 1021) ∧
    (Fd.do_pstree 1021 2 exampleFs 0 1 FdSt.init = .abort .assert_fail ↔
      ∃ f pid il s, FdVisit 1021 exampleFs 0 2 1 0 FdSt.init f pid il s ∧
        exampleFs.task pid = some []) ∧
    ((∀ f pid il s, FdVisit 1021 exampleFs 0 2 1 0 FdSt.init f pid il s →
        exampleFs.task pid ≠ some []) →
      ∃ s1, Fd.do_pstree 1021 2 exampleFs 0 1 FdSt.init = .done s1) :=
  ⟨example_walkable, example_fd_spare,
    assert_iff_empty_thread_set 1021 exampleFs exampleLive exampleHeight example_walkable 0 2 1
      (Or.inl rfl) (by decide) (by decide) example_fd_spare⟩

/-- C8: the example rendered twice with six streams to open.  The first run completes with the
four lines of the example and leaves four streams open, one per children file read; in the
second run the children files of pids 1 and 2 take the last two streams, the `fopen` of the
name file of pid 3 fails and the program ends in `exit(EXIT_FAILURE)`, so the second run does
not repeat the output of the first.  With nine streams to open both runs complete. -/
theorem second_run_exhausts_streams :
    (∃ s1, Fd.do_pstree 6 3 exampleFs 0 1 FdSt.init = .done s1 ∧
      s1.st.out = ["systemd", "├──init-helper", "└──worker", "   ├──\x7bworker\x7d"] ∧
      s1.fds = 4 ∧
      Fd.do_pstree 6 3 exampleFs 0 1 s1 = .abort .exit_failure) ∧
    (∃ s1 s2, Fd.do_pstree 9 3 exampleFs 0 1 FdSt.init = .done s1 ∧
      Fd.do_pstree 9 3 exampleFs 0 1 s1 = .done s2 ∧ s2.st.out = s1.st.out ++ s1.st.out) :=
  ⟨⟨_, rfl, by decide, rfl, rfl⟩, ⟨_, _, rfl, rfl, by decide⟩⟩

/-- When two runs in succession both complete under the limit on open streams, the second
adds the very same lines to stderr as the first. -/
theorem fd_do_pstree_again (nofile fuel : Nat) (E : Procfs) (flag : Nat) (pid : Int)
    (s1 s2 : FdSt) (h1 : Fd.do_pstree nofile fuel E flag pid FdSt.init = .done s1)
    (h2 : Fd.do_pstree nofile fuel E flag pid s1 = .done s2) :
    s2.st.out = s1.st.out ++ s1.st.out := by
  have g1 := (fd_do_pstree_impl_done nofile E flag fuel pid 0 FdSt.init s1 h1).1
  have g2 := (fd_do_pstree_impl_done nofile E flag fuel pid 0 s1 s2 h2).1
  obtain ⟨s3, g3, ho⟩ := do_pstree_again fuel E flag pid s1.st g1
  have g4 : do_pstree_impl fuel E flag pid 0 s1.st = .done s3 := g3
  rw [g2] at g4
  injection g4 with g4
  rw [g4]
  exact ho

theorem fd_collect_children_le {nofile : Nat} {E : Procfs} {pid : Int} {ts : List Int} :
    ∀ {a b : List Int} {n n1 : Nat}, Fd.collect_children nofile E pid ts a n = .done (b, n1) →
      n ≤ nofile → n1 ≤ nofile := by
  induction ts with
  | nil =>
    intro a b n n1 h hn
    unfold Fd.collect_children at h
    injection h with h
    injection h with h1 h2
    omega
  | cons t rest ih =>
    intro a b n n1 h hn
    unfold Fd.collect_children at h
    obtain ⟨r, h1, h⟩ := bind_eq_done h
    unfold Fd.get_children at h1
    split at h1
    · simp at h1
    · rename_i hg
      obtain ⟨a1, h2, h1⟩ := bind_eq_done h1
      injection h1 with h1
      subst h1
      exact ih h (by show n + 1 ≤ nofile; omega)

/-- A completed head of a call leaves no more streams open than the limit allows. -/
theorem fd_visit_head_le {nofile : Nat} {E : Procfs} {flag : Nat} {pid : Int} {il : Nat}
    {s : FdSt} {cs : List Int} {s4 : FdSt}
    (h : Fd.visit_head nofile E flag pid il s = .done (cs, s4)) : s4.fds ≤ nofile := by
  unfold Fd.visit_head at h
  split at h
  · simp at h
  · obtain ⟨s1, h1, h⟩ := bind_eq_done h
    obtain ⟨tasks, h2, h⟩ := bind_eq_done h
    obtain ⟨tasks_len, h3, h⟩ := bind_eq_done h
    split at h
    · simp at h
    · obtain ⟨cr, h4, h⟩ := bind_eq_done h
      obtain ⟨children_len, h5, h⟩ := bind_eq_done h
      obtain ⟨s3, h6, h⟩ := bind_eq_done h
      obtain ⟨s4a, h7, h⟩ := bind_eq_done h
      injection h with h
      injection h with ha hb
      subst hb
      obtain ⟨g1, _, f1⟩ := fd_print_proc_name_done h1
      have f4 := fd_collect_children_le
        (show Fd.collect_children nofile E pid (tasks.take tasks_len) [] s1.fds
          = .done (cr.1, cr.2) from h4) (by rw [f1]; exact Nat.le_of_lt g1)
      obtain ⟨_, f6⟩ := fd_merged_step_done h6
      obtain ⟨_, f7⟩ := fd_forked_loop_done h7
      rw [f7, f6]
      exact f4

theorem fd_for_children_le {nofile : Nat} {call : Int → Nat → FdSt → Res FdSt}
    (hc : ∀ c i s s1, call c i s = .done s1 → s1.fds ≤ nofile) {len : Nat} {cs : List Int} :
    ∀ {j : Nat} {s s1 : FdSt}, Fd.for_children call len cs j s = .done s1 →
      s.fds ≤ nofile → s1.fds ≤ nofile := by
  induction cs with
  | nil =>
    intro j s s1 h hs
    unfold Fd.for_children at h
    injection h with h
    subst h
    exact hs
  | cons c rest ih =>
    intro j s s1 h hs
    rw [fd_for_children_cons] at h
    obtain ⟨s2, h2, h⟩ := bind_eq_done h
    exact ih h (hc _ _ _ _ h2)

/-- A completed call leaves no more streams open than the limit allows. -/
theorem fd_do_pstree_impl_le (nofile : Nat) (E : Procfs) (flag : Nat) :
    ∀ (fuel : Nat) (pid : Int) (il : Nat) (s s1 : FdSt),
      Fd.do_pstree_impl nofile fuel E flag pid il s = .done s1 → s1.fds ≤ nofile := by
  intro fuel
  induction fuel with
  | zero => intro pid il s s1 h; simp [Fd.do_pstree_impl] at h
  | succ fuel ih =>
    intro pid il s s1 h
    unfold Fd.do_pstree_impl at h
    obtain ⟨⟨cs, s4⟩, hh, h⟩ := bind_eq_done h
    obtain ⟨s5, hl, h⟩ := bind_eq_done h
    have f2 := fd_for_children_le ih hl (fd_visit_head_le hh)
    unfold Fd.visit_end at h
    obtain ⟨st1, p3, h⟩ := bind_eq_done h
    injection h with h
    subst h
    exact f2

/-- The children a call recurses into depend on the process table, the flag and the pid only,
not on the globals. -/
theorem visit_head_children_det {E : Procfs} {flag : Nat} {pid : Int} {il il1 : Nat}
    {s s1 : St} {cs cs1 : List Int} {s4 s41 : St}
    (h : visit_head E flag pid il s = .done (cs, s4))
    (h1 : visit_head E flag pid il1 s1 = .done (cs1, s41)) : cs = cs1 := by
  obtain ⟨_, _, tasks, tasks_len, children, children_len, _, _, a2, a3, _, a5, a6, _, _, ac⟩ :=
    visit_head_done h
  obtain ⟨_, _, tasks1, tasks_len1, children1, children_len1, _, _, b2, b3, _, b5, b6, _, _, bc⟩ :=
    visit_head_done h1
  rw [a2] at b2
  injection b2 with b2
  subst b2
  rw [a3] at b3
  injection b3 with b3
  subst b3
  rw [a5] at b5
  injection b5 with b5
  subst b5
  rw [a6] at b6
  injection b6 with b6
  subst b6
  rw [ac, bc]

theorem fd_for_children_opens_same {call : Int → Nat → FdSt → Res FdSt}
    (hc : ∀ c i i1 s s1 t t1, call c i s = .done s1 → call c i1 t = .done t1 →
      s1.fds + t.fds = t1.fds + s.fds) {len : Nat} {cs : List Int} :
    ∀ {j : Nat} {s s1 t t1 : FdSt}, Fd.for_children call len cs j s = .done s1 →
      Fd.for_children call len cs j t = .done t1 → s1.fds + t.fds = t1.fds + s.fds := by
  induction cs with
  | nil =>
    intro j s s1 t t1 h h1
    unfold Fd.for_children at h h1
    injection h with h
    injection h1 with h1
    subst h h1
    omega
  | cons c rest ih =>
    intro j s s1 t t1 h h1
    rw [fd_for_children_cons] at h h1
    obtain ⟨s2, h2, h⟩ := bind_eq_done h
    obtain ⟨t2, h3, h1⟩ := bind_eq_done h1
    have e1 := hc _ _ _ _ _ _ _ h2 h3
    have e2 := ih h h1
    omega

theorem fd_visit_end_fds {s s1 : FdSt} (h : Fd.visit_end s = .done s1) : s1.fds = s.fds := by
  unfold Fd.visit_end at h
  obtain ⟨st1, _, h⟩ := bind_eq_done h
  injection h with h
  subst h
  rfl

/-- Two completed calls for the same process open the same number of streams, whatever the
states they start in. -/
theorem fd_do_pstree_impl_opens_same (nofile : Nat) (E : Procfs) (flag : Nat) :
    ∀ (fuel : Nat) (pid : Int) (il il1 : Nat) (s s1 t t1 : FdSt),
      Fd.do_pstree_impl nofile fuel E flag pid il s = .done s1 →
      Fd.do_pstree_impl nofile fuel E flag pid il1 t = .done t1 →
      s1.fds + t.fds = t1.fds + s.fds := by
  intro fuel
  induction fuel with
  | zero => intro pid il il1 s s1 t t1 h; simp [Fd.do_pstree_impl] at h
  | succ fuel ih =>
    intro pid il il1 s s1 t t1 h k
    unfold Fd.do_pstree_impl at h k
    obtain ⟨⟨cs, s4⟩, hh, h2⟩ := bind_eq_done h
    obtain ⟨s5, hl, h3⟩ := bind_eq_done h2
    obtain ⟨⟨cs1, t4⟩, kh, k2⟩ := bind_eq_done k
    obtain ⟨t5, kl, k3⟩ := bind_eq_done k2
    obtain ⟨p1, f1⟩ := fd_visit_head_done hh
    obtain ⟨q1, g1⟩ := fd_visit_head_done kh
    have hcs : cs = cs1 := visit_head_children_det p1 q1
    subst hcs
    have e2 := fd_for_children_opens_same (ih) hl kl
    have e3 : s5.fds + t4.fds = t5.fds + s4.fds := e2
    have e4 := fd_visit_end_fds h3
    have e5 := fd_visit_end_fds k3
    omega

/-- A run that has opened more than half of the streams it can open cannot be repeated: if a
second run in succession completes as well, twice the streams the first run left open fit
under the limit. -/
theorem fd_do_pstree_again_fits (nofile fuel : Nat) (E : Procfs) (flag : Nat) (pid : Int)
    (s1 s2 : FdSt) (h1 : Fd.do_pstree nofile fuel E flag pid FdSt.init = .done s1)
    (h2 : Fd.do_pstree nofile fuel E flag pid s1 = .done s2) :
    2 * s1.fds ≤ nofile := by
  have e := fd_do_pstree_impl_opens_same nofile E flag fuel pid 0 0 FdSt.init s1 s1 s2 h1 h2
  have l := fd_do_pstree_impl_le nofile E flag fuel pid 0 s1 s2 h2
  have z : FdSt.init.fds = 0 := rfl
  omega

end Pstree
